import Mathlib

/-!
# AABB / ray intersection demo: verification development

Shallow embedding of `src/src/Game.cpp` and `src/include/Game.hpp`.

* C++ `int` is modelled by `Int` (signed overflow is undefined behaviour in C++ and is
  not modelled); `/` on `int` truncates toward zero and is `Int.tdiv`.
* C++ `float` is modelled by `FVal`: the IEEE-754 special values NaN, -infinity and
  +infinity together with the finite values, which are rational numbers.  The two zeros
  of IEEE-754 compare equal and are one value `fin 0` here; it behaves as `+0` where the
  sign of a zero matters (division).  The operations `FVal.add`, `FVal.sub`, `FVal.mul`
  and `FVal.div` return the exact result; `FVal.round32` rounds an exact result to
  binary32 (nearest, ties to even, overflow to an infinity).
* Each function of the program that computes in `float` comes in two forms: with exact
  arithmetic (`AABBTavianIntersection`, `Tick`), which is what the statements "with exact
  arithmetic" are about, and with every conversion and operation rounded to binary32
  (`AABBTavianIntersection32`, `Tick32`), which is what the program computes.  Both are
  instances of one definition with the rounding as a parameter (`aabbWith`, `TickWith`).
* `std::vector<Cell>` is a `List Cell`.
* `Constants.hpp` is not among the sources: `constants::screen_width` and
  `constants::screen_height` are parameters of the constructor.
* The `while` loop of `Game::Run` that runs the due ticks takes a bound on its number of
  iterations (`fuel`) and returns `none` when the bound is reached; time is a rational
  number and the measured elapsed time is an argument.
-/

namespace AABB

/-! ## Floating-point values -/

/-- Values of the C++ type `float`: NaN, the two infinities, and the finite values. -/
inductive FVal where
  | nan : FVal
  | ninf : FVal
  | fin (q : ℚ) : FVal
  | pinf : FVal
  deriving DecidableEq

namespace FVal

/-- Conversion `int -> float`, exact (the program's conversion is `round32` of it). -/
def ofInt (i : Int) : FVal := fin (i : ℚ)

/-- Unary minus. -/
def neg : FVal → FVal
  | nan => nan
  | ninf => pinf
  | fin q => fin (-q)
  | pinf => ninf

/-- Addition `a + b`, exact on finite values: NaN propagates, `inf + (-inf)` is NaN. -/
def add : FVal → FVal → FVal
  | nan, _ => nan
  | _, nan => nan
  | pinf, ninf => nan
  | ninf, pinf => nan
  | pinf, _ => pinf
  | _, pinf => pinf
  | ninf, _ => ninf
  | _, ninf => ninf
  | fin a, fin b => fin (a + b)

/-- Subtraction `a - b`, exact on finite values: NaN propagates, `inf - inf` is NaN. -/
def sub : FVal → FVal → FVal
  | nan, _ => nan
  | _, nan => nan
  | pinf, pinf => nan
  | ninf, ninf => nan
  | pinf, _ => pinf
  | _, ninf => pinf
  | ninf, _ => ninf
  | _, pinf => ninf
  | fin a, fin b => fin (a - b)

/-- The product of an infinity (negative when `negInf`) with the finite value `q`:
`0 * inf` is NaN, otherwise the infinity carrying the product of the signs. -/
def infTimes (negInf : Bool) (q : ℚ) : FVal :=
  if q = 0 then nan
  else if q < 0 then (if negInf then pinf else ninf)
  else (if negInf then ninf else pinf)

/-- Multiplication `a * b`, exact on finite values: NaN propagates, `0 * inf` is NaN. -/
def mul : FVal → FVal → FVal
  | nan, _ => nan
  | _, nan => nan
  | pinf, pinf => pinf
  | ninf, ninf => pinf
  | pinf, ninf => ninf
  | ninf, pinf => ninf
  | pinf, fin b => infTimes false b
  | ninf, fin b => infTimes true b
  | fin a, pinf => infTimes false a
  | fin a, ninf => infTimes true a
  | fin a, fin b => fin (a * b)

/-- Division `a / b`, exact on finite values: NaN propagates, `0 / 0` and `inf / inf` are
NaN, a nonzero finite value over zero is an infinity, a finite value over an infinity is
zero. -/
def div : FVal → FVal → FVal
  | nan, _ => nan
  | _, nan => nan
  | fin a, fin b =>
    if b = 0 then
      (if a = 0 then nan else if a < 0 then ninf else pinf)
    else fin (a / b)
  | fin _, pinf => fin 0
  | fin _, ninf => fin 0
  | pinf, fin b => if b < 0 then ninf else pinf
  | ninf, fin b => if b < 0 then pinf else ninf
  | pinf, pinf => nan
  | pinf, ninf => nan
  | ninf, pinf => nan
  | ninf, ninf => nan

/-- Comparison `a < b`: false as soon as one side is NaN. -/
def lt : FVal → FVal → Bool
  | nan, _ => false
  | _, nan => false
  | ninf, ninf => false
  | ninf, _ => true
  | _, ninf => false
  | pinf, _ => false
  | fin _, pinf => true
  | fin a, fin b => decide (a < b)

/-- Comparison `a >= b`: false as soon as one side is NaN. -/
def ge : FVal → FVal → Bool
  | nan, _ => false
  | _, nan => false
  | _, ninf => true
  | pinf, _ => true
  | ninf, _ => false
  | fin _, pinf => false
  | fin a, fin b => decide (b ≤ a)

/-- `std::min(a, b)`, which is `(b < a) ? b : a`. -/
def stdMin (a b : FVal) : FVal := if lt b a then b else a

/-- `std::max(a, b)`, which is `(a < b) ? b : a`. -/
def stdMax (a b : FVal) : FVal := if lt a b then b else a

end FVal

/-! ## Data model (`Game.hpp`) -/

/-- `SDL_Rect`: integer rectangle. -/
structure SDL_Rect where
  x : Int
  y : Int
  w : Int
  h : Int
  deriving DecidableEq

/-- `SDL_Point`: integer point. -/
structure SDL_Point where
  x : Int
  y : Int
  deriving DecidableEq

/-- `SDL_FPoint`: point with `float` coordinates. -/
structure SDL_FPoint where
  x : FVal
  y : FVal
  deriving DecidableEq

/-- `struct Cell`. -/
structure Cell where
  rect_ : SDL_Rect
  is_wall_ : Bool
  highlighted_ : Bool
  deriving DecidableEq

/-- `struct PlayerBox`. -/
structure PlayerBox where
  box_ : SDL_Rect
  vx_ : Int
  vy_ : Int
  deriving DecidableEq

/-- `struct Ray`. -/
structure Ray where
  origin_ : SDL_FPoint
  inverse_ : SDL_FPoint
  dx_ : FVal
  dy_ : FVal
  deriving DecidableEq

/-! ## The intersection test -/

/-- `Game::AABBTavianIntersection` (Game.cpp, lines 325-337) with exact arithmetic. -/
def AABBTavianIntersection (rect : SDL_Rect) (ray : Ray) : Bool :=
  let tx1 := FVal.mul (FVal.sub (FVal.ofInt rect.x) ray.origin_.x) ray.inverse_.x
  let tx2 := FVal.mul (FVal.sub (FVal.ofInt (rect.x + rect.w)) ray.origin_.x) ray.inverse_.x
  let ty1 := FVal.mul (FVal.sub (FVal.ofInt rect.y) ray.origin_.y) ray.inverse_.y
  let ty2 := FVal.mul (FVal.sub (FVal.ofInt (rect.y + rect.h)) ray.origin_.y) ray.inverse_.y
  let tmin := FVal.stdMax (FVal.stdMin tx1 tx2) (FVal.stdMin ty1 ty2)
  let tmax := FVal.stdMin (FVal.stdMax tx1 tx2) (FVal.stdMax ty1 ty2)
  FVal.ge tmax tmin

/-! ## The session object (`class Game`) -/

/-- The data members of `class Game`; the window and renderer handles belong to the
external windowing library and are left out. -/
structure Game where
  initialized_ : Bool
  running_ : Bool
  cell_size_ : Int
  cells_width_ : Int
  cells_height_ : Int
  mouse_left_pressed_ : Bool
  mouse_right_pressed_ : Bool
  setting_walls_ : Bool
  render_line_ : Bool
  board_ : List Cell
  player_ : PlayerBox
  mouse_box_ : SDL_Rect
  mouse_position_ : SDL_Point
  deriving DecidableEq

/-- A value-initialised `Cell`, as `std::vector::resize` creates it. -/
def zeroCell : Cell := ⟨⟨0, 0, 0, 0⟩, false, false⟩

/-- The inner loop of the constructor (Game.cpp, lines 28-38) for row `y`. -/
def initRow (cell_size cells_width : Int) (y : Nat) (board : List Cell) : List Cell :=
  (List.range cells_width.toNat).foldl
    (fun b (x : Nat) =>
      let index : Int := (y : Int) * cells_width + (x : Int)
      b.set index.toNat
        ⟨⟨(x : Int) * cell_size, (y : Int) * cell_size, cell_size, cell_size⟩, false, false⟩)
    board

/-- The outer loop of the constructor (Game.cpp, lines 26-39). -/
def initBoard (cell_size cells_width cells_height : Int) (board : List Cell) : List Cell :=
  (List.range cells_height.toNat).foldl (fun b y => initRow cell_size cells_width y b) board

/-- `Game::Game()` (Game.cpp, lines 11-56).  `screen_width` and `screen_height` stand for
the constants of `Constants.hpp`, `init_ok` for the result of `Initialize()`. -/
def Game.new (screen_width screen_height : Nat) (init_ok : Bool) : Game :=
  let cell_size : Int := 32
  let cells_width : Int := (screen_width : Int).tdiv cell_size
  let cells_height : Int := (screen_height : Int).tdiv cell_size
  let box_size : Int := 10
  { initialized_ := init_ok
    running_ := false
    cell_size_ := cell_size
    cells_width_ := cells_width
    cells_height_ := cells_height
    mouse_left_pressed_ := false
    mouse_right_pressed_ := false
    setting_walls_ := true
    render_line_ := false
    board_ := initBoard cell_size cells_width cells_height
      (List.replicate (cells_width * cells_height).toNat zeroCell)
    player_ :=
      { box_ :=
          ⟨((screen_width : Int) * 1).tdiv 3 - box_size.tdiv 2,
           (screen_height : Int).tdiv 2 - box_size.tdiv 2, box_size, box_size⟩
        vx_ := 0
        vy_ := 0 }
    mouse_box_ :=
      ⟨((screen_width : Int) * 2).tdiv 3 - box_size.tdiv 2,
       (screen_height : Int).tdiv 2 - box_size.tdiv 2, box_size, box_size⟩
    mouse_position_ := ⟨0, 0⟩ }

/-! ## Input events -/

/-- The mouse buttons the handler distinguishes. -/
inductive Button where
  | left
  | right
  | other
  deriving DecidableEq

/-- The key symbols the handler distinguishes. -/
inductive Key where
  | w
  | a
  | s
  | d
  | other
  deriving DecidableEq

/-- The event types the handler distinguishes. -/
inductive Event where
  | quit
  | mouseButtonDown (button : Button)
  | mouseButtonUp (button : Button)
  | mouseMotion
  | keyDown (sym : Key)
  | keyUp (sym : Key)
  | other
  deriving DecidableEq

/-- One polled event together with the pointer position that `SDL_GetMouseState`
reports when the event is taken from the queue (Game.cpp, line 170). -/
structure Polled where
  mouse : SDL_Point
  e : Event
  deriving DecidableEq

/-- The cell index under the cached pointer position (Game.cpp, lines 187 and 226). -/
def pointerIndex (g : Game) : Int :=
  (g.mouse_position_.y.tdiv g.cell_size_) * g.cells_width_
    + (g.mouse_position_.x.tdiv g.cell_size_)

/-- The bounds check `index >= 0 && index < board_.size()` (Game.cpp, lines 189 and 228). -/
def indexInBounds (g : Game) (index : Int) : Bool :=
  decide (0 ≤ index) && decide (index < (g.board_.length : Int))

/-- The branch for `SDL_BUTTON_RIGHT` pressed (Game.cpp, lines 184-194). -/
def rightButtonDown (g : Game) : Game :=
  let g := { g with mouse_right_pressed_ := true }
  let index := pointerIndex g
  if indexInBounds g index then
    match g.board_[index.toNat]? with
    | some cell =>
      { g with
        setting_walls_ := !cell.is_wall_
        board_ := g.board_.modify (fun c => { c with is_wall_ := !c.is_wall_ }) index.toNat }
    | none => g
  else g

/-- The body of the loop over the board when `SDL_BUTTON_LEFT` is released
(Game.cpp, lines 203-211). -/
def clearHighlight (cell : Cell) : Cell :=
  if !cell.is_wall_ then cell else { cell with highlighted_ := false }

/-- The branch for `SDL_BUTTON_LEFT` released (Game.cpp, lines 198-212). -/
def leftButtonUp (g : Game) : Game :=
  { g with
    render_line_ := false
    mouse_left_pressed_ := false
    board_ := g.board_.map clearHighlight }

/-- The `if / else if` chain on quit and mouse buttons (Game.cpp, lines 172-217). -/
def onButtons (g : Game) : Event → Game
  | .quit => { g with running_ := false }
  | .mouseButtonDown .left => { g with render_line_ := true, mouse_left_pressed_ := true }
  | .mouseButtonDown .right => rightButtonDown g
  | .mouseButtonUp .left => leftButtonUp g
  | .mouseButtonUp .right => { g with mouse_right_pressed_ := false }
  | _ => g

/-- The `SDL_MOUSEMOTION` block (Game.cpp, lines 219-233). -/
def onMotion (g : Game) : Event → Game
  | .mouseMotion =>
    let g := { g with
      mouse_box_ :=
        { g.mouse_box_ with
          x := g.mouse_position_.x - g.mouse_box_.w.tdiv 2
          y := g.mouse_position_.y - g.mouse_box_.w.tdiv 2 } }
    if g.mouse_right_pressed_ then
      let index := pointerIndex g
      if indexInBounds g index then
        { g with
          board_ := g.board_.modify (fun c => { c with is_wall_ := g.setting_walls_ })
            index.toNat }
      else g
    else g
  | _ => g

/-- The key blocks (Game.cpp, lines 235-280). -/
def onKeys (g : Game) : Event → Game
  | .keyDown k =>
    let speed : Int := 5
    let g := if k = .w then { g with player_ := { g.player_ with vy_ := -speed } } else g
    let g := if k = .a then { g with player_ := { g.player_ with vx_ := -speed } } else g
    let g := if k = .s then { g with player_ := { g.player_ with vy_ := speed } } else g
    let g := if k = .d then { g with player_ := { g.player_ with vx_ := speed } } else g
    g
  | .keyUp k =>
    let g := if k = .w then { g with player_ := { g.player_ with vy_ := 0 } } else g
    let g := if k = .a then { g with player_ := { g.player_ with vx_ := 0 } } else g
    let g := if k = .s then { g with player_ := { g.player_ with vy_ := 0 } } else g
    let g := if k = .d then { g with player_ := { g.player_ with vx_ := 0 } } else g
    g
  | _ => g

/-- One iteration of the polling loop for the event `p.e`, the pointer being at
`p.mouse` (Game.cpp, lines 170-280).  For `quit` the iteration ends at the `return`;
the blocks after it test for other event types and so change nothing either way. -/
def handleEvent (g : Game) (p : Polled) : Game :=
  let g := { g with mouse_position_ := p.mouse }
  let g := onButtons g p.e
  let g := onMotion g p.e
  onKeys g p.e

/-- `Game::HandleEvents` (Game.cpp, lines 164-282) on the queue of pending events:
the loop takes the events in order and returns at the first `quit`. -/
def HandleEvents (g : Game) : List Polled → Game
  | [] => g
  | p :: rest =>
    if p.e = .quit then handleEvent g p
    else HandleEvents (handleEvent g p) rest

/-! ## The simulation step -/

/-- The ray built by `Game::Tick` (Game.cpp, lines 291-307) from the player box and
the mouse box, with exact arithmetic. -/
def tickRay (player_box mouse_box : SDL_Rect) : Ray :=
  let ox := FVal.add (FVal.ofInt player_box.x) (FVal.div (FVal.ofInt player_box.w) (FVal.fin 2))
  let oy := FVal.add (FVal.ofInt player_box.y) (FVal.div (FVal.ofInt player_box.h) (FVal.fin 2))
  let tx := FVal.add (FVal.ofInt mouse_box.x) (FVal.div (FVal.ofInt mouse_box.w) (FVal.fin 2))
  let ty := FVal.add (FVal.ofInt mouse_box.y) (FVal.div (FVal.ofInt mouse_box.h) (FVal.fin 2))
  let dx := FVal.sub tx ox
  let dy := FVal.sub ty oy
  { origin_ := ⟨ox, oy⟩
    inverse_ := ⟨FVal.div (FVal.fin 1) dx, FVal.div (FVal.fin 1) dy⟩
    dx_ := dx
    dy_ := dy }

/-- The position update `player_.box_.x += player_.vx_; player_.box_.y += player_.vy_`
(Game.cpp, lines 286-287). -/
def PlayerBox.moved (pl : PlayerBox) : PlayerBox :=
  { pl with box_ := { pl.box_ with x := pl.box_.x + pl.vx_, y := pl.box_.y + pl.vy_ } }

/-- The body of the loop over the board in `Game::Tick` (Game.cpp, lines 309-321), the
intersection test computed with exact arithmetic. -/
def highlightCell (ray : Ray) (cell : Cell) : Cell :=
  if !cell.is_wall_ then cell
  else if AABBTavianIntersection cell.rect_ ray then { cell with highlighted_ := true }
  else { cell with highlighted_ := false }

/-- `Game::Tick` (Game.cpp, lines 284-323), the ray and the intersection test computed
with exact arithmetic. -/
def Tick (g : Game) : Game :=
  let g := { g with player_ := g.player_.moved }
  if g.mouse_left_pressed_ then
    let ray := tickRay g.player_.box_ g.mouse_box_
    { g with board_ := g.board_.map (highlightCell ray) }
  else g

/-- One step of a session: an event taken from the queue, or a simulation tick. -/
inductive Step : Game → Game → Prop where
  | event (g : Game) (p : Polled) : Step g (handleEvent g p)
  | tick (g : Game) : Step g (Tick g)

/-- The states a session reaches from the constructed object. -/
inductive Reachable (screen_width screen_height : Nat) (init_ok : Bool) : Game → Prop where
  | init : Reachable screen_width screen_height init_ok
      (Game.new screen_width screen_height init_ok)
  | step {g g2 : Game} : Reachable screen_width screen_height init_ok g → Step g g2 →
      Reachable screen_width screen_height init_ok g2

/-- An input of a session: a polled event or a simulation tick. -/
inductive Input where
  | event (p : Polled)
  | tick
  deriving DecidableEq

/-- The state after one input. -/
def Game.apply (g : Game) : Input → Game
  | .event p => handleEvent g p
  | .tick => Tick g

/-- The state after a sequence of inputs. -/
def Game.run (g : Game) (inputs : List Input) : Game := inputs.foldl Game.apply g

/-! ## The loop driver (`Game::Run`) -/

/-- The fixed tick duration `ms = 1.0 / 60.0` (Game.cpp, line 124), exactly. -/
def tickDuration : ℚ := 1 / 60

/-- The loop `while (delta >= ms) { Tick(); delta -= ms; ++ticks; }` (Game.cpp, lines
143-148) with exact arithmetic.  `fuel` bounds the number of iterations; the result is
`none` when the loop has not ended within that bound, and otherwise the state, the
remaining debt and the tick counter at the exit of the loop. -/
def drainTicks (ms : ℚ) : Nat → Game → ℚ → Nat → Option (Game × ℚ × Nat)
  | 0, g, delta, ticks => if ms ≤ delta then none else some (g, delta, ticks)
  | fuel + 1, g, delta, ticks =>
    if ms ≤ delta then drainTicks ms fuel (Tick g) (delta - ms) (ticks + 1)
    else some (g, delta, ticks)

/-- One iteration of the loop of `Game::Run` (Game.cpp, lines 133-152) on the state, the
carried debt and the tick counter: `elapsed` is the measured time since the previous
iteration and `queue` the events pending in the event queue.  Rendering reads the state
and changes nothing. -/
def runIteration (ms : ℚ) (fuel : Nat) (g : Game) (delta : ℚ) (ticks : Nat) (elapsed : ℚ)
    (queue : List Polled) : Option (Game × ℚ × Nat) :=
  let delta := delta + elapsed
  let g := HandleEvents g queue
  drainTicks ms fuel g delta ticks

/-- The element `board_[index]` under the precondition of `std::vector::operator[]`: a value
for `0 <= index < size()`, none outside of that range. -/
def subscript (board : List Cell) (index : Int) : Option Cell :=
  if 0 ≤ index ∧ index < (board.length : Int) then board[index.toNat]? else none

/-- The branch for `SDL_BUTTON_RIGHT` pressed (Game.cpp, lines 184-194) with every
subscript of `board_` checked: the result is `none` when a subscript is out of range, and
otherwise the new state with the list of the indices at which `board_` was subscripted
(line 191 once, line 192 twice). -/
def rightButtonDownChecked (g : Game) : Option (Game × List Int) :=
  let g := { g with mouse_right_pressed_ := true }
  let index := pointerIndex g
  if indexInBounds g index then
    match subscript g.board_ index with
    | some cell =>
      some ({ g with
          setting_walls_ := !cell.is_wall_
          board_ := g.board_.modify (fun c => { c with is_wall_ := !c.is_wall_ }) index.toNat },
        [index, index, index])
    | none => none
  else some (g, [])

/-- The `SDL_MOUSEMOTION` block (Game.cpp, lines 219-233) with the subscript of `board_`
checked, in the same way as `rightButtonDownChecked`. -/
def onMotionChecked (g : Game) : Event → Option (Game × List Int)
  | .mouseMotion =>
    let g := { g with
      mouse_box_ :=
        { g.mouse_box_ with
          x := g.mouse_position_.x - g.mouse_box_.w.tdiv 2
          y := g.mouse_position_.y - g.mouse_box_.w.tdiv 2 } }
    if g.mouse_right_pressed_ then
      let index := pointerIndex g
      if indexInBounds g index then
        match subscript g.board_ index with
        | some _ =>
          some ({ g with
              board_ := g.board_.modify (fun c => { c with is_wall_ := g.setting_walls_ })
                index.toNat },
            [index])
        | none => none
      else some (g, [])
    else some (g, [])
  | _ => some (g, [])

/-! ## The arithmetic of `float` (IEEE-754 binary32)

The operations of `FVal` above compute exactly.  The program computes in binary32: every
conversion from `int` and every operation returns the exact result rounded to the nearest
binary32 value, ties to the even significand, and a result whose rounded magnitude reaches
`2^128` is an infinity.  `round32` is that rounding; the functions with suffix `32` are
the functions of the program with every conversion and operation rounded. -/

namespace FVal

/-- The integer nearest to `x`, the even one of the two when `x` is half-way. -/
def roundHalfEven (x : ℚ) : ℤ :=
  if x - (⌊x⌋ : ℚ) < 1 / 2 then ⌊x⌋
  else if 1 / 2 < x - (⌊x⌋ : ℚ) then ⌊x⌋ + 1
  else if ⌊x⌋ % 2 = 0 then ⌊x⌋
  else ⌊x⌋ + 1

/-- The binary32 exponent of `q > 0`: `floor (log2 q)`, and `-126` for the subnormal
numbers. -/
def exp32 (q : ℚ) : ℤ := max (Int.log 2 q) (-126)

/-- The distance between neighbouring binary32 values around `q > 0` (24-bit
significand). -/
def ulp32 (q : ℚ) : ℚ := (2 : ℚ) ^ (exp32 q - 23)

/-- The magnitude `q > 0` rounded to the nearest multiple of `ulp32 q`, ties to even. -/
def roundMag32 (q : ℚ) : ℚ := (roundHalfEven (q / ulp32 q) : ℚ) * ulp32 q

/-- The binary32 value of the exact result `q`: round to nearest, ties to even; overflow
gives an infinity. -/
def round32 (q : ℚ) : FVal :=
  if q = 0 then fin 0
  else if 0 < q then (if (2 : ℚ) ^ (128 : ℕ) ≤ roundMag32 q then pinf else fin (roundMag32 q))
  else (if (2 : ℚ) ^ (128 : ℕ) ≤ roundMag32 (-q) then ninf else fin (-roundMag32 (-q)))

/-- The result `v` of an exact operation as the rounding `r` delivers it: a finite result
is rounded, NaN and the infinities are kept. -/
def rounded (r : ℚ → FVal) : FVal → FVal
  | fin q => r q
  | v => v

end FVal

/-- `Game::AABBTavianIntersection` (Game.cpp, lines 325-337) with the rounding `r` applied
to every conversion and operation. -/
def aabbWith (r : ℚ → FVal) (rect : SDL_Rect) (ray : Ray) : Bool :=
  let tx1 := FVal.rounded r (FVal.mul
    (FVal.rounded r (FVal.sub (r (rect.x : ℚ)) ray.origin_.x)) ray.inverse_.x)
  let tx2 := FVal.rounded r (FVal.mul
    (FVal.rounded r (FVal.sub (r ((rect.x + rect.w : Int) : ℚ)) ray.origin_.x)) ray.inverse_.x)
  let ty1 := FVal.rounded r (FVal.mul
    (FVal.rounded r (FVal.sub (r (rect.y : ℚ)) ray.origin_.y)) ray.inverse_.y)
  let ty2 := FVal.rounded r (FVal.mul
    (FVal.rounded r (FVal.sub (r ((rect.y + rect.h : Int) : ℚ)) ray.origin_.y)) ray.inverse_.y)
  let tmin := FVal.stdMax (FVal.stdMin tx1 tx2) (FVal.stdMin ty1 ty2)
  let tmax := FVal.stdMin (FVal.stdMax tx1 tx2) (FVal.stdMax ty1 ty2)
  FVal.ge tmax tmin

/-- `Game::AABBTavianIntersection` in binary32 arithmetic. -/
def AABBTavianIntersection32 (rect : SDL_Rect) (ray : Ray) : Bool :=
  aabbWith FVal.round32 rect ray

/-- The centre `x + w / 2.0f`, `y + h / 2.0f` of a box (Game.cpp, lines 294-299) with the
rounding `r` applied to every conversion and operation. -/
def centerWith (r : ℚ → FVal) (b : SDL_Rect) : SDL_FPoint :=
  ⟨FVal.rounded r (FVal.add (r (b.x : ℚ)) (FVal.rounded r (FVal.div (r (b.w : ℚ)) (r 2)))),
   FVal.rounded r (FVal.add (r (b.y : ℚ)) (FVal.rounded r (FVal.div (r (b.h : ℚ)) (r 2))))⟩

/-- The ray built by `Game::Tick` (Game.cpp, lines 291-307) with the rounding `r` applied
to every conversion and operation. -/
def tickRayWith (r : ℚ → FVal) (player_box mouse_box : SDL_Rect) : Ray :=
  let o := centerWith r player_box
  let t := centerWith r mouse_box
  let dx := FVal.rounded r (FVal.sub t.x o.x)
  let dy := FVal.rounded r (FVal.sub t.y o.y)
  { origin_ := o
    inverse_ := ⟨FVal.rounded r (FVal.div (r 1) dx), FVal.rounded r (FVal.div (r 1) dy)⟩
    dx_ := dx
    dy_ := dy }

/-- The body of the loop over the board in `Game::Tick` (Game.cpp, lines 309-321) with the
intersection test computed with the rounding `r`. -/
def highlightCellWith (r : ℚ → FVal) (ray : Ray) (cell : Cell) : Cell :=
  if !cell.is_wall_ then cell
  else if aabbWith r cell.rect_ ray then { cell with highlighted_ := true }
  else { cell with highlighted_ := false }

/-- `Game::Tick` (Game.cpp, lines 284-323) with the rounding `r` applied to every `float`
conversion and operation. -/
def TickWith (r : ℚ → FVal) (g : Game) : Game :=
  let g := { g with player_ := g.player_.moved }
  if g.mouse_left_pressed_ then
    let ray := tickRayWith r g.player_.box_ g.mouse_box_
    { g with board_ := g.board_.map (highlightCellWith r ray) }
  else g

/-- `Game::Tick` in binary32 arithmetic. -/
def Tick32 (g : Game) : Game := TickWith FVal.round32 g

/-! ## Auxiliary definitions for the statements -/

/-- The ray of origin `(ox, oy)` and direction `(dx, dy)` with its inverse direction
computed as in `Game::Tick` (Game.cpp, lines 306-307). -/
def rayOf (ox oy dx dy : FVal) : Ray :=
  { origin_ := ⟨ox, oy⟩
    inverse_ := ⟨FVal.div (FVal.fin 1) dx, FVal.div (FVal.fin 1) dy⟩
    dx_ := dx
    dy_ := dy }

/-- The ray with the same origin and the opposite direction: IEEE-754 division is
symmetric in the sign, so the inverse `1/(-d)` of each negated component is `-(1/d)`,
for a zero `d` too (`1/(+0) = +inf`, `1/(-0) = -inf`). -/
def Ray.reversed (ray : Ray) : Ray :=
  { origin_ := ray.origin_
    inverse_ := ⟨FVal.neg ray.inverse_.x, FVal.neg ray.inverse_.y⟩
    dx_ := FVal.neg ray.dx_
    dy_ := FVal.neg ray.dy_ }

namespace FVal

/-- The value is `-inf` or a finite value `<= 0`. -/
def NonPos : FVal → Prop
  | ninf => True
  | fin q => q ≤ 0
  | _ => False

/-- The value is `+inf` or a finite value `>= 0`. -/
def NonNeg : FVal → Prop
  | pinf => True
  | fin q => 0 ≤ q
  | _ => False

end FVal

/-- The cell the constructor writes at column `x` of row `y`. -/
def gridCell (cell_size : Int) (x y : Nat) : Cell :=
  ⟨⟨(x : Int) * cell_size, (y : Int) * cell_size, cell_size, cell_size⟩, false, false⟩

/-- The centre of a rectangle in integer pixel coordinates, as the renderer computes it
for the end points of the line (Game.cpp, line 357). -/
def centerOf (r : SDL_Rect) : SDL_Point := ⟨r.x + r.w.tdiv 2, r.y + r.h.tdiv 2⟩

/-- The class invariant the constructor establishes and no member function breaks: a
positive cell size and a board of `cells_width * cells_height` cells. -/
structure Game.WF (g : Game) : Prop where
  cell_size_pos : 0 < g.cell_size_
  width_nonneg : 0 ≤ g.cells_width_
  height_nonneg : 0 ≤ g.cells_height_
  board_length : (g.board_.length : Int) = g.cells_width_ * g.cells_height_

/-- The facts about a session on the 25-column grid that the scenario below follows:
the flags of cell 78, the player at rest at its initial place, the mouse box centred on
`(112, 112)`, and the ray-casting mode. -/
structure Scene (g : Game) (wall hl left : Bool) : Prop where
  cs : g.cell_size_ = 32
  cw : g.cells_width_ = 25
  cell : g.board_[78]? = some ⟨⟨96, 96, 32, 32⟩, wall, hl⟩
  player : g.player_ = ⟨⟨261, 295, 10, 10⟩, 0, 0⟩
  mbox : g.mouse_box_ = ⟨107, 107, 10, 10⟩
  left : g.mouse_left_pressed_ = left

/-- A session on the 800 x 600 board: the pointer moves to `(112, 112)`, a secondary click
builds a wall in cell 78, the primary button is pressed and one tick highlights that wall,
and a second secondary click removes the wall while the primary button is still held. -/
def staleHighlightInputs : List Input :=
  [ .event ⟨⟨112, 112⟩, .mouseMotion⟩,
    .event ⟨⟨112, 112⟩, .mouseButtonDown .right⟩,
    .event ⟨⟨112, 112⟩, .mouseButtonUp .right⟩,
    .event ⟨⟨112, 112⟩, .mouseButtonDown .left⟩,
    .tick,
    .event ⟨⟨112, 112⟩, .mouseButtonDown .right⟩,
    .event ⟨⟨112, 112⟩, .mouseButtonUp .right⟩ ]

/-- The board the constructor builds (Game.cpp, lines 15-16 and 24-39), as a function of
the cell size and of the screen dimensions. -/
def constructBoard (cell_size : Int) (screen_width screen_height : Nat) : List Cell :=
  let cells_width : Int := (screen_width : Int).tdiv cell_size
  let cells_height : Int := (screen_height : Int).tdiv cell_size
  initBoard cell_size cells_width cells_height
    (List.replicate (cells_width * cells_height).toNat zeroCell)

/-- The centre of a box in `float`, `x + w / 2.0f` and `y + h / 2.0f`, as `Game::Tick`
computes it (Game.cpp, lines 294-299). -/
def centerF (r : SDL_Rect) : SDL_FPoint :=
  ⟨FVal.add (FVal.ofInt r.x) (FVal.div (FVal.ofInt r.w) (FVal.fin 2)),
   FVal.add (FVal.ofInt r.y) (FVal.div (FVal.ofInt r.h) (FVal.fin 2))⟩

/-- The player box after the position update of a tick. -/
def movedBox (g : Game) : SDL_Rect :=
  ⟨g.player_.box_.x + g.player_.vx_, g.player_.box_.y + g.player_.vy_,
    g.player_.box_.w, g.player_.box_.h⟩

/-- The ray from the centre of the moved player box to the centre of the mouse box: the
direction is the mouse-box centre minus the origin, the inverse is `(1/dx, 1/dy)`. -/
def playerToMouseRay (g : Game) : Ray :=
  rayOf (centerF (movedBox g)).x (centerF (movedBox g)).y
    (FVal.sub (centerF g.mouse_box_).x (centerF (movedBox g)).x)
    (FVal.sub (centerF g.mouse_box_).y (centerF (movedBox g)).y)

/-- The vertical velocity a key event asks for: `-5` for W pressed, `+5` for S pressed,
`0` for W or S released; no value for any other event. -/
def vyEffect : Event → Option Int
  | .keyDown .w => some (-5)
  | .keyDown .s => some 5
  | .keyUp .w => some 0
  | .keyUp .s => some 0
  | _ => none

/-- The horizontal velocity a key event asks for: `-5` for A pressed, `+5` for D pressed,
`0` for A or D released; no value for any other event. -/
def vxEffect : Event → Option Int
  | .keyDown .a => some (-5)
  | .keyDown .d => some 5
  | .keyUp .a => some 0
  | .keyUp .d => some 0
  | _ => none

/-- The velocity an input asks for on the axis of `effect`; a tick asks for none. -/
def Input.effect (effect : Event → Option Int) : Input → Option Int
  | .event p => effect p.e
  | .tick => none

/-- The value asked for by the last input of the sequence that asks for one on the axis
of `effect`, or `init` when there is no such input. -/
def lastEffect (effect : Event → Option Int) (inputs : List Input) (init : Int) : Int :=
  ((inputs.filterMap (Input.effect effect)).getLast?).getD init

/-- The events of the queue up to and including the first `quit`. -/
def untilQuit : List Polled → List Polled
  | [] => []
  | p :: rest => if p.e = .quit then [p] else p :: untilQuit rest

namespace FVal

/-- The value is `-inf` or a finite value `<= 1`. -/
def LeOne : FVal → Prop
  | ninf => True
  | fin q => q ≤ 1
  | _ => False

/-- The value is `+inf` or a finite value `>= 1`. -/
def GeOne : FVal → Prop
  | pinf => True
  | fin q => 1 ≤ q
  | _ => False

end FVal

/-- The pointer position lies inside the grid `[0, cells_width * cell_size) x
[0, cells_height * cell_size)`. -/
def InGrid (g : Game) (q : SDL_Point) : Prop :=
  (0 ≤ q.x ∧ q.x < g.cells_width_ * g.cell_size_) ∧
    (0 ≤ q.y ∧ q.y < g.cells_height_ * g.cell_size_)

/-- The index of the cell under the pointer position `q`, `(qy / cell_size) * cells_width +
(qx / cell_size)`, as a natural number. -/
def cellAt (g : Game) (q : SDL_Point) : Nat :=
  (q.y.tdiv g.cell_size_ * g.cells_width_ + q.x.tdiv g.cell_size_).toNat

/-- The state after the pointer-moved events at the positions `qs`, in order. -/
def dragOver (g : Game) (qs : List SDL_Point) : Game :=
  qs.foldl (fun s q => handleEvent s ⟨q, .mouseMotion⟩) g

/-- The state `s` belongs to a drag over the grid of `g` with paint value `v`: the
secondary button is held, the paint value is `v`, and the grid is that of `g`. -/
structure Painting (g s : Game) (v : Bool) : Prop where
  held : s.mouse_right_pressed_ = true
  paint : s.setting_walls_ = v
  cs : s.cell_size_ = g.cell_size_
  cw : s.cells_width_ = g.cells_width_
  len : s.board_.length = g.board_.length

/-- The start of a ray-casting session on the 800 x 600 board: the pointer moves to
`(112, 112)`, a secondary click builds a wall in cell 78, and the primary button is
pressed. -/
def aimedWallInputs : List Input :=
  [ .event ⟨⟨112, 112⟩, .mouseMotion⟩,
    .event ⟨⟨112, 112⟩, .mouseButtonDown .right⟩,
    .event ⟨⟨112, 112⟩, .mouseButtonUp .right⟩,
    .event ⟨⟨112, 112⟩, .mouseButtonDown .left⟩ ]

/-- `aimedWallInputs` followed by one tick, which highlights the wall in cell 78. -/
def highlightedWallInputs : List Input := aimedWallInputs ++ [.tick]

/-- `aimedWallInputs` followed by D pressed: the ray is active and the player moves to the
right at speed 5. -/
def movingRayInputs : List Input := aimedWallInputs ++ [.event ⟨⟨112, 112⟩, .keyDown .d⟩]

/-- `staleHighlightInputs` followed by the release of the primary button, a secondary click
that rebuilds the wall in cell 78 (still carrying `highlighted = true`) and D pressed:
the ray is inactive and the player moves to the right at speed 5. -/
def movingNoRayInputs : List Input :=
  staleHighlightInputs ++
    [ .event ⟨⟨112, 112⟩, .mouseButtonUp .left⟩,
      .event ⟨⟨112, 112⟩, .mouseButtonDown .right⟩,
      .event ⟨⟨112, 112⟩, .mouseButtonUp .right⟩,
      .event ⟨⟨112, 112⟩, .keyDown .d⟩ ]

/-- The finite values of binary32: `m * 2^k` with a significand `|m| < 2^24` and an
exponent `-149 <= k <= 104`. -/
def IsBinary32 (q : ℚ) : Prop :=
  ∃ m k : ℤ, |m| < 2 ^ 24 ∧ -149 ≤ k ∧ k ≤ 104 ∧ q = (m : ℚ) * (2 : ℚ) ^ k

namespace FVal

/-- The value is `+inf` or a finite value `> 0`. -/
def StrictPos : FVal → Prop
  | pinf => True
  | fin q => 0 < q
  | _ => False

/-- The value is `-inf` or a finite value `< 0`. -/
def StrictNeg : FVal → Prop
  | ninf => True
  | fin q => q < 0
  | _ => False

end FVal

/-- The ray of origin `(ox, oy)` and direction `(dx, dy)` with its inverse direction
computed as in `Game::Tick` (Game.cpp, lines 306-307), every conversion and operation
rounded by `r`. -/
def rayOfWith (r : ℚ → FVal) (ox oy dx dy : FVal) : Ray :=
  { origin_ := ⟨ox, oy⟩
    inverse_ := ⟨FVal.rounded r (FVal.div (r 1) dx), FVal.rounded r (FVal.div (r 1) dy)⟩
    dx_ := dx
    dy_ := dy }

/-- The ray of origin `(ox, oy)` and direction `(dx, dy)` with its inverse direction
computed in binary32 arithmetic. -/
def rayOf32 (ox oy dx dy : FVal) : Ray := rayOfWith FVal.round32 ox oy dx dy

/-- The coordinates and the size of the box are of magnitude at most `2^21`. -/
def SDL_Rect.Small (b : SDL_Rect) : Prop :=
  |b.x| ≤ 2 ^ 21 ∧ |b.y| ≤ 2 ^ 21 ∧ |b.w| ≤ 2 ^ 21 ∧ |b.h| ≤ 2 ^ 21

/-- The state `g` with the player box and velocity replaced by `p`. -/
def Game.withPlayer (g : Game) (p : PlayerBox) : Game := { g with player_ := p }

/-- The session after `highlightedWallInputs` (cell 78 a highlighted wall, the mouse box
centred on `(112, 112)`, the ray active) with the player box at rest far from the board,
at `(1000000001, 500000000)`. -/
def farPlayerState : Game :=
  ((Game.new 800 600 true).run highlightedWallInputs).withPlayer
    ⟨⟨1000000001, 500000000, 10, 10⟩, 0, 0⟩

/-! ## Lemmas on floating-point values -/

namespace FVal

theorem stdMin_fin (a b : ℚ) : stdMin (fin a) (fin b) = fin (min a b) := by
  unfold stdMin lt
  by_cases h : b < a
  · simp [h, min_eq_right h.le]
  · simp [h, min_eq_left (not_lt.mp h)]

theorem stdMax_fin (a b : ℚ) : stdMax (fin a) (fin b) = fin (max a b) := by
  unfold stdMax lt
  by_cases h : a < b
  · simp [h, max_eq_right h.le]
  · simp [h, max_eq_left (not_lt.mp h)]

theorem ge_fin (a b : ℚ) : ge (fin a) (fin b) = decide (b ≤ a) := rfl

theorem div_one_fin {d : ℚ} (hd : d ≠ 0) : div (fin 1) (fin d) = fin (1 / d) := by
  simp [div, hd]

end FVal

/-- The parameters `t` at which a line with nonzero direction component `d` is inside a
slab `[lo, hi]` form the interval between the two candidate distances. -/
theorem slab_interval (lo hi d t : ℝ) (hd : d ≠ 0) (hle : lo ≤ hi) :
    (lo ≤ t * d ∧ t * d ≤ hi) ↔
      (min (lo * (1 / d)) (hi * (1 / d)) ≤ t ∧ t ≤ max (lo * (1 / d)) (hi * (1 / d))) := by
  rcases lt_or_gt_of_ne hd with hneg | hpos
  · have h1 : hi * (1 / d) ≤ lo * (1 / d) := by
      rw [mul_one_div, mul_one_div]
      exact div_le_div_of_nonpos_of_le hneg.le hle
    rw [min_eq_right h1, max_eq_left h1, mul_one_div, mul_one_div,
      div_le_iff_of_neg hneg, le_div_iff_of_neg hneg]
    tauto
  · have h1 : lo * (1 / d) ≤ hi * (1 / d) := by
      rw [mul_one_div, mul_one_div]
      exact div_le_div_of_nonneg_right hle hpos.le
    rw [min_eq_left h1, max_eq_right h1, mul_one_div, mul_one_div,
      div_le_iff₀ hpos, le_div_iff₀ hpos]

/-- Two closed intervals of reals meet exactly when the larger of the lower ends is at
most the smaller of the upper ends. -/
theorem intervals_meet (a b c d : ℝ) :
    (∃ t : ℝ, (a ≤ t ∧ t ≤ b) ∧ (c ≤ t ∧ t ≤ d)) ↔ max a c ≤ min b d := by
  constructor
  · rintro ⟨t, ⟨h1, h2⟩, h3, h4⟩
    exact le_trans (max_le h1 h3) (le_min h2 h4)
  · intro h
    refine ⟨max a c, ⟨le_max_left _ _, ?_⟩, le_max_right _ _, ?_⟩
    · exact le_trans h (min_le_left _ _)
    · exact le_trans h (min_le_right _ _)

/-- C1: with exact arithmetic, for a rectangle with `w >= 0` and `h >= 0`, a finite origin
and a direction `(dx, dy)` with both components nonzero, `AABBTavianIntersection` on the
ray with inverse `(1/dx, 1/dy)` returns true exactly when some real `t` (of any sign)
puts `origin + t * (dx, dy)` in the closed rectangle `[x, x+w] x [y, y+h]`. -/
theorem aabb_decides_line_intersection (rect : SDL_Rect) (ox oy dx dy : ℚ)
    (hw : 0 ≤ rect.w) (hh : 0 ≤ rect.h) (hdx : dx ≠ 0) (hdy : dy ≠ 0) :
    AABBTavianIntersection rect
        (rayOf (FVal.fin ox) (FVal.fin oy) (FVal.fin dx) (FVal.fin dy)) = true ↔
      ∃ t : ℝ, ((rect.x : ℝ) ≤ (ox : ℝ) + t * (dx : ℝ) ∧
                (ox : ℝ) + t * (dx : ℝ) ≤ (rect.x : ℝ) + (rect.w : ℝ)) ∧
               ((rect.y : ℝ) ≤ (oy : ℝ) + t * (dy : ℝ) ∧
                (oy : ℝ) + t * (dy : ℝ) ≤ (rect.y : ℝ) + (rect.h : ℝ)) := by
  have hdx' : (dx : ℝ) ≠ 0 := by exact_mod_cast hdx
  have hdy' : (dy : ℝ) ≠ 0 := by exact_mod_cast hdy
  have hw' : ((rect.x : ℝ) - ox) ≤ ((rect.x : ℝ) + rect.w - ox) := by
    have : (0 : ℝ) ≤ rect.w := by exact_mod_cast hw
    linarith
  have hh' : ((rect.y : ℝ) - oy) ≤ ((rect.y : ℝ) + rect.h - oy) := by
    have : (0 : ℝ) ≤ rect.h := by exact_mod_cast hh
    linarith
  have key : ∀ t : ℝ,
      (((rect.x : ℝ) ≤ (ox : ℝ) + t * (dx : ℝ) ∧
          (ox : ℝ) + t * (dx : ℝ) ≤ (rect.x : ℝ) + (rect.w : ℝ)) ∧
        ((rect.y : ℝ) ≤ (oy : ℝ) + t * (dy : ℝ) ∧
          (oy : ℝ) + t * (dy : ℝ) ≤ (rect.y : ℝ) + (rect.h : ℝ))) ↔
      ((min (((rect.x : ℝ) - ox) * (1 / dx)) (((rect.x : ℝ) + rect.w - ox) * (1 / dx)) ≤ t ∧
          t ≤ max (((rect.x : ℝ) - ox) * (1 / dx)) (((rect.x : ℝ) + rect.w - ox) * (1 / dx))) ∧
        (min (((rect.y : ℝ) - oy) * (1 / dy)) (((rect.y : ℝ) + rect.h - oy) * (1 / dy)) ≤ t ∧
          t ≤ max (((rect.y : ℝ) - oy) * (1 / dy)) (((rect.y : ℝ) + rect.h - oy) * (1 / dy)))) := by
    intro t
    rw [← slab_interval _ _ _ t hdx' hw', ← slab_interval _ _ _ t hdy' hh']
    constructor
    · rintro ⟨⟨h1, h2⟩, h3, h4⟩
      exact ⟨⟨by linarith, by linarith⟩, by linarith, by linarith⟩
    · rintro ⟨⟨h1, h2⟩, h3, h4⟩
      exact ⟨⟨by linarith, by linarith⟩, by linarith, by linarith⟩
  rw [exists_congr key, intervals_meet]
  simp only [AABBTavianIntersection, rayOf, FVal.ofInt, FVal.div_one_fin hdx,
    FVal.div_one_fin hdy, FVal.sub, FVal.mul, FVal.stdMin_fin, FVal.stdMax_fin, FVal.ge_fin,
    decide_eq_true_eq]
  rw [← Rat.cast_le (K := ℝ)]
  push_cast
  rfl

/-- Witness for C1: the line through `(-1, 1)` with direction `(1, 1)` meets the square
`[0, 2] x [0, 2]` (at `t = 1`), and the test returns true. -/
theorem aabb_decides_line_intersection_witness :
    AABBTavianIntersection ⟨0, 0, 2, 2⟩
      (rayOf (FVal.fin (-1)) (FVal.fin 1) (FVal.fin 1) (FVal.fin 1)) = true :=
  (aabb_decides_line_intersection ⟨0, 0, 2, 2⟩ (-1) 1 1 1 (by decide) (by decide)
    (by norm_num) (by norm_num)).mpr ⟨1, by norm_num⟩

/-! ### Signs of the candidate distances -/

namespace FVal

theorem stdMax_nonPos {a b : FVal} (ha : NonPos a) (hb : NonPos b) : NonPos (stdMax a b) := by
  unfold stdMax
  split <;> assumption

theorem stdMin_nonNeg {a b : FVal} (ha : NonNeg a) (hb : NonNeg b) : NonNeg (stdMin a b) := by
  unfold stdMin
  split <;> assumption

theorem ge_of_nonNeg_nonPos {a b : FVal} (ha : NonNeg a) (hb : NonPos b) : ge a b = true := by
  cases a <;> cases b <;> simp_all [NonNeg, NonPos, ge]
  exact le_trans hb ha

/-- For `a < 0 < b` and an inverse component `i` that is not NaN, the candidate distances
`a * i` and `b * i` enclose zero. -/
theorem slab_encloses_zero {a b : ℚ} (ha : a < 0) (hb : 0 < b) {i : FVal} (hi : i ≠ nan) :
    NonPos (stdMin (mul (fin a) i) (mul (fin b) i)) ∧
      NonNeg (stdMax (mul (fin a) i) (mul (fin b) i)) := by
  cases i with
  | nan => exact absurd rfl hi
  | ninf =>
    simp [mul, infTimes, ha.ne, hb.ne', ha, not_lt.mpr hb.le, stdMin, stdMax, lt, NonPos, NonNeg]
  | pinf =>
    simp [mul, infTimes, ha.ne, hb.ne', ha, not_lt.mpr hb.le, stdMin, stdMax, lt, NonPos, NonNeg]
  | fin q =>
    simp only [mul, stdMin_fin, stdMax_fin, NonPos, NonNeg]
    rcases le_total 0 q with hq | hq
    · exact ⟨le_trans (min_le_left _ _) (mul_nonpos_of_nonpos_of_nonneg ha.le hq),
        le_trans (mul_nonneg hb.le hq) (le_max_right _ _)⟩
    · exact ⟨le_trans (min_le_right _ _) (mul_nonpos_of_nonneg_of_nonpos hb.le hq),
        le_trans (mul_nonneg_of_nonpos_of_nonpos ha.le hq) (le_max_left _ _)⟩

end FVal

theorem FVal.div_one_ne_nan {d : FVal} (hd : d ≠ FVal.nan) :
    FVal.div (FVal.fin 1) d ≠ FVal.nan := by
  cases d with
  | nan => exact absurd rfl hd
  | ninf => simp [FVal.div]
  | pinf => simp [FVal.div]
  | fin q =>
    by_cases hq : q = 0
    · have h10 : ¬ ((1 : ℚ) < 0) := by norm_num
      simp [FVal.div, hq, h10]
    · simp [FVal.div, hq]

/-- With exact arithmetic: for a ray whose origin lies strictly inside the rectangle (so
`w > 0` and `h > 0`), the intersection test returns true whatever the inverse direction,
as long as its components are not NaN: finite values (nonzero direction components),
`+inf` or `-inf` (zero direction components), zero (infinite direction components); in
particular for the ray built from any direction `(dx, dy)` without NaN component, zero
components included. -/
theorem aabb_origin_inside (rect : SDL_Rect) (ox oy : ℚ)
    (hx1 : (rect.x : ℚ) < ox) (hx2 : ox < ((rect.x + rect.w : Int) : ℚ))
    (hy1 : (rect.y : ℚ) < oy) (hy2 : oy < ((rect.y + rect.h : Int) : ℚ)) :
    (∀ ix iy dx dy : FVal, ix ≠ FVal.nan → iy ≠ FVal.nan →
      AABBTavianIntersection rect ⟨⟨FVal.fin ox, FVal.fin oy⟩, ⟨ix, iy⟩, dx, dy⟩ = true) ∧
    (∀ dx dy : FVal, dx ≠ FVal.nan → dy ≠ FVal.nan →
      AABBTavianIntersection rect (rayOf (FVal.fin ox) (FVal.fin oy) dx dy) = true) := by
  have key : ∀ ix iy dx dy : FVal, ix ≠ FVal.nan → iy ≠ FVal.nan →
      AABBTavianIntersection rect ⟨⟨FVal.fin ox, FVal.fin oy⟩, ⟨ix, iy⟩, dx, dy⟩ = true := by
    intro ix iy dx dy hix hiy
    have hx := FVal.slab_encloses_zero (sub_neg.mpr hx1) (sub_pos.mpr hx2) hix
    have hy := FVal.slab_encloses_zero (sub_neg.mpr hy1) (sub_pos.mpr hy2) hiy
    simp only [AABBTavianIntersection, FVal.ofInt, FVal.sub]
    exact FVal.ge_of_nonNeg_nonPos (FVal.stdMin_nonNeg hx.2 hy.2)
      (FVal.stdMax_nonPos hx.1 hy.1)
  exact ⟨key, fun dx dy hdx hdy =>
    key _ _ dx dy (FVal.div_one_ne_nan hdx) (FVal.div_one_ne_nan hdy)⟩

/-! ### Negation -/

namespace FVal

theorem infTimes_neg (n : Bool) (q : ℚ) : infTimes n (-q) = neg (infTimes n q) := by
  unfold infTimes
  rcases lt_trichotomy q 0 with h | h | h
  · have h2 : ¬ (0 < q) := not_lt.mpr h.le
    cases n <;> simp [h, h.ne, h2, neg]
  · simp [h, neg]
  · have h2 : ¬ (q < 0) := not_lt.mpr h.le
    cases n <;> simp [h, h.ne', h2, neg]

theorem infTimes_not (n : Bool) (q : ℚ) : infTimes (!n) q = neg (infTimes n q) := by
  unfold infTimes
  by_cases h0 : q = 0
  · simp [h0, neg]
  · by_cases h : q < 0 <;> cases n <;> simp [h0, h, neg]

theorem mul_neg_right (a i : FVal) : mul a (neg i) = neg (mul a i) := by
  cases a <;> cases i <;>
    first
      | rfl
      | exact infTimes_neg _ _
      | exact infTimes_not true _
      | exact infTimes_not false _
      | (show fin _ = fin _; rw [mul_neg])

theorem lt_neg_neg (a b : FVal) : lt (neg a) (neg b) = lt b a := by
  cases a <;> cases b <;> simp [lt, neg]

theorem ge_neg_neg (a b : FVal) : ge (neg a) (neg b) = ge b a := by
  cases a <;> cases b <;> simp [ge, neg]

theorem stdMin_neg_neg (a b : FVal) : stdMin (neg a) (neg b) = neg (stdMax a b) := by
  unfold stdMin stdMax
  rw [lt_neg_neg]
  split <;> rfl

theorem stdMax_neg_neg (a b : FVal) : stdMax (neg a) (neg b) = neg (stdMin a b) := by
  unfold stdMin stdMax
  rw [lt_neg_neg]
  split <;> rfl

theorem mul_pinf_of_pos {a : ℚ} (h : 0 < a) : mul (fin a) pinf = pinf := by
  simp [mul, infTimes, h.ne', not_lt.mpr h.le]

theorem mul_pinf_of_neg {a : ℚ} (h : a < 0) : mul (fin a) pinf = ninf := by
  simp [mul, infTimes, h.ne, h]

theorem div_one_neg {d : FVal} (hd : d ≠ fin 0) :
    div (fin 1) (neg d) = neg (div (fin 1) d) := by
  cases d with
  | nan => rfl
  | ninf => simp [div, neg]
  | pinf => simp [div, neg]
  | fin q =>
    have hq : q ≠ 0 := fun h => hd (by rw [h])
    simp [div, neg, hq, div_neg]

end FVal

/-- C3: `AABBTavianIntersection` gives the same result for a ray and for the ray with the
same origin and the opposite direction, for every rectangle, origin and inverse direction
(NaN and infinities included); so a cell behind the origin on the line is reported as
intersected exactly as if it lay ahead.  For a direction `(dx, dy)` without zero component
the reversed ray of `rayOf ox oy dx dy` is `rayOf ox oy (-dx) (-dy)`. -/
theorem aabb_symmetric_under_negation (rect : SDL_Rect) (ray : Ray) :
    AABBTavianIntersection rect ray.reversed = AABBTavianIntersection rect ray ∧
      ∀ ox oy dx dy : FVal, dx ≠ FVal.fin 0 → dy ≠ FVal.fin 0 →
        (rayOf ox oy dx dy).reversed = rayOf ox oy (FVal.neg dx) (FVal.neg dy) := by
  constructor
  · simp only [AABBTavianIntersection, Ray.reversed, FVal.mul_neg_right, FVal.stdMin_neg_neg,
      FVal.stdMax_neg_neg, FVal.ge_neg_neg]
  · intro ox oy dx dy hdx hdy
    simp only [Ray.reversed, rayOf, FVal.div_one_neg hdx, FVal.div_one_neg hdy]

/-- Witness for C3: the square `[3, 4] x [3, 4]` lies on the diagonal through the origin;
the test reports it for direction `(1, 1)` and for direction `(-1, -1)` alike. -/
theorem aabb_symmetric_under_negation_witness :
    AABBTavianIntersection ⟨3, 3, 1, 1⟩
        (rayOf (FVal.fin 0) (FVal.fin 0) (FVal.fin (-1)) (FVal.fin (-1))) =
      AABBTavianIntersection ⟨3, 3, 1, 1⟩
        (rayOf (FVal.fin 0) (FVal.fin 0) (FVal.fin 1) (FVal.fin 1)) := by
  have h := aabb_symmetric_under_negation ⟨3, 3, 1, 1⟩
    (rayOf (FVal.fin 0) (FVal.fin 0) (FVal.fin 1) (FVal.fin 1))
  have h2 := h.2 (FVal.fin 0) (FVal.fin 0) (FVal.fin 1) (FVal.fin 1) (by simp) (by simp)
  rw [h2] at h
  simpa [FVal.neg] using h.1

/-- With exact arithmetic: for the horizontal direction `(1, 0)`, whose inverse is
`(1, +inf)`, and a rectangle with `h >= 0` lying entirely above or entirely below the line
of the ray (`origin.y < y` or `origin.y > y + h`), the intersection test returns false. -/
theorem aabb_horizontal_miss (rect : SDL_Rect) (ox oy : ℚ) (hh : 0 ≤ rect.h)
    (hout : oy < (rect.y : ℚ) ∨ ((rect.y + rect.h : Int) : ℚ) < oy) :
    (rayOf (FVal.fin ox) (FVal.fin oy) (FVal.fin 1) (FVal.fin 0)).inverse_
        = ⟨FVal.fin 1, FVal.pinf⟩ ∧
      AABBTavianIntersection rect
        (rayOf (FVal.fin ox) (FVal.fin oy) (FVal.fin 1) (FVal.fin 0)) = false := by
  have hh' : (rect.y : ℚ) ≤ ((rect.y + rect.h : Int) : ℚ) := by
    have : (0 : ℚ) ≤ rect.h := by exact_mod_cast hh
    push_cast
    linarith
  have hinv : FVal.div (FVal.fin 1) (FVal.fin 0) = FVal.pinf := by simp [FVal.div]
  have hone : FVal.div (FVal.fin 1) (FVal.fin 1) = FVal.fin 1 := by simp [FVal.div]
  refine ⟨by simp only [rayOf, hinv, hone], ?_⟩
  simp only [AABBTavianIntersection, rayOf, hinv, hone, FVal.ofInt, FVal.sub]
  rcases hout with h | h
  · rw [FVal.mul_pinf_of_pos (show 0 < (rect.y : ℚ) - oy by linarith),
      FVal.mul_pinf_of_pos (show 0 < ((rect.y + rect.h : Int) : ℚ) - oy by linarith)]
    simp only [FVal.mul, FVal.stdMin_fin, FVal.stdMax_fin]
    rfl
  · rw [FVal.mul_pinf_of_neg (show (rect.y : ℚ) - oy < 0 by linarith),
      FVal.mul_pinf_of_neg (show ((rect.y + rect.h : Int) : ℚ) - oy < 0 by linarith)]
    simp only [FVal.mul, FVal.stdMin_fin, FVal.stdMax_fin]
    rfl

/-! ## The board built by the constructor -/

theorem initRow_prefix (cs : Int) (W y : Nat) (b : List Cell) (n : Nat) :
    ((List.range n).foldl
        (fun b (x : Nat) => b.set ((y : Int) * (W : Int) + (x : Int)).toNat (gridCell cs x y))
        b).length
        = b.length ∧
    ∀ j : Nat,
      ((List.range n).foldl
        (fun b (x : Nat) => b.set ((y : Int) * (W : Int) + (x : Int)).toNat (gridCell cs x y))
        b)[j]?
        = if y * W ≤ j ∧ j < y * W + n ∧ j < b.length then some (gridCell cs (j - y * W) y)
          else b[j]? := by
  induction n with
  | zero =>
    refine ⟨rfl, fun j => ?_⟩
    have : ¬ (y * W ≤ j ∧ j < y * W + 0 ∧ j < b.length) := by omega
    rw [if_neg this]
    rfl
  | succ n ih =>
    obtain ⟨ihl, ihg⟩ := ih
    have hidx : ((y : Int) * (W : Int) + (n : Int)).toNat = y * W + n := by
      have : ((y : Int) * (W : Int) + (n : Int)) = ((y * W + n : Nat) : Int) := by push_cast; ring
      rw [this, Int.toNat_natCast]
    rw [List.range_succ, List.foldl_append]
    simp only [List.foldl_cons, List.foldl_nil, List.length_set, hidx]
    refine ⟨ihl, fun j => ?_⟩
    rw [List.getElem?_set, ihl, ihg]
    by_cases hj : y * W + n = j
    · subst hj
      by_cases hlen : y * W + n < b.length
      · have h1 : y * W ≤ y * W + n ∧ y * W + n < y * W + (n + 1) ∧ y * W + n < b.length := by
          omega
        rw [if_pos rfl, if_pos hlen, if_pos h1, Nat.add_sub_cancel_left]
      · have h1 : ¬ (y * W ≤ y * W + n ∧ y * W + n < y * W + (n + 1) ∧ y * W + n < b.length) := by
          omega
        rw [if_pos rfl, if_neg hlen, if_neg h1]
        have hnone : b[y * W + n]? = none := List.getElem?_eq_none (by omega)
        exact hnone.symm
    · have h1 : (y * W ≤ j ∧ j < y * W + (n + 1) ∧ j < b.length) ↔
          (y * W ≤ j ∧ j < y * W + n ∧ j < b.length) := by omega
      simp only [hj, if_false, h1]

theorem initRow_spec (cs : Int) (W y : Nat) (b : List Cell) :
    (initRow cs (W : Int) y b).length = b.length ∧
    ∀ j : Nat, (initRow cs (W : Int) y b)[j]?
        = if y * W ≤ j ∧ j < y * W + W ∧ j < b.length then some (gridCell cs (j - y * W) y)
          else b[j]? := by
  have h := initRow_prefix cs W y b W
  simpa [initRow, gridCell] using h

theorem initBoard_prefix (cs : Int) (W : Nat) (b : List Cell) (m : Nat) :
    ((List.range m).foldl (fun b y => initRow cs (W : Int) y b) b).length = b.length ∧
    ∀ j : Nat,
      ((List.range m).foldl (fun b y => initRow cs (W : Int) y b) b)[j]?
        = if j < m * W ∧ j < b.length then some (gridCell cs (j % W) (j / W)) else b[j]? := by
  induction m with
  | zero =>
    refine ⟨rfl, fun j => ?_⟩
    simp
  | succ m ih =>
    obtain ⟨ihl, ihg⟩ := ih
    rw [List.range_succ, List.foldl_append]
    simp only [List.foldl_cons, List.foldl_nil]
    obtain ⟨hl, hg⟩ := initRow_spec cs W m
      ((List.range m).foldl (fun b y => initRow cs (W : Int) y b) b)
    refine ⟨hl.trans ihl, fun j => ?_⟩
    rw [hg, ihl, ihg]
    by_cases hin : m * W ≤ j ∧ j < m * W + W ∧ j < b.length
    · have hW : 0 < W := by omega
      have hdiv : j / W = m := by
        apply Nat.div_eq_of_lt_le
        · rw [Nat.mul_comm] at hin; rw [Nat.mul_comm]; exact hin.1
        · have : (m + 1) * W = m * W + W := by ring
          rw [this]; exact hin.2.1
      have hmod : j % W = j - m * W := by
        have := Nat.div_add_mod j W
        rw [hdiv] at this
        have h2 : W * m = m * W := Nat.mul_comm _ _
        omega
      have h1 : j < (m + 1) * W ∧ j < b.length := by
        have : (m + 1) * W = m * W + W := by ring
        omega
      simp only [hin, h1, and_self, if_true, hdiv, hmod]
    · have h1 : (j < (m + 1) * W ∧ j < b.length) ↔ (j < m * W ∧ j < b.length) := by
        have : (m + 1) * W = m * W + W := by ring
        omega
      simp only [hin, if_false, h1]

/-- The constructor's grid dimensions, as natural numbers. -/
theorem Game.new_dims (sw sh : Nat) (ok : Bool) :
    (Game.new sw sh ok).cell_size_ = 32 ∧
    (Game.new sw sh ok).cells_width_ = ((sw / 32 : Nat) : Int) ∧
    (Game.new sw sh ok).cells_height_ = ((sh / 32 : Nat) : Int) := by
  refine ⟨rfl, ?_, ?_⟩
  · show (sw : Int).tdiv 32 = _
    rw [Int.ofNat_tdiv]; rfl
  · show (sh : Int).tdiv 32 = _
    rw [Int.ofNat_tdiv]; rfl

/-- The board the constructor builds: `cells_width * cells_height` cells, cell `i` being the
grid cell of column `i % cells_width` and row `i / cells_width`. -/
theorem Game.new_board (sw sh : Nat) (ok : Bool) :
    (Game.new sw sh ok).board_.length = (sw / 32) * (sh / 32) ∧
    ∀ i : Nat, i < (sw / 32) * (sh / 32) →
      (Game.new sw sh ok).board_[i]? = some (gridCell 32 (i % (sw / 32)) (i / (sw / 32))) := by
  have hw : (sw : Int).tdiv 32 = ((sw / 32 : Nat) : Int) := by rw [Int.ofNat_tdiv]; rfl
  have hh : (sh : Int).tdiv 32 = ((sh / 32 : Nat) : Int) := by rw [Int.ofNat_tdiv]; rfl
  have hb : (Game.new sw sh ok).board_ =
      (List.range (sh / 32)).foldl (fun b y => initRow 32 ((sw / 32 : Nat) : Int) y b)
        (List.replicate ((sw / 32) * (sh / 32)) zeroCell) := by
    show initBoard 32 ((sw : Int).tdiv 32) ((sh : Int).tdiv 32)
      (List.replicate (((sw : Int).tdiv 32) * ((sh : Int).tdiv 32)).toNat zeroCell) = _
    rw [hw, hh]
    have : (((sw / 32 : Nat) : Int) * ((sh / 32 : Nat) : Int)).toNat = (sw / 32) * (sh / 32) := by
      rw [← Nat.cast_mul, Int.toNat_natCast]
    rw [this]
    simp only [initBoard, Int.toNat_natCast]
  obtain ⟨hl, hg⟩ := initBoard_prefix 32 (sw / 32)
    (List.replicate ((sw / 32) * (sh / 32)) zeroCell) (sh / 32)
  rw [hb]
  refine ⟨by rw [hl, List.length_replicate], fun i hi => ?_⟩
  rw [hg, List.length_replicate]
  have : i < sh / 32 * (sw / 32) ∧ i < sw / 32 * (sh / 32) := by
    rw [Nat.mul_comm (sh / 32)]; exact ⟨hi, hi⟩
  simp only [this, and_self, if_true]

/-! ## Pointer position and cell index -/

theorem Game.new_wf (sw sh : Nat) (ok : Bool) : (Game.new sw sh ok).WF := by
  obtain ⟨hcs, hcw, hch⟩ := Game.new_dims sw sh ok
  refine ⟨by rw [hcs]; decide, by rw [hcw]; exact Int.ofNat_nonneg _,
    by rw [hch]; exact Int.ofNat_nonneg _, ?_⟩
  rw [hcw, hch, (Game.new_board sw sh ok).1]
  push_cast
  rfl

/-- Inside the grid the computed index is `row * cells_width + column` with the column below
`cells_width` and the row below `cells_height`, hence a valid index. -/
theorem index_in_grid {cs cw ch px py : Int} (hcs : 0 < cs)
    (hx0 : 0 ≤ px) (hx1 : px < cw * cs) (hy0 : 0 ≤ py) (hy1 : py < ch * cs) :
    0 ≤ py.tdiv cs * cw + px.tdiv cs ∧ py.tdiv cs * cw + px.tdiv cs < cw * ch := by
  rw [Int.tdiv_eq_ediv hx0 hcs.le, Int.tdiv_eq_ediv hy0 hcs.le]
  have hc0 : 0 ≤ px / cs := Int.ediv_nonneg hx0 hcs.le
  have hr0 : 0 ≤ py / cs := Int.ediv_nonneg hy0 hcs.le
  have hc1 : px / cs < cw := Int.ediv_lt_of_lt_mul hcs hx1
  have hr1 : py / cs < ch := Int.ediv_lt_of_lt_mul hcs hy1
  have hcw : 0 ≤ cw := by omega
  constructor
  · have := mul_nonneg hr0 hcw
    omega
  · have h1 : py / cs * cw ≤ (ch - 1) * cw := mul_le_mul_of_nonneg_right (by omega) hcw
    have h2 : (ch - 1) * cw = cw * ch - cw := by ring
    omega

theorem center_tdiv (x : Nat) : ((x : Int) * 32 + (32 : Int).tdiv 2).tdiv 32 = (x : Int) := by
  have h16 : (32 : Int).tdiv 2 = 16 := by decide
  have hx : (0 : Int) ≤ (x : Int) := Int.ofNat_nonneg x
  rw [h16, Int.tdiv_eq_ediv (by omega) (by decide)]
  omega

/-- C5: on the board built by the constructor, for every valid grid index `i`, the index
the handlers compute for a pointer at the centre of the rectangle of cell `i` is `i`, and
it passes the bounds check. -/
theorem pixel_index_round_trip (sw sh : Nat) (ok : Bool) (i : Nat)
    (hi : (i : Int) < (Game.new sw sh ok).cells_width_ * (Game.new sw sh ok).cells_height_) :
    ∃ c : Cell, (Game.new sw sh ok).board_[i]? = some c ∧
      pointerIndex { Game.new sw sh ok with mouse_position_ := centerOf c.rect_ } = (i : Int) ∧
      indexInBounds { Game.new sw sh ok with mouse_position_ := centerOf c.rect_ }
        (pointerIndex { Game.new sw sh ok with mouse_position_ := centerOf c.rect_ }) = true := by
  obtain ⟨hcs, hcw, hch⟩ := Game.new_dims sw sh ok
  obtain ⟨hlen, hget⟩ := Game.new_board sw sh ok
  rw [hcw, hch, ← Nat.cast_mul, Nat.cast_lt] at hi
  refine ⟨_, hget i hi, ?_⟩
  have hidx : pointerIndex
      { Game.new sw sh ok with
        mouse_position_ := centerOf (gridCell 32 (i % (sw / 32)) (i / (sw / 32))).rect_ }
      = (i : Int) := by
    simp only [pointerIndex, centerOf, gridCell, hcs, hcw, center_tdiv]
    have := Nat.div_add_mod i (sw / 32)
    rw [← Nat.cast_mul, ← Nat.cast_add, Nat.mul_comm]
    exact congrArg Nat.cast this
  refine ⟨hidx, ?_⟩
  rw [hidx]
  simp only [indexInBounds, hlen, Bool.and_eq_true, decide_eq_true_eq]
  exact ⟨Int.ofNat_nonneg _, by exact_mod_cast hi⟩

/-- Witness for C5: on the 800 x 600 board, the centre of cell 78 maps back to index 78. -/
theorem pixel_index_round_trip_witness :
    ∃ c : Cell, (Game.new 800 600 true).board_[78]? = some c ∧
      pointerIndex { Game.new 800 600 true with mouse_position_ := centerOf c.rect_ } = 78 ∧
      indexInBounds { Game.new 800 600 true with mouse_position_ := centerOf c.rect_ }
        (pointerIndex { Game.new 800 600 true with mouse_position_ := centerOf c.rect_ })
          = true :=
  pixel_index_round_trip 800 600 true 78 (by
    rw [(Game.new_dims 800 600 true).2.1, (Game.new_dims 800 600 true).2.2]
    decide)

/-! ## The secondary-button press -/

theorem handleEvent_rightDown (g : Game) (p : SDL_Point) :
    handleEvent g ⟨p, .mouseButtonDown .right⟩
      = rightButtonDown { g with mouse_position_ := p } := rfl

theorem handleEvent_rightUp (g : Game) (p : SDL_Point) :
    handleEvent g ⟨p, .mouseButtonUp .right⟩
      = { g with mouse_position_ := p, mouse_right_pressed_ := false } := rfl

theorem handleEvent_leftDown (g : Game) (p : SDL_Point) :
    handleEvent g ⟨p, .mouseButtonDown .left⟩
      = { g with mouse_position_ := p, render_line_ := true, mouse_left_pressed_ := true } := rfl

theorem handleEvent_leftUp (g : Game) (p : SDL_Point) :
    handleEvent g ⟨p, .mouseButtonUp .left⟩ = leftButtonUp { g with mouse_position_ := p } := rfl

theorem toNat_lt_of_inBounds {g : Game} {index : Int} (h : indexInBounds g index = true) :
    index.toNat < g.board_.length := by
  simp only [indexInBounds, Bool.and_eq_true, decide_eq_true_eq] at h
  omega

/-- The board after the right-button branch: the cell under the pointer has its wall flag
negated when the index passes the bounds check, and nothing changes otherwise. -/
theorem rightButtonDown_board (g : Game) :
    (rightButtonDown g).board_ =
      if indexInBounds g (pointerIndex g) then
        g.board_.modify (fun c => { c with is_wall_ := !c.is_wall_ }) (pointerIndex g).toNat
      else g.board_ := by
  unfold rightButtonDown
  have hp : pointerIndex { g with mouse_right_pressed_ := true } = pointerIndex g := rfl
  have hb : ∀ i, indexInBounds { g with mouse_right_pressed_ := true } i = indexInBounds g i :=
    fun _ => rfl
  simp only [hp, hb]
  by_cases h : indexInBounds g (pointerIndex g) = true
  · simp only [h, if_true]
    have hlt := toNat_lt_of_inBounds h
    rw [List.getElem?_eq_getElem hlt]
  · simp only [h, if_false]
    simp

/-- The right-button branch changes neither the grid dimensions nor the pointer position,
the mode flags of the primary button, the player or the mouse box. -/
theorem rightButtonDown_frame (g : Game) :
    (rightButtonDown g).cell_size_ = g.cell_size_ ∧
    (rightButtonDown g).cells_width_ = g.cells_width_ ∧
    (rightButtonDown g).cells_height_ = g.cells_height_ ∧
    (rightButtonDown g).mouse_position_ = g.mouse_position_ ∧
    (rightButtonDown g).mouse_left_pressed_ = g.mouse_left_pressed_ ∧
    (rightButtonDown g).mouse_right_pressed_ = true ∧
    (rightButtonDown g).player_ = g.player_ ∧
    (rightButtonDown g).mouse_box_ = g.mouse_box_ := by
  unfold rightButtonDown
  simp only
  split
  · split <;> simp
  · simp

theorem rightButtonDown_length (g : Game) :
    (rightButtonDown g).board_.length = g.board_.length := by
  rw [rightButtonDown_board]
  split
  · exact List.length_modify _ _ _
  · rfl

/-- C7: for a state satisfying the class invariant and a pointer position inside the
grid, a secondary-button press negates `is_wall` of the cell at index
`(py / cell_size) * cells_width + (px / cell_size)`, which is a valid index, and leaves
every other cell, every `highlighted` flag and every rectangle unchanged. -/
theorem right_press_toggles_exactly_one (g : Game) (p : SDL_Point) (hwf : g.WF)
    (hx0 : 0 ≤ p.x) (hx1 : p.x < g.cells_width_ * g.cell_size_)
    (hy0 : 0 ≤ p.y) (hy1 : p.y < g.cells_height_ * g.cell_size_) :
    (p.y.tdiv g.cell_size_ * g.cells_width_ + p.x.tdiv g.cell_size_).toNat < g.board_.length ∧
    (handleEvent g ⟨p, .mouseButtonDown .right⟩).board_.length = g.board_.length ∧
    (handleEvent g ⟨p, .mouseButtonDown .right⟩).board_[
        (p.y.tdiv g.cell_size_ * g.cells_width_ + p.x.tdiv g.cell_size_).toNat]?.map Cell.is_wall_
      = g.board_[(p.y.tdiv g.cell_size_ * g.cells_width_ + p.x.tdiv g.cell_size_).toNat]?.map
          (fun c => !c.is_wall_) ∧
    (∀ j : Nat, j ≠ (p.y.tdiv g.cell_size_ * g.cells_width_ + p.x.tdiv g.cell_size_).toNat →
      (handleEvent g ⟨p, .mouseButtonDown .right⟩).board_[j]? = g.board_[j]?) ∧
    (∀ j : Nat, (handleEvent g ⟨p, .mouseButtonDown .right⟩).board_[j]?.map Cell.highlighted_
      = g.board_[j]?.map Cell.highlighted_) ∧
    (∀ j : Nat, (handleEvent g ⟨p, .mouseButtonDown .right⟩).board_[j]?.map Cell.rect_
      = g.board_[j]?.map Cell.rect_) := by
  obtain ⟨h0, h1⟩ := index_in_grid hwf.cell_size_pos hx0 hx1 hy0 hy1
  have hp : pointerIndex { g with mouse_position_ := p }
      = p.y.tdiv g.cell_size_ * g.cells_width_ + p.x.tdiv g.cell_size_ := rfl
  have hin : indexInBounds { g with mouse_position_ := p }
      (p.y.tdiv g.cell_size_ * g.cells_width_ + p.x.tdiv g.cell_size_) = true := by
    simp only [indexInBounds, Bool.and_eq_true, decide_eq_true_eq]
    exact ⟨h0, by rw [hwf.board_length]; exact h1⟩
  have hb : (handleEvent g ⟨p, .mouseButtonDown .right⟩).board_ =
      g.board_.modify (fun c => { c with is_wall_ := !c.is_wall_ })
        (p.y.tdiv g.cell_size_ * g.cells_width_ + p.x.tdiv g.cell_size_).toNat := by
    rw [handleEvent_rightDown, rightButtonDown_board, hp, hin, if_pos rfl]
  rw [hb]
  refine ⟨toNat_lt_of_inBounds hin, List.length_modify _ _ _, ?_, ?_, ?_, ?_⟩
  · rw [List.getElem?_modify]
    cases g.board_[(p.y.tdiv g.cell_size_ * g.cells_width_ + p.x.tdiv g.cell_size_).toNat]?
      <;> simp
  · intro j hj
    rw [List.getElem?_modify]
    cases g.board_[j]? <;> simp [Ne.symm hj]
  · intro j
    rw [List.getElem?_modify]
    cases g.board_[j]? with
    | none => rfl
    | some c =>
      by_cases h :
        (p.y.tdiv g.cell_size_ * g.cells_width_ + p.x.tdiv g.cell_size_).toNat = j <;> simp [h]
  · intro j
    rw [List.getElem?_modify]
    cases g.board_[j]? with
    | none => rfl
    | some c =>
      by_cases h :
        (p.y.tdiv g.cell_size_ * g.cells_width_ + p.x.tdiv g.cell_size_).toNat = j <;> simp [h]

/-- Witness for C7: on the 800 x 600 board (25 x 18 cells, all non-wall) a press at
`(100, 100)` sets `is_wall` at index 78 and leaves every other cell a non-wall. -/
theorem right_press_toggles_exactly_one_witness :
    (handleEvent (Game.new 800 600 true) ⟨⟨100, 100⟩, .mouseButtonDown .right⟩).board_[78]?.map
        Cell.is_wall_ = some true ∧
    ∀ j : Nat, j ≠ 78 → j < 450 →
      (handleEvent (Game.new 800 600 true) ⟨⟨100, 100⟩, .mouseButtonDown .right⟩).board_[j]?.map
        Cell.is_wall_ = some false := by
  have h := right_press_toggles_exactly_one (Game.new 800 600 true) ⟨100, 100⟩
    (Game.new_wf 800 600 true) (by decide) (by decide) (by decide) (by decide)
  have hidx : ((100 : Int).tdiv (Game.new 800 600 true).cell_size_
      * (Game.new 800 600 true).cells_width_
      + (100 : Int).tdiv (Game.new 800 600 true).cell_size_).toNat = 78 := by decide
  simp only [hidx] at h
  obtain ⟨_, _, htog, hother, _, _⟩ := h
  obtain ⟨_, hget⟩ := Game.new_board 800 600 true
  constructor
  · rw [htog, hget 78 (by decide)]
    rfl
  · intro j hj hlt
    rw [hother j hj, hget j hlt]
    rfl

/-! ### Pressing twice -/

theorem modify_toggle_twice (b : List Cell) (n : Nat) :
    (b.modify (fun c => { c with is_wall_ := !c.is_wall_ }) n).modify
      (fun c => { c with is_wall_ := !c.is_wall_ }) n = b := by
  apply List.ext_getElem?
  intro m
  rw [List.getElem?_modify, List.getElem?_modify]
  cases b[m]? with
  | none => rfl
  | some c => by_cases h : n = m <;> simp [h]

/-- A second press at the same pointer position, the grid dimensions being those of `g`,
undoes the first one on the board. -/
theorem rightButtonDown_twice (g g2 : Game) (p : SDL_Point)
    (hcs : g2.cell_size_ = g.cell_size_) (hcw : g2.cells_width_ = g.cells_width_)
    (hb : g2.board_ = (rightButtonDown { g with mouse_position_ := p }).board_) :
    (rightButtonDown { g2 with mouse_position_ := p }).board_ = g.board_ := by
  have hp : pointerIndex { g2 with mouse_position_ := p }
      = pointerIndex { g with mouse_position_ := p } := by
    simp only [pointerIndex, hcs, hcw]
  have hlen : g2.board_.length = g.board_.length := by
    rw [hb, rightButtonDown_length]
  have hin : ∀ i, indexInBounds { g2 with mouse_position_ := p } i
      = indexInBounds { g with mouse_position_ := p } i := by
    intro i
    simp only [indexInBounds, hlen]
  rw [rightButtonDown_board, hp, hin]
  show (if _ then List.modify _ _ g2.board_ else g2.board_) = _
  rw [hb, rightButtonDown_board]
  split
  · exact modify_toggle_twice _ _
  · rfl

/-- C8: for every state and every pointer position, two consecutive secondary-button
presses at that position, with or without the release between them, leave the board as it
was before the first press; in particular every cell's `is_wall` is restored. -/
theorem double_press_restores_walls (g : Game) (p : SDL_Point) :
    (handleEvent (handleEvent g ⟨p, .mouseButtonDown .right⟩)
        ⟨p, .mouseButtonDown .right⟩).board_ = g.board_ ∧
    (handleEvent (handleEvent (handleEvent g ⟨p, .mouseButtonDown .right⟩)
        ⟨p, .mouseButtonUp .right⟩) ⟨p, .mouseButtonDown .right⟩).board_ = g.board_ := by
  obtain ⟨hcs, hcw, _⟩ := rightButtonDown_frame { g with mouse_position_ := p }
  constructor
  · rw [handleEvent_rightDown, handleEvent_rightDown]
    exact rightButtonDown_twice g _ p hcs hcw rfl
  · rw [handleEvent_rightDown, handleEvent_rightUp, handleEvent_rightDown]
    exact rightButtonDown_twice g _ p hcs hcw rfl

/-! ## Pointer positions outside the grid -/

theorem handleEvent_motion (g : Game) (p : SDL_Point) :
    handleEvent g ⟨p, .mouseMotion⟩ = onMotion { g with mouse_position_ := p } .mouseMotion := rfl

/-- The board after a pointer motion: while the secondary button is held, the cell under
the pointer takes the paint value when the index passes the bounds check. -/
theorem onMotion_board (g : Game) :
    (onMotion g .mouseMotion).board_ =
      if g.mouse_right_pressed_ = true ∧ indexInBounds g (pointerIndex g) = true then
        g.board_.modify (fun c => { c with is_wall_ := g.setting_walls_ }) (pointerIndex g).toNat
      else g.board_ := by
  unfold onMotion
  simp only
  by_cases h1 : g.mouse_right_pressed_ = true
  · by_cases h2 : indexInBounds g (pointerIndex g) = true
    · have h2' : indexInBounds
          { g with mouse_box_ := { g.mouse_box_ with
              x := g.mouse_position_.x - g.mouse_box_.w.tdiv 2
              y := g.mouse_position_.y - g.mouse_box_.w.tdiv 2 } }
          (pointerIndex { g with mouse_box_ := { g.mouse_box_ with
              x := g.mouse_position_.x - g.mouse_box_.w.tdiv 2
              y := g.mouse_position_.y - g.mouse_box_.w.tdiv 2 } }) = true := h2
      rw [if_pos h1, if_pos h2', if_pos ⟨h1, h2⟩]
      rfl
    · have h2' : ¬ indexInBounds
          { g with mouse_box_ := { g.mouse_box_ with
              x := g.mouse_position_.x - g.mouse_box_.w.tdiv 2
              y := g.mouse_position_.y - g.mouse_box_.w.tdiv 2 } }
          (pointerIndex { g with mouse_box_ := { g.mouse_box_ with
              x := g.mouse_position_.x - g.mouse_box_.w.tdiv 2
              y := g.mouse_position_.y - g.mouse_box_.w.tdiv 2 } }) = true := h2
      rw [if_pos h1, if_neg h2', if_neg (fun h => h2 h.2)]
  · rw [if_neg h1, if_neg (fun h => h1 h.1)]

theorem lt_of_getElem?_some {b : List Cell} {n : Nat} {c : Cell} (h : b[n]? = some c) :
    n < b.length := by
  by_contra hn
  rw [List.getElem?_eq_none (not_lt.mp hn)] at h
  exact Option.noConfusion h

/-- The cell at the computed index after a secondary-button press. -/
theorem rightButtonDown_get (g : Game) (n : Nat) (hidx : pointerIndex g = (n : Int))
    (hlt : n < g.board_.length) :
    (rightButtonDown g).board_[n]?
      = g.board_[n]?.map (fun c => { c with is_wall_ := !c.is_wall_ }) := by
  have hin : indexInBounds g (pointerIndex g) = true := by
    simp only [indexInBounds, hidx, Bool.and_eq_true, decide_eq_true_eq]
    exact ⟨Int.ofNat_nonneg _, by exact_mod_cast hlt⟩
  rw [rightButtonDown_board, if_pos hin, hidx, Int.toNat_natCast, List.getElem?_modify]
  cases g.board_[n]? <;> simp

/-- The cells away from the computed index after a secondary-button press. -/
theorem rightButtonDown_get_ne (g : Game) (n j : Nat) (hidx : pointerIndex g = (n : Int))
    (hj : n ≠ j) : (rightButtonDown g).board_[j]? = g.board_[j]? := by
  rw [rightButtonDown_board]
  split
  · rw [hidx, Int.toNat_natCast, List.getElem?_modify]
    cases g.board_[j]? <;> simp [hj]
  · rfl

/-- The paint value after a secondary-button press on the cell `c`. -/
theorem rightButtonDown_paint (g : Game) (n : Nat) (c : Cell)
    (hidx : pointerIndex g = (n : Int)) (hget : g.board_[n]? = some c) :
    (rightButtonDown g).setting_walls_ = !c.is_wall_ := by
  have hlt := lt_of_getElem?_some hget
  have hin : indexInBounds g (pointerIndex g) = true := by
    simp only [indexInBounds, hidx, Bool.and_eq_true, decide_eq_true_eq]
    exact ⟨Int.ofNat_nonneg _, by exact_mod_cast hlt⟩
  unfold rightButtonDown
  have hp : pointerIndex { g with mouse_right_pressed_ := true } = pointerIndex g := rfl
  have hb : ∀ i, indexInBounds { g with mouse_right_pressed_ := true } i = indexInBounds g i :=
    fun _ => rfl
  rw [hidx] at hin
  simp only [hp, hb, hidx, Int.toNat_natCast, hget, hin, if_true]

/-- The cell at the computed index after a drag-paint step. -/
theorem onMotion_get (g : Game) (n : Nat) (hheld : g.mouse_right_pressed_ = true)
    (hidx : pointerIndex g = (n : Int)) (hlt : n < g.board_.length) :
    (onMotion g .mouseMotion).board_[n]?
      = g.board_[n]?.map (fun c => { c with is_wall_ := g.setting_walls_ }) := by
  have hin : indexInBounds g (pointerIndex g) = true := by
    simp only [indexInBounds, hidx, Bool.and_eq_true, decide_eq_true_eq]
    exact ⟨Int.ofNat_nonneg _, by exact_mod_cast hlt⟩
  rw [onMotion_board, if_pos ⟨hheld, hin⟩, hidx, Int.toNat_natCast, List.getElem?_modify]
  cases g.board_[n]? <;> simp

/-- On a grid of cell size 32 and width 25, the pointer positions `(-1, 40)` and `(800, 0)`
both give the index 25; a press there negates `is_wall` of cell 25 and a drag-paint step
there writes the paint value into it. -/
theorem stray_pointer_reaches_cell (g : Game) (c : Cell) (hcs : g.cell_size_ = 32)
    (hcw : g.cells_width_ = 25) (h25 : g.board_[25]? = some c) :
    pointerIndex { g with mouse_position_ := ⟨-1, 40⟩ } = 25 ∧
    pointerIndex { g with mouse_position_ := ⟨800, 0⟩ } = 25 ∧
    (handleEvent g ⟨⟨-1, 40⟩, .mouseButtonDown .right⟩).board_[25]?.map Cell.is_wall_
      = some (!c.is_wall_) ∧
    (handleEvent g ⟨⟨800, 0⟩, .mouseButtonDown .right⟩).board_[25]?.map Cell.is_wall_
      = some (!c.is_wall_) ∧
    (g.mouse_right_pressed_ = true →
      (handleEvent g ⟨⟨-1, 40⟩, .mouseMotion⟩).board_[25]?.map Cell.is_wall_
        = some g.setting_walls_) := by
  have hlt := lt_of_getElem?_some h25
  have hp1 : pointerIndex { g with mouse_position_ := ⟨-1, 40⟩ } = ((25 : Nat) : Int) := by
    simp only [pointerIndex, hcs, hcw]
    decide
  have hp2 : pointerIndex { g with mouse_position_ := ⟨800, 0⟩ } = ((25 : Nat) : Int) := by
    simp only [pointerIndex, hcs, hcw]
    decide
  refine ⟨hp1, hp2, ?_, ?_, ?_⟩
  · rw [handleEvent_rightDown, rightButtonDown_get _ 25 hp1 hlt]
    show (g.board_[25]?.map _).map _ = _
    rw [h25]
    rfl
  · rw [handleEvent_rightDown, rightButtonDown_get _ 25 hp2 hlt]
    show (g.board_[25]?.map _).map _ = _
    rw [h25]
    rfl
  · intro hheld
    rw [handleEvent_motion,
      onMotion_get { g with mouse_position_ := ⟨-1, 40⟩ } 25 hheld hp1 hlt]
    show (g.board_[25]?.map _).map _ = _
    rw [h25]
    rfl

/-- On a grid of cell size 32 and width 25, a press at `(100, 100)` (cell 78) followed by a
pointer motion to `(-1, 40)` with the button held writes the paint value, the negation
of the wall flag cell 78 had, into cell 25. -/
theorem stray_drag_reaches_cell (g : Game) (c25 c78 : Cell) (hcs : g.cell_size_ = 32)
    (hcw : g.cells_width_ = 25) (h25 : g.board_[25]? = some c25)
    (h78 : g.board_[78]? = some c78) :
    (handleEvent (handleEvent g ⟨⟨100, 100⟩, .mouseButtonDown .right⟩)
      ⟨⟨-1, 40⟩, .mouseMotion⟩).board_[25]?.map Cell.is_wall_ = some (!c78.is_wall_) := by
  have hp : pointerIndex { g with mouse_position_ := ⟨100, 100⟩ } = ((78 : Nat) : Int) := by
    simp only [pointerIndex, hcs, hcw]
    decide
  obtain ⟨hcs1, hcw1, _, _, _, hheld, _, _⟩ :=
    rightButtonDown_frame { g with mouse_position_ := ⟨100, 100⟩ }
  have hpaint := rightButtonDown_paint { g with mouse_position_ := ⟨100, 100⟩ } 78 c78 hp h78
  have h25b : (handleEvent g ⟨⟨100, 100⟩, .mouseButtonDown .right⟩).board_[25]? = some c25 := by
    rw [handleEvent_rightDown,
      rightButtonDown_get_ne { g with mouse_position_ := ⟨100, 100⟩ } 78 25 hp (by decide)]
    exact h25
  obtain ⟨_, _, _, _, h5⟩ := stray_pointer_reaches_cell
    (handleEvent g ⟨⟨100, 100⟩, .mouseButtonDown .right⟩) c25
    (hcs1.trans hcs) (hcw1.trans hcw) h25b
  rw [h5 hheld]
  exact congrArg some hpaint

/-- Failing input for C6, evaluated: on the 800 x 600 board (grid `[0, 800) x [0, 576)`)
the pointer positions `(-1, 40)` and `(800, 0)` lie outside the grid, yet the computed
index is 25 and passes the bounds check; a secondary-button press there turns the
non-wall cell 25 into a wall, and so does a drag-paint step with paint value `true`. -/
theorem out_of_grid_pointer_changes_cell :
    (Game.new 800 600 true).board_[25]?.map Cell.is_wall_ = some false ∧
    (handleEvent (Game.new 800 600 true) ⟨⟨-1, 40⟩, .mouseButtonDown .right⟩).board_[25]?.map
      Cell.is_wall_ = some true ∧
    (handleEvent (Game.new 800 600 true) ⟨⟨800, 0⟩, .mouseButtonDown .right⟩).board_[25]?.map
      Cell.is_wall_ = some true ∧
    (handleEvent (handleEvent (Game.new 800 600 true) ⟨⟨100, 100⟩, .mouseButtonDown .right⟩)
      ⟨⟨-1, 40⟩, .mouseMotion⟩).board_[25]?.map Cell.is_wall_ = some true := by
  obtain ⟨hcs, hcw, _⟩ := Game.new_dims 800 600 true
  obtain ⟨hlen, hget⟩ := Game.new_board 800 600 true
  have h25 : (Game.new 800 600 true).board_[25]? = some ⟨⟨0, 32, 32, 32⟩, false, false⟩ :=
    hget 25 (by decide)
  have h78 : (Game.new 800 600 true).board_[78]? = some ⟨⟨96, 96, 32, 32⟩, false, false⟩ :=
    hget 78 (by decide)
  obtain ⟨_, _, h3, h4, _⟩ := stray_pointer_reaches_cell _ _ hcs hcw h25
  exact ⟨by rw [h25]; rfl, h3, h4, stray_drag_reaches_cell _ _ _ hcs hcw h25 h78⟩

/-! ## Highlight flags -/

theorem reachable_run {sw sh : Nat} {ok : Bool} {g : Game} (h : Reachable sw sh ok g)
    (inputs : List Input) : Reachable sw sh ok (g.run inputs) := by
  induction inputs generalizing g with
  | nil => exact h
  | cons i rest ih =>
    cases i with
    | event p => exact ih (Reachable.step h (Step.event g p))
    | tick => exact ih (Reachable.step h (Step.tick g))

theorem Tick_board (g : Game) :
    (Tick g).board_ =
      if g.mouse_left_pressed_ = true then
        g.board_.map (highlightCell (tickRay g.player_.moved.box_ g.mouse_box_))
      else g.board_ := by
  unfold Tick
  simp only
  split <;> rfl

theorem Tick_frame (g : Game) :
    (Tick g).cell_size_ = g.cell_size_ ∧
    (Tick g).cells_width_ = g.cells_width_ ∧
    (Tick g).cells_height_ = g.cells_height_ ∧
    (Tick g).mouse_left_pressed_ = g.mouse_left_pressed_ ∧
    (Tick g).player_ = g.player_.moved ∧
    (Tick g).mouse_box_ = g.mouse_box_ := by
  unfold Tick
  simp only
  split <;> simp

/-- The ray from the resting player to the mouse box centred on `(112, 112)` crosses the
rectangle of cell 78. -/
theorem scene_ray_hits :
    AABBTavianIntersection ⟨96, 96, 32, 32⟩
      (tickRay (PlayerBox.moved ⟨⟨261, 295, 10, 10⟩, 0, 0⟩).box_ ⟨107, 107, 10, 10⟩) = true := by
  simp [AABBTavianIntersection, tickRay, PlayerBox.moved, FVal.add, FVal.div, FVal.mul,
    FVal.sub, FVal.ofInt, FVal.stdMin, FVal.stdMax, FVal.lt, FVal.ge]
  norm_num

theorem Scene.aim {g : Game} (hcs : g.cell_size_ = 32) (hcw : g.cells_width_ = 25)
    (h78 : g.board_[78]? = some ⟨⟨96, 96, 32, 32⟩, false, false⟩)
    (hpl : g.player_ = ⟨⟨261, 295, 10, 10⟩, 0, 0⟩) (hw : g.mouse_box_.w = 10)
    (hh : g.mouse_box_.h = 10) (hr : g.mouse_right_pressed_ = false)
    (hl : g.mouse_left_pressed_ = false) :
    Scene (handleEvent g ⟨⟨112, 112⟩, .mouseMotion⟩) false false false := by
  have hg : handleEvent g ⟨⟨112, 112⟩, .mouseMotion⟩ =
      { g with mouse_position_ := ⟨112, 112⟩, mouse_box_ := ⟨107, 107, 10, 10⟩ } := by
    simp [handleEvent, onButtons, onMotion, onKeys, hr, hw, hh]
    decide
  rw [hg]
  exact ⟨hcs, hcw, h78, hpl, rfl, hl⟩

theorem Scene.press {g : Game} {w h l : Bool} (s : Scene g w h l) :
    Scene (handleEvent g ⟨⟨112, 112⟩, .mouseButtonDown .right⟩) (!w) h l := by
  have hp : pointerIndex { g with mouse_position_ := ⟨112, 112⟩ } = ((78 : Nat) : Int) := by
    simp only [pointerIndex, s.cs, s.cw]
    decide
  obtain ⟨h1, h2, _, _, h5, _, h7, h8⟩ :=
    rightButtonDown_frame { g with mouse_position_ := ⟨112, 112⟩ }
  rw [handleEvent_rightDown]
  refine ⟨h1.trans s.cs, h2.trans s.cw, ?_, h7.trans s.player, h8.trans s.mbox, h5.trans s.left⟩
  rw [rightButtonDown_get { g with mouse_position_ := ⟨112, 112⟩ } 78 hp
    (lt_of_getElem?_some s.cell)]
  show g.board_[78]?.map _ = _
  rw [s.cell]
  rfl

theorem Scene.rightUp {g : Game} {w h l : Bool} (s : Scene g w h l) (p : SDL_Point) :
    Scene (handleEvent g ⟨p, .mouseButtonUp .right⟩) w h l :=
  ⟨s.cs, s.cw, s.cell, s.player, s.mbox, s.left⟩

theorem Scene.leftDown {g : Game} {w h l : Bool} (s : Scene g w h l) (p : SDL_Point) :
    Scene (handleEvent g ⟨p, .mouseButtonDown .left⟩) w h true :=
  ⟨s.cs, s.cw, s.cell, s.player, s.mbox, rfl⟩

theorem Scene.leftUp {g : Game} {w h l : Bool} (s : Scene g w h l) (p : SDL_Point) :
    Scene (handleEvent g ⟨p, .mouseButtonUp .left⟩) w (if w then false else h) false := by
  refine ⟨s.cs, s.cw, ?_, s.player, s.mbox, rfl⟩
  show (g.board_.map clearHighlight)[78]? = _
  rw [List.getElem?_map, s.cell]
  cases w <;> rfl

theorem Scene.tick {g : Game} {h : Bool} (s : Scene g true h true) :
    Scene (Tick g) true true true := by
  obtain ⟨h1, h2, _, h4, h5, h6⟩ := Tick_frame g
  have hmoved : g.player_.moved = ⟨⟨261, 295, 10, 10⟩, 0, 0⟩ := by
    rw [s.player]; decide
  refine ⟨h1.trans s.cs, h2.trans s.cw, ?_, h5.trans hmoved, h6.trans s.mbox, h4.trans s.left⟩
  rw [Tick_board, if_pos s.left, List.getElem?_map, s.cell, s.player, s.mbox]
  simp only [Option.map_some', highlightCell, scene_ray_hits]
  rfl

/-! ### The class invariant in every reachable state -/

theorem onKeys_frame (g : Game) (e : Event) :
    (onKeys g e).cell_size_ = g.cell_size_ ∧ (onKeys g e).cells_width_ = g.cells_width_ ∧
    (onKeys g e).cells_height_ = g.cells_height_ ∧ (onKeys g e).board_ = g.board_ := by
  cases e with
  | keyDown k => cases k <;> exact ⟨rfl, rfl, rfl, rfl⟩
  | keyUp k => cases k <;> exact ⟨rfl, rfl, rfl, rfl⟩
  | _ => exact ⟨rfl, rfl, rfl, rfl⟩

theorem onMotion_frame (g : Game) (e : Event) :
    (onMotion g e).cell_size_ = g.cell_size_ ∧ (onMotion g e).cells_width_ = g.cells_width_ ∧
    (onMotion g e).cells_height_ = g.cells_height_ ∧
    (onMotion g e).board_.length = g.board_.length := by
  cases e with
  | mouseMotion =>
    refine ⟨?_, ?_, ?_, ?_⟩
    · unfold onMotion; simp only; split <;> [split; skip] <;> rfl
    · unfold onMotion; simp only; split <;> [split; skip] <;> rfl
    · unfold onMotion; simp only; split <;> [split; skip] <;> rfl
    · rw [onMotion_board]
      split
      · exact List.length_modify _ _ _
      · rfl
  | _ => exact ⟨rfl, rfl, rfl, rfl⟩

theorem onButtons_frame (g : Game) (e : Event) :
    (onButtons g e).cell_size_ = g.cell_size_ ∧ (onButtons g e).cells_width_ = g.cells_width_ ∧
    (onButtons g e).cells_height_ = g.cells_height_ ∧
    (onButtons g e).board_.length = g.board_.length := by
  cases e with
  | mouseButtonDown b =>
    cases b with
    | right =>
      obtain ⟨h1, h2, h3, _⟩ := rightButtonDown_frame g
      exact ⟨h1, h2, h3, rightButtonDown_length g⟩
    | _ => exact ⟨rfl, rfl, rfl, rfl⟩
  | mouseButtonUp b =>
    cases b with
    | left => exact ⟨rfl, rfl, rfl, List.length_map _ _⟩
    | _ => exact ⟨rfl, rfl, rfl, rfl⟩
  | _ => exact ⟨rfl, rfl, rfl, rfl⟩

/-- No event changes the grid dimensions or the number of cells. -/
theorem handleEvent_frame (g : Game) (p : Polled) :
    (handleEvent g p).cell_size_ = g.cell_size_ ∧
    (handleEvent g p).cells_width_ = g.cells_width_ ∧
    (handleEvent g p).cells_height_ = g.cells_height_ ∧
    (handleEvent g p).board_.length = g.board_.length := by
  unfold handleEvent
  simp only
  obtain ⟨a1, a2, a3, a4⟩ := onButtons_frame { g with mouse_position_ := p.mouse } p.e
  obtain ⟨b1, b2, b3, b4⟩ := onMotion_frame (onButtons { g with mouse_position_ := p.mouse } p.e) p.e
  obtain ⟨c1, c2, c3, c4⟩ :=
    onKeys_frame (onMotion (onButtons { g with mouse_position_ := p.mouse } p.e) p.e) p.e
  exact ⟨c1.trans (b1.trans a1), c2.trans (b2.trans a2), c3.trans (b3.trans a3),
    (congrArg List.length c4).trans (b4.trans a4)⟩

theorem Tick_length (g : Game) : (Tick g).board_.length = g.board_.length := by
  rw [Tick_board]
  split
  · exact List.length_map _ _
  · rfl

/-- Every reachable state satisfies the class invariant. -/
theorem step_preserves_wf {g g2 : Game} (hstep : Step g g2) (ih : g.WF) : g2.WF := by
  cases hstep with
  | event p =>
    obtain ⟨h1, h2, h3, h4⟩ := handleEvent_frame g p
    exact ⟨h1 ▸ ih.cell_size_pos, h2 ▸ ih.width_nonneg, h3 ▸ ih.height_nonneg,
      by rw [h4, h2, h3]; exact ih.board_length⟩
  | tick =>
    obtain ⟨h1, h2, h3, _⟩ := Tick_frame g
    exact ⟨h1 ▸ ih.cell_size_pos, h2 ▸ ih.width_nonneg, h3 ▸ ih.height_nonneg,
      by rw [Tick_length, h2, h3]; exact ih.board_length⟩

/-- Every reachable state satisfies the class invariant. -/
theorem reachable_wf {sw sh : Nat} {ok : Bool} {g : Game} (h : Reachable sw sh ok g) :
    g.WF := by
  induction h with
  | init => exact Game.new_wf sw sh ok
  | step _ hstep ih => exact step_preserves_wf hstep ih

/-- After `staleHighlightInputs` cell 78 is no wall and still has `highlighted = true`. -/
theorem staleHighlight_scene :
    Scene ((Game.new 800 600 true).run staleHighlightInputs) false true true := by
  obtain ⟨hcs, hcw, _⟩ := Game.new_dims 800 600 true
  obtain ⟨_, hget⟩ := Game.new_board 800 600 true
  have h78 : (Game.new 800 600 true).board_[78]? = some ⟨⟨96, 96, 32, 32⟩, false, false⟩ :=
    hget 78 (by decide)
  have hpl : (Game.new 800 600 true).player_ = ⟨⟨261, 295, 10, 10⟩, 0, 0⟩ := by decide
  have h0 := Scene.aim hcs hcw h78 hpl rfl rfl rfl rfl
  simp only [staleHighlightInputs, Game.run, List.foldl_cons, List.foldl_nil, Game.apply]
  exact ((((h0.press.rightUp _).leftDown _).tick).press).rightUp _

/-- Failing input for C9, evaluated: `staleHighlightInputs` leads from the constructed
800 x 600 session to a reachable state in which the non-wall cell 78 has
`highlighted = true`; the next secondary-button press turns that non-wall cell into a wall
whose `highlighted` flag is true immediately after the press. -/
theorem wall_created_highlighted :
    Reachable 800 600 true ((Game.new 800 600 true).run staleHighlightInputs) ∧
    ((Game.new 800 600 true).run staleHighlightInputs).board_[78]?
      = some ⟨⟨96, 96, 32, 32⟩, false, true⟩ ∧
    (handleEvent ((Game.new 800 600 true).run staleHighlightInputs)
      ⟨⟨112, 112⟩, .mouseButtonDown .right⟩).board_[78]?
      = some ⟨⟨96, 96, 32, 32⟩, true, true⟩ :=
  ⟨reachable_run Reachable.init staleHighlightInputs, staleHighlight_scene.cell,
    staleHighlight_scene.press.cell⟩

/-- Counterexample to C10 as stated: in the reachable state after `staleHighlightInputs`
the primary button is held and the non-wall cell 78 is highlighted; after the
primary-button release cell 78 still has `highlighted = true`. -/
theorem release_keeps_stale_highlight :
    Reachable 800 600 true ((Game.new 800 600 true).run staleHighlightInputs) ∧
    ((Game.new 800 600 true).run staleHighlightInputs).mouse_left_pressed_ = true ∧
    (handleEvent ((Game.new 800 600 true).run staleHighlightInputs)
      ⟨⟨112, 112⟩, .mouseButtonUp .left⟩).board_[78]?
      = some ⟨⟨96, 96, 32, 32⟩, false, true⟩ :=
  ⟨reachable_run Reachable.init staleHighlightInputs, staleHighlight_scene.left,
    (staleHighlight_scene.leftUp ⟨112, 112⟩).cell⟩

/-- C10, amended: for every state and pointer position, after a primary-button-release
event ray-casting mode is off (`mouse_left_pressed_` and `render_line_` are false), every
wall cell of the board has `highlighted = false`, and every cell has `highlighted = false`
when no non-wall cell was highlighted before the event. -/
theorem left_release_clears_wall_highlights (g : Game) (p : SDL_Point) :
    (handleEvent g ⟨p, .mouseButtonUp .left⟩).mouse_left_pressed_ = false ∧
    (handleEvent g ⟨p, .mouseButtonUp .left⟩).render_line_ = false ∧
    (∀ c ∈ (handleEvent g ⟨p, .mouseButtonUp .left⟩).board_,
      c.is_wall_ = true → c.highlighted_ = false) ∧
    ((∀ c ∈ g.board_, c.is_wall_ = false → c.highlighted_ = false) →
      ∀ c ∈ (handleEvent g ⟨p, .mouseButtonUp .left⟩).board_, c.highlighted_ = false) := by
  have hb : (handleEvent g ⟨p, .mouseButtonUp .left⟩).board_ = g.board_.map clearHighlight := rfl
  rw [hb]
  refine ⟨rfl, rfl, ?_, ?_⟩
  · intro c hc hw
    obtain ⟨c0, _, rfl⟩ := List.mem_map.mp hc
    unfold clearHighlight at hw ⊢
    cases h0 : c0.is_wall_ <;> simp_all
  · intro hclean c hc
    obtain ⟨c0, hc0, rfl⟩ := List.mem_map.mp hc
    have := hclean c0 hc0
    unfold clearHighlight
    cases h0 : c0.is_wall_ <;> simp_all

/-- The constructor leaves every cell a non-wall without highlight. -/
theorem Game.new_board_clean (sw sh : Nat) (ok : Bool) :
    ∀ c ∈ (Game.new sw sh ok).board_, c.is_wall_ = false ∧ c.highlighted_ = false := by
  intro c hc
  obtain ⟨hlen, hget⟩ := Game.new_board sw sh ok
  obtain ⟨n, hn⟩ := List.mem_iff_getElem?.mp hc
  have hlt : n < (sw / 32) * (sh / 32) := by
    rw [← hlen]; exact lt_of_getElem?_some hn
  rw [hget n hlt] at hn
  cases hn
  exact ⟨rfl, rfl⟩

/-! ## Fixed-step accounting -/

/-- With `n * ms <= delta < (n + 1) * ms` the loop ends after exactly `n` ticks, given
fuel for `n` iterations, and leaves the debt `delta - n * ms`. -/
theorem drainTicks_exact {ms : ℚ} (hms : 0 < ms) :
    ∀ (n fuel : Nat) (g : Game) (delta : ℚ) (ticks : Nat),
      (n : ℚ) * ms ≤ delta → delta < ((n : ℚ) + 1) * ms → n ≤ fuel →
      drainTicks ms fuel g delta ticks = some (Tick^[n] g, delta - (n : ℚ) * ms, ticks + n) := by
  intro n
  induction n with
  | zero =>
    intro fuel g delta ticks _ h2 _
    have hlt : ¬ ms ≤ delta := by
      simp only [Nat.cast_zero, zero_add, one_mul] at h2
      exact not_le.mpr h2
    cases fuel <;> simp [drainTicks, hlt]
  | succ n ih =>
    intro fuel g delta ticks h1 h2 hf
    have hge : ms ≤ delta := by
      push_cast at h1
      nlinarith [Nat.cast_nonneg (α := ℚ) n]
    cases fuel with
    | zero => omega
    | succ fuel =>
      have h1' : (n : ℚ) * ms ≤ delta - ms := by push_cast at h1; linarith
      have h2' : delta - ms < ((n : ℚ) + 1) * ms := by push_cast at h2; linarith
      have e1 : delta - ms - (n : ℚ) * ms = delta - ((n + 1 : Nat) : ℚ) * ms := by
        push_cast; ring
      have e2 : ticks + 1 + n = ticks + (n + 1) := by omega
      rw [drainTicks, if_pos hge, ih fuel (Tick g) (delta - ms) (ticks + 1) h1' h2' (by omega),
        Function.iterate_succ_apply, e1, e2]

/-- C11: with tick duration `ms > 0`, carried debt `0 <= d < ms` and elapsed time `e >= 0`
(exact arithmetic), one loop iteration ends its tick loop (any fuel of at least
`floor((d + e) / ms)` iterations gives a result), runs exactly `floor((d + e) / ms)` ticks on
the state left by the event handling, and leaves the debt
`(d + e) - ms * floor((d + e) / ms)`, which lies in `[0, ms)`. -/
theorem fixed_step_accounting (ms d e : ℚ) (hms : 0 < ms) (hd0 : 0 ≤ d) (_hd1 : d < ms)
    (he : 0 ≤ e) (g : Game) (ticks fuel : Nat) (queue : List Polled)
    (hfuel : (Int.floor ((d + e) / ms)).toNat ≤ fuel) :
    runIteration ms fuel g d ticks e queue =
      some (Tick^[(Int.floor ((d + e) / ms)).toNat] (HandleEvents g queue),
        (d + e) - ms * (Int.floor ((d + e) / ms) : ℚ),
        ticks + (Int.floor ((d + e) / ms)).toNat) ∧
    0 ≤ (d + e) - ms * (Int.floor ((d + e) / ms) : ℚ) ∧
    (d + e) - ms * (Int.floor ((d + e) / ms) : ℚ) < ms := by
  have hq : 0 ≤ (d + e) / ms := div_nonneg (add_nonneg hd0 he) hms.le
  have hfl0 : 0 ≤ Int.floor ((d + e) / ms) := Int.floor_nonneg.mpr hq
  have hcast : ((Int.floor ((d + e) / ms)).toNat : ℚ) = (Int.floor ((d + e) / ms) : ℚ) := by
    have : ((Int.floor ((d + e) / ms)).toNat : Int) = Int.floor ((d + e) / ms) :=
      Int.toNat_of_nonneg hfl0
    exact_mod_cast this
  have hlo : (Int.floor ((d + e) / ms) : ℚ) * ms ≤ d + e :=
    (le_div_iff₀ hms).mp (Int.floor_le _)
  have hhi : d + e < ((Int.floor ((d + e) / ms) : ℚ) + 1) * ms :=
    (div_lt_iff₀ hms).mp (Int.lt_floor_add_one _)
  refine ⟨?_, by linarith, by linarith⟩
  unfold runIteration
  simp only
  rw [drainTicks_exact hms _ fuel _ (d + e) ticks (by rw [hcast]; exact hlo)
    (by rw [hcast]; exact hhi) hfuel, hcast, mul_comm]

/-- Witness for C11: with the tick duration `1/60`, no debt and an elapsed time of `2.5`
tick durations, the iteration runs exactly 2 ticks and keeps half a tick duration of
debt. -/
theorem fixed_step_accounting_witness :
    runIteration tickDuration 2 (Game.new 800 600 true) 0 0 (5 / 2 * tickDuration) [] =
      some (Tick (Tick (Game.new 800 600 true)), 1 / 2 * tickDuration, 2) := by
  have hfl : Int.floor (((0 : ℚ) + 5 / 2 * tickDuration) / tickDuration) = 2 := by
    rw [Int.floor_eq_iff]
    norm_num [tickDuration]
  have h := (fixed_step_accounting tickDuration 0 (5 / 2 * tickDuration)
    (by norm_num [tickDuration]) le_rfl (by norm_num [tickDuration])
    (by norm_num [tickDuration]) (Game.new 800 600 true) 0 2 [] (by rw [hfl]; decide)).1
  rw [hfl] at h
  rw [h]
  have hdebt : (0 : ℚ) + 5 / 2 * tickDuration - tickDuration * ((2 : Int) : ℚ)
      = 1 / 2 * tickDuration := by
    push_cast; ring
  rw [hdebt]
  rfl

/-! ## Board construction -/

/-- C12: for every cell size `cs` and area `(W, H)` the constructor's loops build exactly
`(W / cs) * (H / cs)` cells (integer division), cell `i` having `rect.x = (i % cells_width) *
cs`, `rect.y = (i / cells_width) * cs`, `rect.w = rect.h = cs`, `is_wall = false` and
`highlighted = false`; the constructor itself does so with its cell size 32. -/
theorem board_construction (cs W H : Nat) :
    ((constructBoard (cs : Int) W H).length = (W / cs) * (H / cs) ∧
      ∀ i : Nat, i < (W / cs) * (H / cs) →
        (constructBoard (cs : Int) W H)[i]? =
          some ⟨⟨((i % (W / cs) : Nat) : Int) * (cs : Int), ((i / (W / cs) : Nat) : Int) * (cs : Int),
            (cs : Int), (cs : Int)⟩, false, false⟩) ∧
    ∀ ok : Bool, (Game.new W H ok).board_ = constructBoard 32 W H ∧
      (Game.new W H ok).cell_size_ = 32 ∧
      (Game.new W H ok).cells_width_ = ((W / 32 : Nat) : Int) ∧
      (Game.new W H ok).cells_height_ = ((H / 32 : Nat) : Int) := by
  have hw : (W : Int).tdiv (cs : Int) = ((W / cs : Nat) : Int) := (Int.ofNat_tdiv W cs).symm
  have hh : (H : Int).tdiv (cs : Int) = ((H / cs : Nat) : Int) := (Int.ofNat_tdiv H cs).symm
  have hb : constructBoard (cs : Int) W H =
      (List.range (H / cs)).foldl (fun b y => initRow (cs : Int) ((W / cs : Nat) : Int) y b)
        (List.replicate ((W / cs) * (H / cs)) zeroCell) := by
    unfold constructBoard
    simp only [hw, hh]
    have : (((W / cs : Nat) : Int) * ((H / cs : Nat) : Int)).toNat = (W / cs) * (H / cs) := by
      rw [← Nat.cast_mul, Int.toNat_natCast]
    rw [this]
    simp only [initBoard, Int.toNat_natCast]
  obtain ⟨hl, hg⟩ := initBoard_prefix (cs : Int) (W / cs)
    (List.replicate ((W / cs) * (H / cs)) zeroCell) (H / cs)
  refine ⟨?_, fun ok => ⟨rfl, Game.new_dims W H ok⟩⟩
  rw [hb]
  refine ⟨by rw [hl, List.length_replicate], fun i hi => ?_⟩
  rw [hg, List.length_replicate]
  have : i < H / cs * (W / cs) ∧ i < W / cs * (H / cs) := by
    rw [Nat.mul_comm (H / cs)]; exact ⟨hi, hi⟩
  simp only [this, and_self, if_true, gridCell]

/-- Witness for C12: 800 x 600 with cell size 32 gives 25 x 18 = 450 cells, cell 78 being
the square of side 32 at `(96, 96)`. -/
theorem board_construction_witness :
    (Game.new 800 600 true).board_.length = 450 ∧
    (Game.new 800 600 true).board_[78]? = some ⟨⟨96, 96, 32, 32⟩, false, false⟩ := by
  obtain ⟨⟨hlen, hget⟩, hnew⟩ := board_construction 32 800 600
  rw [(hnew true).1]
  exact ⟨hlen, hget 78 (by decide)⟩

/-! ## The simulation step -/

theorem tickRay_eq (g : Game) : tickRay g.player_.moved.box_ g.mouse_box_ = playerToMouseRay g :=
  rfl

theorem Tick_player (g : Game) : (Tick g).player_ = g.player_.moved := (Tick_frame g).2.2.2.2.1

/-- C13: for every state with `mouse_left_pressed_ = true`, after `Tick` the player box is
the old one moved by `(vx, vy)`, the board has the same cells with the same rectangles and
`is_wall` flags, every wall cell has `highlighted = AABBTavianIntersection(cell.rect, ray)`
for the ray from the centre of the moved player box to the centre of the mouse box, and
every non-wall cell keeps its `highlighted` flag. -/
theorem tick_with_ray (g : Game) (hleft : g.mouse_left_pressed_ = true) :
    (Tick g).player_.box_ = movedBox g ∧
    (Tick g).board_.length = g.board_.length ∧
    ∀ (j : Nat) (c : Cell), g.board_[j]? = some c →
      ∃ c2 : Cell, (Tick g).board_[j]? = some c2 ∧
        c2.is_wall_ = c.is_wall_ ∧ c2.rect_ = c.rect_ ∧
        (c.is_wall_ = true →
          c2.highlighted_ = AABBTavianIntersection c.rect_ (playerToMouseRay g)) ∧
        (c.is_wall_ = false → c2.highlighted_ = c.highlighted_) := by
  refine ⟨by rw [Tick_player]; rfl, Tick_length g, fun j c hc => ?_⟩
  rw [Tick_board, if_pos hleft, List.getElem?_map, hc, tickRay_eq]
  refine ⟨_, rfl, ?_⟩
  unfold highlightCell
  cases hw : c.is_wall_
  · simp [hw]
  · cases hr : AABBTavianIntersection c.rect_ (playerToMouseRay g) <;> simp [hw]

/-- C14: for every state with `mouse_left_pressed_ = false`, `Tick` adds `(vx, vy)` to the
position of the player box and changes nothing else: the board, the mouse box, the
velocity, the size of the player box and every flag are as before. -/
theorem tick_without_ray (g : Game) (hleft : g.mouse_left_pressed_ = false) :
    Tick g = { g with player_ := { g.player_ with box_ := movedBox g } } := by
  unfold Tick
  simp only [hleft]
  rfl

/-! ## Directional keys -/

theorem onButtons_player (g : Game) (e : Event) : (onButtons g e).player_ = g.player_ := by
  cases e with
  | mouseButtonDown b =>
    cases b with
    | right => exact (rightButtonDown_frame g).2.2.2.2.2.2.1
    | _ => rfl
  | mouseButtonUp b => cases b <;> rfl
  | _ => rfl

theorem onMotion_player (g : Game) (e : Event) : (onMotion g e).player_ = g.player_ := by
  cases e with
  | mouseMotion => unfold onMotion; simp only; split <;> [split; skip] <;> rfl
  | _ => rfl

/-- The velocity after one event: the value the event asks for on each axis, and the
previous value on an axis the event does not concern. -/
theorem handleEvent_velocity (g : Game) (p : Polled) :
    (handleEvent g p).player_.vy_ = (vyEffect p.e).getD g.player_.vy_ ∧
    (handleEvent g p).player_.vx_ = (vxEffect p.e).getD g.player_.vx_ := by
  have h0 : (onMotion (onButtons { g with mouse_position_ := p.mouse } p.e) p.e).player_
      = g.player_ := by
    rw [onMotion_player, onButtons_player]
  unfold handleEvent
  simp only
  generalize onMotion (onButtons { g with mouse_position_ := p.mouse } p.e) p.e = g2 at h0 ⊢
  rw [← h0]
  cases hp : p.e with
  | keyDown k => cases k <;> exact ⟨rfl, rfl⟩
  | keyUp k => cases k <;> exact ⟨rfl, rfl⟩
  | _ => exact ⟨rfl, rfl⟩

theorem apply_velocity (g : Game) (i : Input) :
    (g.apply i).player_.vy_ = (Input.effect vyEffect i).getD g.player_.vy_ ∧
    (g.apply i).player_.vx_ = (Input.effect vxEffect i).getD g.player_.vx_ := by
  cases i with
  | event p => exact handleEvent_velocity g p
  | tick =>
    have h : (Tick g).player_ = g.player_.moved := Tick_player g
    exact ⟨by rw [show g.apply .tick = Tick g from rfl, h]; rfl,
      by rw [show g.apply .tick = Tick g from rfl, h]; rfl⟩

theorem lastEffect_concat (effect : Event → Option Int) (inputs : List Input) (i : Input)
    (init : Int) :
    lastEffect effect (inputs ++ [i]) init
      = (Input.effect effect i).getD (lastEffect effect inputs init) := by
  unfold lastEffect
  rw [List.filterMap_append, List.getLast?_append]
  cases h : Input.effect effect i with
  | none => simp [List.filterMap_cons, h]
  | some v => simp [List.filterMap_cons, h]

theorem vyEffect_values (e : Event) (v : Int) (h : vyEffect e = some v) :
    v = -5 ∨ v = 0 ∨ v = 5 := by
  cases e with
  | keyDown k => cases k <;> simp [vyEffect] at h <;> omega
  | keyUp k => cases k <;> simp [vyEffect] at h <;> omega
  | _ => simp [vyEffect] at h

theorem vxEffect_values (e : Event) (v : Int) (h : vxEffect e = some v) :
    v = -5 ∨ v = 0 ∨ v = 5 := by
  cases e with
  | keyDown k => cases k <;> simp [vxEffect] at h <;> omega
  | keyUp k => cases k <;> simp [vxEffect] at h <;> omega
  | _ => simp [vxEffect] at h

/-- In every reachable state each velocity component is `-5`, `0` or `5`. -/
theorem reachable_velocity {sw sh : Nat} {ok : Bool} {g : Game} (h : Reachable sw sh ok g) :
    (g.player_.vy_ = -5 ∨ g.player_.vy_ = 0 ∨ g.player_.vy_ = 5) ∧
    (g.player_.vx_ = -5 ∨ g.player_.vx_ = 0 ∨ g.player_.vx_ = 5) := by
  induction h with
  | init => exact ⟨Or.inr (Or.inl rfl), Or.inr (Or.inl rfl)⟩
  | step _ hstep ih =>
    cases hstep with
    | event p =>
      obtain ⟨hy, hx⟩ := handleEvent_velocity _ p
      rw [hy, hx]
      constructor
      · cases hv : vyEffect p.e with
        | none => exact ih.1
        | some v => exact vyEffect_values _ v hv
      · cases hv : vxEffect p.e with
        | none => exact ih.2
        | some v => exact vxEffect_values _ v hv
    | tick =>
      rw [Tick_player]
      exact ih

/-- C16: after any sequence of events and ticks the vertical velocity is the value asked
for by the last W/S key event of the sequence (`-5` after W-down, `+5` after S-down, `0`
after the release of W or S, whatever key is still held) and the horizontal velocity the
value asked for by the last A/D key event (`-5`, `+5`, `0` likewise); with no key event on
an axis the component is unchanged, so key events on one axis never change the other
component; in every reachable state both components are in `{-5, 0, 5}`. -/
theorem last_key_event_wins (g : Game) (inputs : List Input) :
    ((g.run inputs).player_.vy_ = lastEffect vyEffect inputs g.player_.vy_ ∧
      (g.run inputs).player_.vx_ = lastEffect vxEffect inputs g.player_.vx_) ∧
    (∀ p : Polled, (handleEvent g p).player_.vy_ = (vyEffect p.e).getD g.player_.vy_ ∧
      (handleEvent g p).player_.vx_ = (vxEffect p.e).getD g.player_.vx_) ∧
    (∀ (sw sh : Nat) (ok : Bool), Reachable sw sh ok g →
      (g.player_.vy_ = -5 ∨ g.player_.vy_ = 0 ∨ g.player_.vy_ = 5) ∧
      (g.player_.vx_ = -5 ∨ g.player_.vx_ = 0 ∨ g.player_.vx_ = 5)) := by
  refine ⟨?_, handleEvent_velocity g, fun _ _ _ h => reachable_velocity h⟩
  induction inputs using List.reverseRecOn with
  | nil => exact ⟨rfl, rfl⟩
  | append_singleton inputs i ih =>
    have hrun : g.run (inputs ++ [i]) = (g.run inputs).apply i := by
      unfold Game.run
      rw [List.foldl_concat]
    obtain ⟨hy, hx⟩ := apply_velocity (g.run inputs) i
    rw [hrun, hy, hx, lastEffect_concat, lastEffect_concat, ih.1, ih.2]
    exact ⟨rfl, rfl⟩

/-- Witness for C16: W pressed, A pressed, then S released while W is still held: the
vertical velocity is 0 and the horizontal one is -5; and the constructed session, a
reachable state, has both components in `{-5, 0, 5}`. -/
theorem last_key_event_wins_witness :
    (((Game.new 800 600 true).run
        [.event ⟨⟨0, 0⟩, .keyDown .w⟩, .event ⟨⟨0, 0⟩, .keyDown .a⟩,
          .event ⟨⟨0, 0⟩, .keyUp .s⟩]).player_.vy_ = 0 ∧
      ((Game.new 800 600 true).run
        [.event ⟨⟨0, 0⟩, .keyDown .w⟩, .event ⟨⟨0, 0⟩, .keyDown .a⟩,
          .event ⟨⟨0, 0⟩, .keyUp .s⟩]).player_.vx_ = -5) ∧
    ((Game.new 800 600 true).player_.vy_ = -5 ∨ (Game.new 800 600 true).player_.vy_ = 0 ∨
      (Game.new 800 600 true).player_.vy_ = 5) :=
  ⟨(last_key_event_wins (Game.new 800 600 true)
      [.event ⟨⟨0, 0⟩, .keyDown .w⟩, .event ⟨⟨0, 0⟩, .keyDown .a⟩,
        .event ⟨⟨0, 0⟩, .keyUp .s⟩]).1,
    ((last_key_event_wins (Game.new 800 600 true) []).2.2 800 600 true Reachable.init).1⟩

/-! ## Draining the event queue -/

theorem HandleEvents_eq_fold (g : Game) (queue : List Polled) :
    HandleEvents g queue = (untilQuit queue).foldl handleEvent g := by
  induction queue generalizing g with
  | nil => rfl
  | cons p rest ih =>
    by_cases hq : p.e = .quit
    · simp [HandleEvents, untilQuit, hq]
    · simp [HandleEvents, untilQuit, hq, ih]

theorem untilQuit_of_no_quit (queue : List Polled) (h : ∀ p ∈ queue, p.e ≠ .quit) :
    untilQuit queue = queue := by
  induction queue with
  | nil => rfl
  | cons p rest ih =>
    have hp : p.e ≠ .quit := h p (List.mem_cons_self _ _)
    have hrest : ∀ q ∈ rest, q.e ≠ .quit := fun q hq => h q (List.mem_cons_of_mem _ hq)
    simp [untilQuit, hp, ih hrest]

/-- Counterexample to C17 as stated: with the queue `[quit, W pressed]` pending,
`HandleEvents` returns at the quit event and leaves the key event unapplied (the vertical
velocity stays 0, the fold over the whole queue makes it -5); the tick of that iteration
runs on the state without the key event. -/
theorem quit_leaves_events_unapplied :
    (HandleEvents (Game.new 800 600 true)
      [⟨⟨0, 0⟩, .quit⟩, ⟨⟨0, 0⟩, .keyDown .w⟩]).player_.vy_ = 0 ∧
    (List.foldl handleEvent (Game.new 800 600 true)
      [⟨⟨0, 0⟩, .quit⟩, ⟨⟨0, 0⟩, .keyDown .w⟩]).player_.vy_ = -5 ∧
    runIteration tickDuration 1 (Game.new 800 600 true) 0 0 tickDuration
        [⟨⟨0, 0⟩, .quit⟩, ⟨⟨0, 0⟩, .keyDown .w⟩]
      = some (Tick (handleEvent (Game.new 800 600 true) ⟨⟨0, 0⟩, .quit⟩), 0, 1) := by
  refine ⟨rfl, rfl, ?_⟩
  have h := drainTicks_exact (show (0 : ℚ) < tickDuration by norm_num [tickDuration]) 1 1
    (handleEvent (Game.new 800 600 true) ⟨⟨0, 0⟩, .quit⟩) (0 + tickDuration) 0
    (by norm_num) (by norm_num [tickDuration]) le_rfl
  have hdebt : (0 : ℚ) + tickDuration - ((1 : Nat) : ℚ) * tickDuration = 0 := by
    push_cast; ring
  rw [hdebt] at h
  exact h

/-- C17, amended: for every finite queue of pending events one call of `HandleEvents`
applies, in order, the events up to and including the first quit event, and all of them
when the queue holds no quit event: the resulting state is the fold of the per-event
mutation over that part of the queue.  The ticks of the loop iteration run on that
state, after `HandleEvents` has returned. -/
theorem handle_events_drains_until_quit (g : Game) (queue : List Polled) :
    HandleEvents g queue = (untilQuit queue).foldl handleEvent g ∧
    ((∀ p ∈ queue, p.e ≠ .quit) → HandleEvents g queue = queue.foldl handleEvent g) ∧
    ∀ (ms : ℚ) (fuel : Nat) (delta : ℚ) (ticks : Nat) (elapsed : ℚ),
      runIteration ms fuel g delta ticks elapsed queue
        = drainTicks ms fuel ((untilQuit queue).foldl handleEvent g) (delta + elapsed) ticks := by
  refine ⟨HandleEvents_eq_fold g queue, fun h => ?_, fun ms fuel delta ticks elapsed => ?_⟩
  · rw [HandleEvents_eq_fold, untilQuit_of_no_quit queue h]
  · unfold runIteration
    simp only [HandleEvents_eq_fold]

/-- Witness for C17 (amended): a queue of two key events without quit is applied in
full. -/
theorem handle_events_drains_until_quit_witness :
    HandleEvents (Game.new 800 600 true) [⟨⟨0, 0⟩, .keyDown .w⟩, ⟨⟨0, 0⟩, .keyDown .d⟩]
      = List.foldl handleEvent (Game.new 800 600 true)
          [⟨⟨0, 0⟩, .keyDown .w⟩, ⟨⟨0, 0⟩, .keyDown .d⟩] :=
  (handle_events_drains_until_quit (Game.new 800 600 true)
    [⟨⟨0, 0⟩, .keyDown .w⟩, ⟨⟨0, 0⟩, .keyDown .d⟩]).2.1 (by decide)

/-! ## Safety of the grid indexing -/

theorem subscript_of_inBounds {g : Game} {index : Int} (h : indexInBounds g index = true) :
    ∃ c : Cell, subscript g.board_ index = some c ∧ g.board_[index.toNat]? = some c := by
  have hlt := toNat_lt_of_inBounds h
  simp only [indexInBounds, Bool.and_eq_true, decide_eq_true_eq] at h
  refine ⟨g.board_[index.toNat], ?_, List.getElem?_eq_getElem hlt⟩
  unfold subscript
  rw [if_pos h, List.getElem?_eq_getElem hlt]

theorem rightButtonDownChecked_eq (g : Game) :
    rightButtonDownChecked g =
      some (rightButtonDown g,
        if indexInBounds g (pointerIndex g) = true then
          [pointerIndex g, pointerIndex g, pointerIndex g]
        else []) := by
  unfold rightButtonDownChecked rightButtonDown
  have hp : pointerIndex { g with mouse_right_pressed_ := true } = pointerIndex g := rfl
  have hb : ∀ i, indexInBounds { g with mouse_right_pressed_ := true } i = indexInBounds g i :=
    fun _ => rfl
  simp only [hp, hb]
  by_cases h : indexInBounds g (pointerIndex g) = true
  · obtain ⟨c, hc1, hc2⟩ := subscript_of_inBounds h
    simp only [h, if_true, hc1, hc2]
  · simp only [h, if_false]
    simp

theorem onMotionChecked_eq (g : Game) :
    onMotionChecked g .mouseMotion =
      some (onMotion g .mouseMotion,
        if g.mouse_right_pressed_ = true ∧ indexInBounds g (pointerIndex g) = true then
          [pointerIndex g]
        else []) := by
  unfold onMotionChecked onMotion
  simp only
  by_cases h1 : g.mouse_right_pressed_ = true
  · by_cases h2 : indexInBounds g (pointerIndex g) = true
    · obtain ⟨c, hc1, _⟩ := subscript_of_inBounds h2
      have h2' : indexInBounds
          { g with mouse_box_ := { g.mouse_box_ with
              x := g.mouse_position_.x - g.mouse_box_.w.tdiv 2
              y := g.mouse_position_.y - g.mouse_box_.w.tdiv 2 } }
          (pointerIndex { g with mouse_box_ := { g.mouse_box_ with
              x := g.mouse_position_.x - g.mouse_box_.w.tdiv 2
              y := g.mouse_position_.y - g.mouse_box_.w.tdiv 2 } }) = true := h2
      have hc1' : subscript
          ({ g with mouse_box_ := { g.mouse_box_ with
              x := g.mouse_position_.x - g.mouse_box_.w.tdiv 2
              y := g.mouse_position_.y - g.mouse_box_.w.tdiv 2 } } : Game).board_
          (pointerIndex { g with mouse_box_ := { g.mouse_box_ with
              x := g.mouse_position_.x - g.mouse_box_.w.tdiv 2
              y := g.mouse_position_.y - g.mouse_box_.w.tdiv 2 } }) = some c := hc1
      rw [if_pos h1, if_pos h2', if_pos h1, if_pos h2', if_pos ⟨h1, h2⟩, hc1']
      rfl
    · have h2' : ¬ indexInBounds
          { g with mouse_box_ := { g.mouse_box_ with
              x := g.mouse_position_.x - g.mouse_box_.w.tdiv 2
              y := g.mouse_position_.y - g.mouse_box_.w.tdiv 2 } }
          (pointerIndex { g with mouse_box_ := { g.mouse_box_ with
              x := g.mouse_position_.x - g.mouse_box_.w.tdiv 2
              y := g.mouse_position_.y - g.mouse_box_.w.tdiv 2 } }) = true := h2
      rw [if_pos h1, if_neg h2', if_pos h1, if_neg h2', if_neg (fun h => h2 h.2)]
  · rw [if_neg h1, if_neg h1, if_neg (fun h => h1 h.1)]

theorem inBounds_range {g : Game} {index : Int} (h : indexInBounds g index = true) :
    0 ≤ index ∧ index < (g.board_.length : Int) := by
  simpa only [indexInBounds, Bool.and_eq_true, decide_eq_true_eq] using h

/-- C18: for every state and every pointer position over all integers, the
secondary-button-press handler and the drag-paint handler, run with every subscript of
`board_` checked, never subscript out of range: they return the state the handlers
compute, every index at which `board_` is subscripted satisfies `0 <= idx < board_.size()`,
and when the computed index is out of that range no element is subscripted and the board
is left as it was. -/
theorem grid_indexing_safe (g : Game) (p : SDL_Point) :
    (∃ trace : List Int,
      rightButtonDownChecked { g with mouse_position_ := p }
        = some (handleEvent g ⟨p, .mouseButtonDown .right⟩, trace) ∧
      (∀ i ∈ trace, 0 ≤ i ∧ i < (g.board_.length : Int)) ∧
      (indexInBounds { g with mouse_position_ := p }
          (pointerIndex { g with mouse_position_ := p }) = false →
        trace = [] ∧ (handleEvent g ⟨p, .mouseButtonDown .right⟩).board_ = g.board_)) ∧
    (∃ trace : List Int,
      onMotionChecked { g with mouse_position_ := p } .mouseMotion
        = some (handleEvent g ⟨p, .mouseMotion⟩, trace) ∧
      (∀ i ∈ trace, 0 ≤ i ∧ i < (g.board_.length : Int)) ∧
      (indexInBounds { g with mouse_position_ := p }
          (pointerIndex { g with mouse_position_ := p }) = false →
        trace = [] ∧ (handleEvent g ⟨p, .mouseMotion⟩).board_ = g.board_)) := by
  constructor
  · refine ⟨_, rightButtonDownChecked_eq _, ?_, ?_⟩
    · intro i hi
      by_cases h : indexInBounds { g with mouse_position_ := p }
          (pointerIndex { g with mouse_position_ := p }) = true
      · rw [if_pos h] at hi
        have hr := inBounds_range h
        simp only [List.mem_cons, List.mem_singleton, List.not_mem_nil, or_false, or_self] at hi
        rw [hi]
        exact hr
      · rw [if_neg h] at hi
        exact absurd hi (List.not_mem_nil _)
    · intro h
      have h' : ¬ indexInBounds { g with mouse_position_ := p }
          (pointerIndex { g with mouse_position_ := p }) = true := by simp [h]
      refine ⟨if_neg h', ?_⟩
      rw [handleEvent_rightDown, rightButtonDown_board, if_neg h']
  · refine ⟨_, onMotionChecked_eq _, ?_, ?_⟩
    · intro i hi
      by_cases h : ({ g with mouse_position_ := p } : Game).mouse_right_pressed_ = true ∧
          indexInBounds { g with mouse_position_ := p }
            (pointerIndex { g with mouse_position_ := p }) = true
      · rw [if_pos h] at hi
        have hr := inBounds_range h.2
        simp only [List.mem_singleton] at hi
        rw [hi]
        exact hr
      · rw [if_neg h] at hi
        exact absurd hi (List.not_mem_nil _)
    · intro h
      have h' : ¬ (({ g with mouse_position_ := p } : Game).mouse_right_pressed_ = true ∧
          indexInBounds { g with mouse_position_ := p }
            (pointerIndex { g with mouse_position_ := p }) = true) := by simp [h]
      refine ⟨if_neg h', ?_⟩
      rw [handleEvent_motion, onMotion_board, if_neg h']

/-- Witness for C18: on the constructed 800 x 600 session a press with the pointer at
`(-100, -100)` computes the index `-78`, subscripts nothing and leaves the board as it
was. -/
theorem grid_indexing_safe_witness :
    rightButtonDownChecked { Game.new 800 600 true with mouse_position_ := ⟨-100, -100⟩ }
        = some (handleEvent (Game.new 800 600 true) ⟨⟨-100, -100⟩, .mouseButtonDown .right⟩, []) ∧
    (handleEvent (Game.new 800 600 true) ⟨⟨-100, -100⟩, .mouseButtonDown .right⟩).board_
      = (Game.new 800 600 true).board_ := by
  obtain ⟨trace, h1, _, h3⟩ := (grid_indexing_safe (Game.new 800 600 true) ⟨-100, -100⟩).1
  have hout : indexInBounds { Game.new 800 600 true with mouse_position_ := ⟨-100, -100⟩ }
      (pointerIndex { Game.new 800 600 true with mouse_position_ := ⟨-100, -100⟩ }) = false := by
    have hp : pointerIndex { Game.new 800 600 true with mouse_position_ := ⟨-100, -100⟩ }
        = -78 := by decide
    rw [hp]
    simp [indexInBounds]
  obtain ⟨ht, hb⟩ := h3 hout
  rw [ht] at h1
  exact ⟨h1, hb⟩

/-! ## The wall under the mouse box -/

namespace FVal

theorem stdMax_leOne {a b : FVal} (ha : LeOne a) (hb : LeOne b) : LeOne (stdMax a b) := by
  unfold stdMax
  split <;> assumption

theorem stdMin_geOne {a b : FVal} (ha : GeOne a) (hb : GeOne b) : GeOne (stdMin a b) := by
  unfold stdMin
  split <;> assumption

theorem ge_of_geOne_leOne {a b : FVal} (ha : GeOne a) (hb : LeOne b) : ge a b = true := by
  cases a <;> cases b <;> simp_all [GeOne, LeOne, ge]
  exact le_trans hb ha

/-- For a direction component `d` and a slab `[a, b]` around it, `a < d < b`, the candidate
distances `a * (1/d)` and `b * (1/d)` enclose the parameter 1, for `d = 0` too. -/
theorem slab_encloses_one {a b d : ℚ} (ha : a < d) (hb : d < b) :
    LeOne (stdMin (mul (fin a) (div (fin 1) (fin d))) (mul (fin b) (div (fin 1) (fin d)))) ∧
      GeOne (stdMax (mul (fin a) (div (fin 1) (fin d))) (mul (fin b) (div (fin 1) (fin d)))) := by
  by_cases hd : d = 0
  · subst hd
    have hinv : div (fin 1) (fin 0) = pinf := by
      have h10 : ¬ ((1 : ℚ) < 0) := by norm_num
      simp [div, h10]
    rw [hinv, mul_pinf_of_neg ha, mul_pinf_of_pos hb]
    exact ⟨trivial, trivial⟩
  · rw [div_one_fin hd]
    simp only [mul, stdMin_fin, stdMax_fin, LeOne, GeOne]
    rcases lt_or_gt_of_ne hd with hneg | hpos
    · have h1 : 1 ≤ a * (1 / d) := by
        rw [mul_one_div, le_div_iff_of_neg hneg]; linarith
      have h2 : b * (1 / d) ≤ 1 := by
        rw [mul_one_div, div_le_iff_of_neg hneg]; linarith
      exact ⟨le_trans (min_le_right _ _) h2, le_trans h1 (le_max_left _ _)⟩
    · have h1 : a * (1 / d) ≤ 1 := by
        rw [mul_one_div, div_le_iff₀ hpos]; linarith
      have h2 : 1 ≤ b * (1 / d) := by
        rw [mul_one_div, le_div_iff₀ hpos]; linarith
      exact ⟨le_trans (min_le_left _ _) h1, le_trans h2 (le_max_right _ _)⟩

end FVal

theorem centerF_fin (r : SDL_Rect) :
    centerF r = ⟨FVal.fin ((r.x : ℚ) + (r.w : ℚ) / 2), FVal.fin ((r.y : ℚ) + (r.h : ℚ) / 2)⟩ := by
  have h2 : ¬ ((2 : ℚ) = 0) := by norm_num
  simp [centerF, FVal.ofInt, FVal.div, FVal.add, h2]

/-- The ray from any origin to a target strictly inside a rectangle meets the rectangle:
the parameter 1 lies in both slab intervals. -/
theorem aabb_target_inside (rect : SDL_Rect) (ox oy mx my : ℚ)
    (hx1 : (rect.x : ℚ) < mx) (hx2 : mx < ((rect.x + rect.w : Int) : ℚ))
    (hy1 : (rect.y : ℚ) < my) (hy2 : my < ((rect.y + rect.h : Int) : ℚ)) :
    AABBTavianIntersection rect
      (rayOf (FVal.fin ox) (FVal.fin oy) (FVal.sub (FVal.fin mx) (FVal.fin ox))
        (FVal.sub (FVal.fin my) (FVal.fin oy))) = true := by
  have hx := FVal.slab_encloses_one (a := (rect.x : ℚ) - ox) (b := ((rect.x + rect.w : Int) : ℚ) - ox)
    (d := mx - ox) (by linarith) (by linarith)
  have hy := FVal.slab_encloses_one (a := (rect.y : ℚ) - oy) (b := ((rect.y + rect.h : Int) : ℚ) - oy)
    (d := my - oy) (by linarith) (by linarith)
  simp only [AABBTavianIntersection, rayOf, FVal.ofInt, FVal.sub]
  exact FVal.ge_of_geOne_leOne (FVal.stdMin_geOne hx.2 hy.2) (FVal.stdMax_leOne hx.1 hy.1)

/-- With exact arithmetic: for every state with `mouse_left_pressed_ = true` in which the
centre of the mouse box lies strictly inside the rectangle of a wall cell, that cell has
`highlighted = true` after `Tick`, for every player position and velocity, zero direction
components included. -/
theorem targeted_wall_highlighted (g : Game) (j : Nat) (c : Cell)
    (hleft : g.mouse_left_pressed_ = true) (hc : g.board_[j]? = some c)
    (hwall : c.is_wall_ = true)
    (hx1 : (c.rect_.x : ℚ) < (g.mouse_box_.x : ℚ) + (g.mouse_box_.w : ℚ) / 2)
    (hx2 : (g.mouse_box_.x : ℚ) + (g.mouse_box_.w : ℚ) / 2 < ((c.rect_.x + c.rect_.w : Int) : ℚ))
    (hy1 : (c.rect_.y : ℚ) < (g.mouse_box_.y : ℚ) + (g.mouse_box_.h : ℚ) / 2)
    (hy2 : (g.mouse_box_.y : ℚ) + (g.mouse_box_.h : ℚ) / 2 < ((c.rect_.y + c.rect_.h : Int) : ℚ)) :
    (Tick g).board_[j]? = some { c with highlighted_ := true } := by
  have hray : AABBTavianIntersection c.rect_ (playerToMouseRay g) = true := by
    unfold playerToMouseRay
    rw [centerF_fin, centerF_fin]
    exact aabb_target_inside c.rect_ _ _ _ _ hx1 hx2 hy1 hy2
  rw [Tick_board, if_pos hleft, List.getElem?_map, hc, tickRay_eq]
  simp [highlightCell, hwall, hray]

/-- The constructed 800 x 600 session after the pointer has moved to `(112, 112)`, a
secondary click has built a wall in cell 78 and the primary button has been pressed. -/
theorem aimedWall_scene :
    Scene (handleEvent (handleEvent (handleEvent (handleEvent (Game.new 800 600 true)
      ⟨⟨112, 112⟩, .mouseMotion⟩) ⟨⟨112, 112⟩, .mouseButtonDown .right⟩)
      ⟨⟨112, 112⟩, .mouseButtonUp .right⟩) ⟨⟨112, 112⟩, .mouseButtonDown .left⟩)
      true false true := by
  obtain ⟨hcs, hcw, _⟩ := Game.new_dims 800 600 true
  obtain ⟨_, hget⟩ := Game.new_board 800 600 true
  have h78 : (Game.new 800 600 true).board_[78]? = some ⟨⟨96, 96, 32, 32⟩, false, false⟩ :=
    hget 78 (by decide)
  have hpl : (Game.new 800 600 true).player_ = ⟨⟨261, 295, 10, 10⟩, 0, 0⟩ := by decide
  have h0 := Scene.aim hcs hcw h78 hpl rfl rfl rfl rfl
  exact (h0.press.rightUp _).leftDown _

/-! ## Drag-painting -/

theorem onMotion_flags (g : Game) (e : Event) :
    (onMotion g e).mouse_right_pressed_ = g.mouse_right_pressed_ ∧
    (onMotion g e).setting_walls_ = g.setting_walls_ := by
  cases e with
  | mouseMotion =>
    constructor
    · unfold onMotion; simp only; split <;> [split; skip] <;> rfl
    · unfold onMotion; simp only; split <;> [split; skip] <;> rfl
  | _ => exact ⟨rfl, rfl⟩

/-- The cells away from the computed index after a drag-paint step. -/
theorem onMotion_get_ne (g : Game) (n j : Nat) (hidx : pointerIndex g = (n : Int))
    (hj : n ≠ j) : (onMotion g .mouseMotion).board_[j]? = g.board_[j]? := by
  rw [onMotion_board]
  split
  · rw [hidx, Int.toNat_natCast, List.getElem?_modify]
    cases g.board_[j]? <;> simp [hj]
  · rfl

/-- Inside the grid of a state satisfying the class invariant, the index the handlers
compute is `cellAt`, a valid index. -/
theorem cellAt_spec {g : Game} (hwf : g.WF) {q : SDL_Point} (hq : InGrid g q) :
    q.y.tdiv g.cell_size_ * g.cells_width_ + q.x.tdiv g.cell_size_ = (cellAt g q : Int) ∧
    cellAt g q < g.board_.length := by
  obtain ⟨h0, h1⟩ := index_in_grid hwf.cell_size_pos hq.1.1 hq.1.2 hq.2.1 hq.2.2
  have hlen := hwf.board_length
  unfold cellAt
  constructor
  · exact (Int.toNat_of_nonneg h0).symm
  · omega

/-- One drag-paint step inside the grid writes the paint value into the cell under the
pointer and keeps the drag going. -/
theorem Painting.step {g s : Game} {v : Bool} (hwf : g.WF) (hs : Painting g s v)
    {q : SDL_Point} (hq : InGrid g q) :
    Painting g (handleEvent s ⟨q, .mouseMotion⟩) v ∧
    ∀ j : Nat, (handleEvent s ⟨q, .mouseMotion⟩).board_[j]?.map Cell.is_wall_ =
      if cellAt g q = j then some v else s.board_[j]?.map Cell.is_wall_ := by
  obtain ⟨hidx, hlt⟩ := cellAt_spec hwf hq
  have hp : pointerIndex { s with mouse_position_ := q } = (cellAt g q : Int) := by
    simp only [pointerIndex, hs.cs, hs.cw]
    exact hidx
  have hlt' : cellAt g q < ({ s with mouse_position_ := q } : Game).board_.length := by
    rw [← hs.len] at hlt; exact hlt
  obtain ⟨f1, f2, _, f4⟩ := onMotion_frame { s with mouse_position_ := q } .mouseMotion
  obtain ⟨f5, f6⟩ := onMotion_flags { s with mouse_position_ := q } .mouseMotion
  rw [handleEvent_motion]
  refine ⟨⟨f5.trans hs.held, f6.trans hs.paint, f1.trans hs.cs, f2.trans hs.cw,
    f4.trans hs.len⟩, fun j => ?_⟩
  by_cases hj : cellAt g q = j
  · subst hj
    rw [if_pos rfl, onMotion_get { s with mouse_position_ := q } (cellAt g q) hs.held hp hlt']
    show (s.board_[cellAt g q]?.map _).map _ = _
    rw [List.getElem?_eq_getElem (by rw [hs.len]; exact hlt)]
    exact congrArg some hs.paint
  · rw [if_neg hj, onMotion_get_ne { s with mouse_position_ := q } (cellAt g q) j hp hj]

/-- A drag over in-grid positions writes the paint value into every visited cell and
leaves the wall flag of every other cell as it was at the start of the drag. -/
theorem Painting.drag {g : Game} {v : Bool} (hwf : g.WF) (qs : List SDL_Point)
    (hqs : ∀ q ∈ qs, InGrid g q) :
    ∀ s : Game, Painting g s v →
      Painting g (dragOver s qs) v ∧
      ∀ j : Nat, (dragOver s qs).board_[j]?.map Cell.is_wall_ =
        if ∃ q ∈ qs, cellAt g q = j then some v else s.board_[j]?.map Cell.is_wall_ := by
  induction qs with
  | nil =>
    intro s hs
    exact ⟨hs, fun j => by simp [dragOver]⟩
  | cons q rest ih =>
    intro s hs
    obtain ⟨hs1, hget1⟩ := Painting.step hwf hs (hqs q (List.mem_cons_self _ _))
    obtain ⟨hs2, hget2⟩ := ih (fun r hr => hqs r (List.mem_cons_of_mem _ hr)) _ hs1
    have hfold : dragOver s (q :: rest) = dragOver (handleEvent s ⟨q, .mouseMotion⟩) rest := rfl
    rw [hfold]
    refine ⟨hs2, fun j => ?_⟩
    rw [hget2, hget1]
    by_cases h1 : ∃ r ∈ rest, cellAt g r = j
    · obtain ⟨r, hr, hrj⟩ := h1
      rw [if_pos ⟨r, hr, hrj⟩, if_pos ⟨r, List.mem_cons_of_mem _ hr, hrj⟩]
    · rw [if_neg h1]
      by_cases h2 : cellAt g q = j
      · rw [if_pos h2, if_pos ⟨q, List.mem_cons_self _ _, h2⟩]
      · rw [if_neg h2, if_neg]
        rintro ⟨r, hr, hrj⟩
        rcases List.mem_cons.mp hr with rfl | hr'
        · exact h2 hrj
        · exact h1 ⟨r, hr', hrj⟩

/-- Once the secondary button is not held, pointer-moved events leave the board as it
is. -/
theorem dragOver_released (qs : List SDL_Point) :
    ∀ s : Game, s.mouse_right_pressed_ = false → (dragOver s qs).board_ = s.board_ := by
  induction qs with
  | nil => intro s _; rfl
  | cons q rest ih =>
    intro s hs
    have hfold : dragOver s (q :: rest) = dragOver (handleEvent s ⟨q, .mouseMotion⟩) rest := rfl
    have hheld : ({ s with mouse_position_ := q } : Game).mouse_right_pressed_ = false := hs
    have hb : (handleEvent s ⟨q, .mouseMotion⟩).board_ = s.board_ := by
      rw [handleEvent_motion, onMotion_board, if_neg]
      rw [hheld]
      simp
    have hr : (handleEvent s ⟨q, .mouseMotion⟩).mouse_right_pressed_ = false := by
      rw [handleEvent_motion, (onMotion_flags _ _).1]
      exact hs
    rw [hfold, ih _ hr, hb]

/-- C15: for every state satisfying the class invariant, after a secondary-button press on
an in-grid cell (whose `is_wall` is negated into the paint value `v = setting_walls_`)
followed, with the button held, by pointer-moved events over any in-grid positions, the
pressed cell and every cell visited by the motions have `is_wall = v` and every other
cell keeps its `is_wall`; after the release of the secondary button, pointer-moved
events over any positions leave the board unchanged. -/
theorem drag_paints_value (g : Game) (hwf : g.WF) (p : SDL_Point) (hp : InGrid g p)
    (qs : List SDL_Point) (hqs : ∀ q ∈ qs, InGrid g q) :
    g.board_[cellAt g p]?.map Cell.is_wall_
      = some (!(handleEvent g ⟨p, .mouseButtonDown .right⟩).setting_walls_) ∧
    (∀ j : Nat,
      (dragOver (handleEvent g ⟨p, .mouseButtonDown .right⟩) qs).board_[j]?.map Cell.is_wall_ =
        if cellAt g p = j ∨ ∃ q ∈ qs, cellAt g q = j then
          some (handleEvent g ⟨p, .mouseButtonDown .right⟩).setting_walls_
        else g.board_[j]?.map Cell.is_wall_) ∧
    (∀ (r : SDL_Point) (qs2 : List SDL_Point),
      (dragOver (handleEvent (dragOver (handleEvent g ⟨p, .mouseButtonDown .right⟩) qs)
        ⟨r, .mouseButtonUp .right⟩) qs2).board_
        = (dragOver (handleEvent g ⟨p, .mouseButtonDown .right⟩) qs).board_) := by
  obtain ⟨hidx, hlt⟩ := cellAt_spec hwf hp
  have hp' : pointerIndex { g with mouse_position_ := p } = (cellAt g p : Int) := hidx
  have hc : g.board_[cellAt g p]? = some g.board_[cellAt g p] := List.getElem?_eq_getElem hlt
  have hpaint : (handleEvent g ⟨p, .mouseButtonDown .right⟩).setting_walls_
      = !(g.board_[cellAt g p]).is_wall_ :=
    rightButtonDown_paint { g with mouse_position_ := p } (cellAt g p) _ hp' hc
  obtain ⟨f1, f2, _, _, _, f6, _, _⟩ := rightButtonDown_frame { g with mouse_position_ := p }
  have hpress : Painting g (handleEvent g ⟨p, .mouseButtonDown .right⟩)
      (handleEvent g ⟨p, .mouseButtonDown .right⟩).setting_walls_ :=
    ⟨f6, rfl, f1, f2, rightButtonDown_length { g with mouse_position_ := p }⟩
  have hboard : ∀ j : Nat,
      (handleEvent g ⟨p, .mouseButtonDown .right⟩).board_[j]?.map Cell.is_wall_ =
        if cellAt g p = j then some (handleEvent g ⟨p, .mouseButtonDown .right⟩).setting_walls_
        else g.board_[j]?.map Cell.is_wall_ := by
    intro j
    by_cases hj : cellAt g p = j
    · subst hj
      rw [if_pos rfl, hpaint, handleEvent_rightDown,
        rightButtonDown_get { g with mouse_position_ := p } (cellAt g p) hp' hlt]
      show (g.board_[cellAt g p]?.map _).map _ = _
      rw [hc]
      rfl
    · rw [if_neg hj, handleEvent_rightDown,
        rightButtonDown_get_ne { g with mouse_position_ := p } (cellAt g p) j hp' hj]
  obtain ⟨_, hdrag⟩ := Painting.drag hwf qs hqs _ hpress
  refine ⟨?_, fun j => ?_, fun r qs2 => ?_⟩
  · rw [hc, hpaint]
    simp
  · rw [hdrag, hboard]
    by_cases h1 : ∃ q ∈ qs, cellAt g q = j
    · rw [if_pos h1, if_pos (Or.inr h1)]
    · rw [if_neg h1]
      by_cases h2 : cellAt g p = j
      · rw [if_pos h2, if_pos (Or.inl h2)]
      · rw [if_neg h2, if_neg]
        rintro (h | h)
        · exact h2 h
        · exact h1 h
  · rw [dragOver_released qs2 _ (by rw [handleEvent_rightUp])]
    rw [handleEvent_rightUp]

/-- Witness for C15: on the constructed 800 x 600 session a press at `(100, 100)` (cell 78)
followed by motions to `(140, 100)` and `(170, 100)` (cells 79 and 80) makes cell 80 a
wall and leaves cell 81 a non-wall. -/
theorem drag_paints_value_witness :
    (dragOver (handleEvent (Game.new 800 600 true) ⟨⟨100, 100⟩, .mouseButtonDown .right⟩)
      [⟨140, 100⟩, ⟨170, 100⟩]).board_[80]?.map Cell.is_wall_ = some true ∧
    (dragOver (handleEvent (Game.new 800 600 true) ⟨⟨100, 100⟩, .mouseButtonDown .right⟩)
      [⟨140, 100⟩, ⟨170, 100⟩]).board_[81]?.map Cell.is_wall_ = some false := by
  have hin : ∀ q ∈ [(⟨140, 100⟩ : SDL_Point), ⟨170, 100⟩], InGrid (Game.new 800 600 true) q := by
    intro q hq
    simp only [List.mem_cons, List.mem_singleton, List.not_mem_nil, or_false] at hq
    rcases hq with rfl | rfl <;> exact ⟨⟨by decide, by decide⟩, ⟨by decide, by decide⟩⟩
  obtain ⟨h1, h2, _⟩ := drag_paints_value (Game.new 800 600 true) (Game.new_wf 800 600 true)
    ⟨100, 100⟩ ⟨⟨by decide, by decide⟩, ⟨by decide, by decide⟩⟩ [⟨140, 100⟩, ⟨170, 100⟩] hin
  obtain ⟨_, hget⟩ := Game.new_board 800 600 true
  have c78 : cellAt (Game.new 800 600 true) ⟨100, 100⟩ = 78 := by decide
  have c79 : cellAt (Game.new 800 600 true) ⟨140, 100⟩ = 79 := by decide
  have c80 : cellAt (Game.new 800 600 true) ⟨170, 100⟩ = 80 := by decide
  rw [c78, hget 78 (by decide)] at h1
  have hv : (handleEvent (Game.new 800 600 true)
      ⟨⟨100, 100⟩, .mouseButtonDown .right⟩).setting_walls_ = true := by
    simp only [Option.map_some', gridCell] at h1
    cases hs : (handleEvent (Game.new 800 600 true)
      ⟨⟨100, 100⟩, .mouseButtonDown .right⟩).setting_walls_
    · rw [hs] at h1; simp at h1
    · rfl
  constructor
  · rw [h2 80, if_pos (Or.inr ⟨⟨170, 100⟩, by simp, c80⟩), hv]
  · rw [h2 81, if_neg, hget 81 (by decide)]
    · rfl
    · rw [c78]
      rintro (h | ⟨q, hq, hqj⟩)
      · exact absurd h (by decide)
      · simp only [List.mem_cons, List.mem_singleton, List.not_mem_nil, or_false] at hq
        rcases hq with rfl | rfl
        · rw [c79] at hqj; exact absurd hqj (by decide)
        · rw [c80] at hqj; exact absurd hqj (by decide)

/-! ## Sessions with a wall, a highlight and a moving player -/

theorem mem_modify {f : Cell → Cell} {n : Nat} {l : List Cell} {c : Cell}
    (h : c ∈ l.modify f n) : ∃ c0 ∈ l, c = c0 ∨ c = f c0 := by
  obtain ⟨m, hm⟩ := List.mem_iff_getElem?.mp h
  rw [List.getElem?_modify] at hm
  cases hl : l[m]? with
  | none => rw [hl] at hm; exact Option.noConfusion hm
  | some c0 =>
    rw [hl] at hm
    have hc : (if n = m then f c0 else c0) = c := Option.some.inj hm
    refine ⟨c0, List.mem_iff_getElem?.mpr ⟨m, hl⟩, ?_⟩
    by_cases hnm : n = m
    · rw [if_pos hnm] at hc; exact Or.inr hc.symm
    · rw [if_neg hnm] at hc; exact Or.inl hc.symm

/-- An event leaves a board without highlight without highlight. -/
theorem handleEvent_keeps_clear (g : Game) (p : Polled)
    (h : ∀ c ∈ g.board_, c.highlighted_ = false) :
    ∀ c ∈ (handleEvent g p).board_, c.highlighted_ = false := by
  have hkey : ∀ g2 : Game, (∀ c ∈ g2.board_, c.highlighted_ = false) →
      ∀ c ∈ (onKeys g2 p.e).board_, c.highlighted_ = false := by
    intro g2 h2
    rw [(onKeys_frame g2 p.e).2.2.2]
    exact h2
  have hmot : ∀ g2 : Game, (∀ c ∈ g2.board_, c.highlighted_ = false) →
      ∀ c ∈ (onMotion g2 p.e).board_, c.highlighted_ = false := by
    intro g2 h2 c hc
    cases he : p.e with
    | mouseMotion =>
      rw [he, onMotion_board] at hc
      split at hc
      · obtain ⟨c0, hc0, hcc | hcc⟩ := mem_modify hc
        · rw [hcc]; exact h2 c0 hc0
        · rw [hcc]; exact h2 c0 hc0
      · exact h2 c hc
    | _ => rw [he] at hc; exact h2 c hc
  have hbut : ∀ g2 : Game, (∀ c ∈ g2.board_, c.highlighted_ = false) →
      ∀ c ∈ (onButtons g2 p.e).board_, c.highlighted_ = false := by
    intro g2 h2 c hc
    cases he : p.e with
    | mouseButtonDown b =>
      cases b with
      | right =>
        rw [he] at hc
        have hc' : c ∈ (rightButtonDown g2).board_ := hc
        rw [rightButtonDown_board] at hc'
        split at hc'
        · obtain ⟨c0, hc0, hcc | hcc⟩ := mem_modify hc'
          · rw [hcc]; exact h2 c0 hc0
          · rw [hcc]; exact h2 c0 hc0
        · exact h2 c hc'
      | _ => rw [he] at hc; exact h2 c hc
    | mouseButtonUp b =>
      cases b with
      | left =>
        rw [he] at hc
        have hc' : c ∈ g2.board_.map clearHighlight := hc
        obtain ⟨c0, hc0, rfl⟩ := List.mem_map.mp hc'
        have := h2 c0 hc0
        unfold clearHighlight
        split
        · exact this
        · rfl
      | _ => rw [he] at hc; exact h2 c hc
    | _ => rw [he] at hc; exact h2 c hc
  unfold handleEvent
  exact hkey _ (hmot _ (hbut _ h))

/-- After a tick on a board without highlight only wall cells can be highlighted. -/
theorem Tick_keeps_nonwall_clear (g : Game) (h : ∀ c ∈ g.board_, c.highlighted_ = false) :
    ∀ c ∈ (Tick g).board_, c.is_wall_ = false → c.highlighted_ = false := by
  intro c hc hw
  rw [Tick_board] at hc
  split at hc
  · obtain ⟨c0, hc0, rfl⟩ := List.mem_map.mp hc
    have h0 := h c0 hc0
    unfold highlightCell at hw ⊢
    cases hw0 : c0.is_wall_
    · simp [hw0, h0]
    · rw [hw0] at hw
      cases hr : AABBTavianIntersection c0.rect_
          (tickRay g.player_.moved.box_ g.mouse_box_) <;> simp [hr, hw0] at hw
  · exact h c hc

theorem aimedWall_run :
    (Game.new 800 600 true).run aimedWallInputs =
      handleEvent (handleEvent (handleEvent (handleEvent (Game.new 800 600 true)
        ⟨⟨112, 112⟩, .mouseMotion⟩) ⟨⟨112, 112⟩, .mouseButtonDown .right⟩)
        ⟨⟨112, 112⟩, .mouseButtonUp .right⟩) ⟨⟨112, 112⟩, .mouseButtonDown .left⟩ := rfl

theorem run_append (g : Game) (xs ys : List Input) : g.run (xs ++ ys) = (g.run xs).run ys := by
  unfold Game.run
  exact List.foldl_append _ _ _ _

/-- After `aimedWallInputs` cell 78 is a wall without highlight and the ray is active; no
cell of the board is highlighted. -/
theorem aimedWall_facts :
    Scene ((Game.new 800 600 true).run aimedWallInputs) true false true ∧
    ∀ c ∈ ((Game.new 800 600 true).run aimedWallInputs).board_, c.highlighted_ = false := by
  refine ⟨by rw [aimedWall_run]; exact aimedWall_scene, ?_⟩
  rw [aimedWall_run]
  exact handleEvent_keeps_clear _ _ (handleEvent_keeps_clear _ _ (handleEvent_keeps_clear _ _
    (handleEvent_keeps_clear _ _ (fun c hc => (Game.new_board_clean 800 600 true c hc).2))))

/-- After `highlightedWallInputs` cell 78 is a highlighted wall, the primary button is
held, and no non-wall cell is highlighted. -/
theorem highlightedWall_facts :
    Scene ((Game.new 800 600 true).run highlightedWallInputs) true true true ∧
    ∀ c ∈ ((Game.new 800 600 true).run highlightedWallInputs).board_,
      c.is_wall_ = false → c.highlighted_ = false := by
  have hrun : (Game.new 800 600 true).run highlightedWallInputs
      = Tick ((Game.new 800 600 true).run aimedWallInputs) := by
    unfold highlightedWallInputs
    rw [run_append]
    rfl
  rw [hrun]
  exact ⟨aimedWall_facts.1.tick, Tick_keeps_nonwall_clear _ aimedWall_facts.2⟩

/-- Witness for C10 (amended): in the session after `highlightedWallInputs` cell 78 is a
highlighted wall and the primary button is held; after the primary-button release the
ray-casting mode is off and no cell of the board is highlighted, cell 78 included. -/
theorem left_release_clears_wall_highlights_witness :
    ((Game.new 800 600 true).run highlightedWallInputs).board_[78]?
      = some ⟨⟨96, 96, 32, 32⟩, true, true⟩ ∧
    (handleEvent ((Game.new 800 600 true).run highlightedWallInputs)
      ⟨⟨112, 112⟩, .mouseButtonUp .left⟩).mouse_left_pressed_ = false ∧
    (∀ c ∈ (handleEvent ((Game.new 800 600 true).run highlightedWallInputs)
      ⟨⟨112, 112⟩, .mouseButtonUp .left⟩).board_, c.highlighted_ = false) ∧
    (handleEvent ((Game.new 800 600 true).run highlightedWallInputs)
      ⟨⟨112, 112⟩, .mouseButtonUp .left⟩).board_[78]?.map Cell.highlighted_ = some false := by
  have h := left_release_clears_wall_highlights
    ((Game.new 800 600 true).run highlightedWallInputs) ⟨112, 112⟩
  have hall := h.2.2.2 highlightedWall_facts.2
  refine ⟨highlightedWall_facts.1.cell, h.1, hall, ?_⟩
  have hcell := (highlightedWall_facts.1.leftUp ⟨112, 112⟩).cell
  have hmem := List.mem_iff_getElem?.mpr ⟨78, hcell⟩
  rw [hcell]
  exact congrArg some (hall _ hmem)

theorem handleEvent_keyDownD (g : Game) (p : SDL_Point) :
    handleEvent g ⟨p, .keyDown .d⟩ =
      { g with mouse_position_ := p, player_ := { g.player_ with vx_ := 5 } } := rfl

/-- The facts of a `Scene` after D has been pressed: the player, still at its initial
place, has the velocity `(5, 0)`. -/
theorem Scene.keyDownD {g : Game} {w h l : Bool} (s : Scene g w h l) (p : SDL_Point) :
    (handleEvent g ⟨p, .keyDown .d⟩).board_[78]? = some ⟨⟨96, 96, 32, 32⟩, w, h⟩ ∧
    (handleEvent g ⟨p, .keyDown .d⟩).player_ = ⟨⟨261, 295, 10, 10⟩, 5, 0⟩ ∧
    (handleEvent g ⟨p, .keyDown .d⟩).mouse_box_ = ⟨107, 107, 10, 10⟩ ∧
    (handleEvent g ⟨p, .keyDown .d⟩).mouse_left_pressed_ = l := by
  rw [handleEvent_keyDownD]
  refine ⟨s.cell, ?_, s.mbox, s.left⟩
  show ({ g.player_ with vx_ := 5 } : PlayerBox) = _
  rw [s.player]

/-- The ray from the player moved to `(266, 295)` to the mouse box centred on `(112, 112)`
crosses the rectangle of cell 78. -/
theorem moving_ray_hits (g : Game) (hp : g.player_ = ⟨⟨261, 295, 10, 10⟩, 5, 0⟩)
    (hm : g.mouse_box_ = ⟨107, 107, 10, 10⟩) :
    AABBTavianIntersection ⟨96, 96, 32, 32⟩ (playerToMouseRay g) = true := by
  unfold playerToMouseRay movedBox
  rw [hp, hm]
  simp [AABBTavianIntersection, rayOf, centerF, FVal.add, FVal.div, FVal.mul,
    FVal.sub, FVal.ofInt, FVal.stdMin, FVal.stdMax, FVal.lt, FVal.ge]
  norm_num

theorem movingRay_facts :
    ((Game.new 800 600 true).run movingRayInputs).board_[78]?
      = some ⟨⟨96, 96, 32, 32⟩, true, false⟩ ∧
    ((Game.new 800 600 true).run movingRayInputs).player_ = ⟨⟨261, 295, 10, 10⟩, 5, 0⟩ ∧
    ((Game.new 800 600 true).run movingRayInputs).mouse_box_ = ⟨107, 107, 10, 10⟩ ∧
    ((Game.new 800 600 true).run movingRayInputs).mouse_left_pressed_ = true := by
  have hrun : (Game.new 800 600 true).run movingRayInputs
      = handleEvent ((Game.new 800 600 true).run aimedWallInputs) ⟨⟨112, 112⟩, .keyDown .d⟩ := by
    unfold movingRayInputs
    rw [run_append]
    rfl
  rw [hrun]
  exact aimedWall_facts.1.keyDownD ⟨112, 112⟩

/-- Witness for C13: in the session after `movingRayInputs` the ray is active, the player
box is at `(261, 295)` with velocity `(5, 0)` and cell 78 is a wall without highlight;
after `Tick` the player box is at `(266, 295)` and cell 78 is highlighted, the ray from
`(271, 300)` to `(112, 112)` crossing its rectangle. -/
theorem tick_with_ray_witness :
    (((Game.new 800 600 true).run movingRayInputs).board_[78]?
        = some ⟨⟨96, 96, 32, 32⟩, true, false⟩ ∧
      ((Game.new 800 600 true).run movingRayInputs).player_.box_ = ⟨261, 295, 10, 10⟩) ∧
    (Tick ((Game.new 800 600 true).run movingRayInputs)).player_.box_ = ⟨266, 295, 10, 10⟩ ∧
    (Tick ((Game.new 800 600 true).run movingRayInputs)).board_[78]?
      = some ⟨⟨96, 96, 32, 32⟩, true, true⟩ := by
  obtain ⟨hcell, hpl, hmb, hleft⟩ := movingRay_facts
  generalize (Game.new 800 600 true).run movingRayInputs = s at hcell hpl hmb hleft ⊢
  obtain ⟨hbox, _, hboard⟩ := tick_with_ray s hleft
  refine ⟨⟨hcell, by rw [hpl]⟩, ?_, ?_⟩
  · rw [hbox]
    unfold movedBox
    rw [hpl]
    decide
  · obtain ⟨c2, hc2, hw, hr, hhl, _⟩ := hboard 78 _ hcell
    have hhl2 := hhl rfl
    rw [moving_ray_hits s hpl hmb] at hhl2
    rw [hc2]
    cases c2
    simp only at hw hr hhl2
    rw [hw, hr, hhl2]

theorem movingNoRay_facts :
    ((Game.new 800 600 true).run movingNoRayInputs).board_[78]?
      = some ⟨⟨96, 96, 32, 32⟩, true, true⟩ ∧
    ((Game.new 800 600 true).run movingNoRayInputs).player_ = ⟨⟨261, 295, 10, 10⟩, 5, 0⟩ ∧
    ((Game.new 800 600 true).run movingNoRayInputs).mouse_box_ = ⟨107, 107, 10, 10⟩ ∧
    ((Game.new 800 600 true).run movingNoRayInputs).mouse_left_pressed_ = false := by
  have hrun : (Game.new 800 600 true).run movingNoRayInputs
      = handleEvent (handleEvent (handleEvent (handleEvent
          ((Game.new 800 600 true).run staleHighlightInputs)
          ⟨⟨112, 112⟩, .mouseButtonUp .left⟩) ⟨⟨112, 112⟩, .mouseButtonDown .right⟩)
          ⟨⟨112, 112⟩, .mouseButtonUp .right⟩) ⟨⟨112, 112⟩, .keyDown .d⟩ := by
    unfold movingNoRayInputs
    rw [run_append]
    generalize (Game.new 800 600 true).run staleHighlightInputs = s0
    simp only [Game.run, List.foldl_cons, List.foldl_nil, Game.apply]
  rw [hrun]
  exact (((staleHighlight_scene.leftUp ⟨112, 112⟩).press).rightUp ⟨112, 112⟩).keyDownD
    ⟨112, 112⟩

/-- Witness for C14: in the session after `movingNoRayInputs` the ray is inactive, the
player box is at `(261, 295)` with velocity `(5, 0)` and cell 78 is a wall with
`highlighted = true`; after `Tick` the player box is at `(266, 295)`, the velocity is
still `(5, 0)`, and the board (cell 78 with both flags included) and the mouse box are as
before. -/
theorem tick_without_ray_witness :
    (((Game.new 800 600 true).run movingNoRayInputs).board_[78]?
        = some ⟨⟨96, 96, 32, 32⟩, true, true⟩ ∧
      ((Game.new 800 600 true).run movingNoRayInputs).player_ = ⟨⟨261, 295, 10, 10⟩, 5, 0⟩) ∧
    (Tick ((Game.new 800 600 true).run movingNoRayInputs)).player_
      = ⟨⟨266, 295, 10, 10⟩, 5, 0⟩ ∧
    (Tick ((Game.new 800 600 true).run movingNoRayInputs)).board_[78]?
      = some ⟨⟨96, 96, 32, 32⟩, true, true⟩ ∧
    (Tick ((Game.new 800 600 true).run movingNoRayInputs)).board_
      = ((Game.new 800 600 true).run movingNoRayInputs).board_ ∧
    (Tick ((Game.new 800 600 true).run movingNoRayInputs)).mouse_box_ = ⟨107, 107, 10, 10⟩ := by
  obtain ⟨hcell, hpl, hmb, hleft⟩ := movingNoRay_facts
  generalize (Game.new 800 600 true).run movingNoRayInputs = s at hcell hpl hmb hleft ⊢
  rw [tick_without_ray s hleft]
  refine ⟨⟨hcell, hpl⟩, ?_, hcell, rfl, hmb⟩
  show ({ s.player_ with box_ := movedBox s } : PlayerBox) = _
  unfold movedBox
  rw [hpl]
  decide

/-! ## Binary32 rounding -/

namespace FVal

theorem rounded_fin (v : FVal) : rounded fin v = v := by
  cases v <;> rfl

theorem roundHalfEven_intCast (n : ℤ) : roundHalfEven (n : ℚ) = n := by
  unfold roundHalfEven
  rw [Int.floor_intCast]
  simp

theorem roundHalfEven_le (x : ℚ) : (roundHalfEven x : ℚ) ≤ x + 1 / 2 := by
  have h1 := Int.floor_le x
  have h2 := Int.lt_floor_add_one x
  unfold roundHalfEven
  split_ifs with ha hb hc
  · linarith
  · push_cast; linarith
  · linarith
  · push_cast
    have : x - (⌊x⌋ : ℚ) = 1 / 2 := le_antisymm (not_lt.mp hb) (not_lt.mp ha)
    linarith

theorem roundHalfEven_ge (x : ℚ) : x - 1 / 2 ≤ (roundHalfEven x : ℚ) := by
  have h1 := Int.floor_le x
  have h2 := Int.lt_floor_add_one x
  unfold roundHalfEven
  split_ifs with ha hb hc
  · linarith
  · push_cast; linarith
  · have : x - (⌊x⌋ : ℚ) = 1 / 2 := le_antisymm (not_lt.mp hb) (not_lt.mp ha)
    linarith
  · push_cast; linarith

/-- An integer bound above `x` bounds the rounded value. -/
theorem roundHalfEven_le_int {x : ℚ} {N : ℤ} (h : x ≤ (N : ℚ)) : roundHalfEven x ≤ N := by
  have h1 := roundHalfEven_le x
  have h2 : (roundHalfEven x : ℚ) < (N : ℚ) + 1 := by linarith
  have h3 : roundHalfEven x < N + 1 := by exact_mod_cast h2
  omega

/-- An integer bound below `x` bounds the rounded value. -/
theorem int_le_roundHalfEven {x : ℚ} {N : ℤ} (h : (N : ℚ) ≤ x) : N ≤ roundHalfEven x := by
  have h1 := roundHalfEven_ge x
  have h2 : (N : ℚ) - 1 < (roundHalfEven x : ℚ) := by linarith
  have h3 : N - 1 < roundHalfEven x := by exact_mod_cast h2
  omega

/-- The value strictly within one half of the integer `n` rounds to `n`. -/
theorem roundHalfEven_near {x : ℚ} (n : ℤ) (h1 : (n : ℚ) - 1 / 2 < x) (h2 : x < (n : ℚ) + 1 / 2) :
    roundHalfEven x = n := by
  have ha := roundHalfEven_le x
  have hb := roundHalfEven_ge x
  have h3 : (roundHalfEven x : ℚ) < (n : ℚ) + 1 := by linarith
  have h4 : (n : ℚ) - 1 < (roundHalfEven x : ℚ) := by linarith
  have h5 : roundHalfEven x < n + 1 := by exact_mod_cast h3
  have h6 : n - 1 < roundHalfEven x := by exact_mod_cast h4
  omega

/-- Half-way above an even integer the value rounds down to it. -/
theorem roundHalfEven_tie_even {x : ℚ} (n : ℤ) (hx : x = (n : ℚ) + 1 / 2) (he : n % 2 = 0) :
    roundHalfEven x = n := by
  have hfl : ⌊x⌋ = n := by
    rw [Int.floor_eq_iff, hx]
    constructor <;> linarith
  unfold roundHalfEven
  rw [hfl, hx]
  have h1 : ¬ ((n : ℚ) + 1 / 2 - (n : ℚ) < 1 / 2) := by norm_num
  have h2 : ¬ ((1 : ℚ) / 2 < (n : ℚ) + 1 / 2 - (n : ℚ)) := by norm_num
  rw [if_neg h1, if_neg h2, if_pos he]

/-- Half-way above an odd integer the value rounds up to the next one. -/
theorem roundHalfEven_tie_odd {x : ℚ} (n : ℤ) (hx : x = (n : ℚ) + 1 / 2) (ho : n % 2 = 1) :
    roundHalfEven x = n + 1 := by
  have hfl : ⌊x⌋ = n := by
    rw [Int.floor_eq_iff, hx]
    constructor <;> linarith
  unfold roundHalfEven
  rw [hfl, hx]
  have h1 : ¬ ((n : ℚ) + 1 / 2 - (n : ℚ) < 1 / 2) := by norm_num
  have h2 : ¬ ((1 : ℚ) / 2 < (n : ℚ) + 1 / 2 - (n : ℚ)) := by norm_num
  have h3 : ¬ (n % 2 = 0) := by omega
  rw [if_neg h1, if_neg h2, if_neg h3]

theorem exp32_ge (q : ℚ) : -126 ≤ exp32 q := le_max_right _ _

theorem ulp32_pos (q : ℚ) : 0 < ulp32 q := zpow_pos (by norm_num) _

/-- The binary32 exponent of a value in `[2^e, 2^(e+1))`, `e >= -126`. -/
theorem exp32_eq {q : ℚ} {e : ℤ} (he : -126 ≤ e) (h1 : (2 : ℚ) ^ e ≤ q) (h2 : q < (2 : ℚ) ^ (e + 1)) :
    exp32 q = e := by
  have hq : 0 < q := lt_of_lt_of_le (zpow_pos (by norm_num) _) h1
  have hlog : Int.log 2 q = e := by
    have hb : (1 : ℕ) < 2 := by norm_num
    have ha : e ≤ Int.log 2 q := (Int.zpow_le_iff_le_log hb hq).mp (by exact_mod_cast h1)
    have hc : Int.log 2 q < e + 1 := (Int.lt_zpow_iff_log_lt hb hq).mp (by exact_mod_cast h2)
    omega
  unfold exp32
  rw [hlog]
  exact max_eq_left he

/-- A positive value lies below the end of its binade. -/
theorem lt_two_pow_exp32 {q : ℚ} (_hq : 0 < q) : q < (2 : ℚ) ^ (exp32 q + 1) := by
  have hb : (1 : ℕ) < 2 := by norm_num
  have h := Int.lt_zpow_succ_log_self hb q
  have h2 : ((2 : ℕ) : ℚ) ^ (Int.log 2 q + 1) ≤ (2 : ℚ) ^ (exp32 q + 1) := by
    push_cast
    exact zpow_le_zpow_right₀ (by norm_num) (by unfold exp32; have := le_max_left (Int.log 2 q) (-126); omega)
  exact lt_of_lt_of_le h h2

/-- A normal value (at least `2^-126`) lies above the start of its binade. -/
theorem two_pow_exp32_le {q : ℚ} (hq : (2 : ℚ) ^ (-126 : ℤ) ≤ q) : (2 : ℚ) ^ exp32 q ≤ q := by
  have hq0 : 0 < q := lt_of_lt_of_le (zpow_pos (by norm_num) _) hq
  have hb : (1 : ℕ) < 2 := by norm_num
  have hlog : -126 ≤ Int.log 2 q := (Int.zpow_le_iff_le_log hb hq0).mp (by exact_mod_cast hq)
  have h := Int.zpow_log_le_self hb hq0
  unfold exp32
  rw [max_eq_left hlog]
  exact_mod_cast h

end FVal

namespace FVal

theorem roundMag32_nonneg {q : ℚ} (hq : 0 ≤ q) : 0 ≤ roundMag32 q := by
  unfold roundMag32
  have h : (0 : ℤ) ≤ roundHalfEven (q / ulp32 q) :=
    int_le_roundHalfEven (by
      have := div_nonneg hq (ulp32_pos q).le
      exact_mod_cast this)
  exact mul_nonneg (by exact_mod_cast h) (ulp32_pos q).le

/-- Rounding keeps the sign: a result `>= 0` is delivered as a value `>= 0` or `+inf`. -/
theorem round32_nonNeg {q : ℚ} (hq : 0 ≤ q) : NonNeg (round32 q) := by
  unfold round32
  rcases hq.eq_or_lt with h0 | hpos
  · rw [if_pos h0.symm]
    exact le_refl (0 : ℚ)
  · rw [if_neg hpos.ne', if_pos hpos]
    split
    · trivial
    · exact roundMag32_nonneg hpos.le

/-- Rounding keeps the sign: a result `<= 0` is delivered as a value `<= 0` or `-inf`. -/
theorem round32_nonPos {q : ℚ} (hq : q ≤ 0) : NonPos (round32 q) := by
  unfold round32
  rcases hq.eq_or_lt with h0 | hneg
  · rw [if_pos h0]
    exact le_refl (0 : ℚ)
  · rw [if_neg hneg.ne, if_neg (not_lt.mpr hneg.le)]
    split
    · trivial
    · have := roundMag32_nonneg (q := -q) (by linarith)
      show -roundMag32 (-q) ≤ 0
      linarith

/-- Rounding is symmetric in the sign. -/
theorem round32_neg (q : ℚ) : round32 (-q) = neg (round32 q) := by
  unfold round32
  rcases lt_trichotomy q 0 with h | h | h
  · have h1 : ¬ (-q = 0) := by intro h0; linarith
    have h2 : 0 < -q := by linarith
    rw [if_neg h1, if_pos h2, if_neg h.ne, if_neg (not_lt.mpr h.le)]
    split <;> simp [neg]
  · subst h
    simp [neg]
  · have h1 : ¬ (-q = 0) := by intro h0; linarith
    have h2 : ¬ (0 < -q) := by linarith
    rw [if_neg h1, if_neg h2, if_neg h.ne', if_pos h, neg_neg]
    split <;> simp [neg]

/-- A positive value `m * 2^k` with `m < 2^24` and `k >= -149` is a multiple of the
spacing around it, so rounding its magnitude changes nothing. -/
theorem roundMag32_exact {q : ℚ} {m k : ℤ} (hm0 : 0 < m) (hm : m < 2 ^ 24) (hk : -149 ≤ k)
    (hq : q = (m : ℚ) * (2 : ℚ) ^ k) : roundMag32 q = q := by
  have h2k : (0 : ℚ) < (2 : ℚ) ^ k := zpow_pos (by norm_num) _
  have hq0 : 0 < q := by rw [hq]; exact mul_pos (by exact_mod_cast hm0) h2k
  have hlt : q < (2 : ℚ) ^ (k + 24) := by
    rw [hq, zpow_add₀ (by norm_num : (2 : ℚ) ≠ 0), mul_comm]
    have hm' : (m : ℚ) < (2 : ℚ) ^ (24 : ℤ) := by
      have h : (m : ℚ) < (2 : ℚ) ^ (24 : ℕ) := by exact_mod_cast hm
      rw [show (24 : ℤ) = ((24 : ℕ) : ℤ) from rfl, zpow_natCast]
      exact h
    exact mul_lt_mul_of_pos_left hm' h2k
  have hb : (1 : ℕ) < 2 := by norm_num
  have hlog : Int.log 2 q < k + 24 :=
    (Int.lt_zpow_iff_log_lt hb hq0).mp (by exact_mod_cast hlt)
  have he : exp32 q - 23 ≤ k := by
    unfold exp32
    have : max (Int.log 2 q) (-126) ≤ k + 23 := max_le (by omega) (by omega)
    omega
  obtain ⟨j, hj⟩ := Int.eq_ofNat_of_zero_le (show 0 ≤ k - (exp32 q - 23) by omega)
  have hpow : (2 : ℚ) ^ k = (2 : ℚ) ^ j * ulp32 q := by
    unfold ulp32
    have hk' : k = (j : ℤ) + (exp32 q - 23) := by omega
    rw [hk', zpow_add₀ (by norm_num : (2 : ℚ) ≠ 0), zpow_natCast]
  have hu := ulp32_pos q
  unfold roundMag32
  generalize ulp32 q = u at hpow hu ⊢
  have hdiv : q / u = ((m * 2 ^ j : ℤ) : ℚ) := by
    rw [hq, hpow]
    push_cast
    field_simp
    ring
  rw [hdiv, roundHalfEven_intCast, hq, hpow]
  push_cast
  ring

end FVal

namespace FVal

theorem log_le_of_le_zpow {q : ℚ} {k : ℤ} (hq : 0 < q) (h : q ≤ (2 : ℚ) ^ k) :
    Int.log 2 q ≤ k := by
  by_contra hcon
  push_neg at hcon
  have hb : (1 : ℕ) < 2 := by norm_num
  have h1 : ((2 : ℕ) : ℚ) ^ (k + 1) ≤ q := (Int.zpow_le_iff_le_log hb hq).mpr (by omega)
  have h2 : (2 : ℚ) ^ k < (2 : ℚ) ^ (k + 1) := zpow_lt_zpow_right₀ (by norm_num) (by omega)
  push_cast at h1
  linarith

theorem exp32_sub_le {q : ℚ} {k : ℤ} (hq : 0 < q) (hk : -149 ≤ k) (h : q ≤ (2 : ℚ) ^ k) :
    exp32 q - 23 ≤ k := by
  have hlog := log_le_of_le_zpow hq h
  unfold exp32
  rcases le_total (Int.log 2 q) (-126) with h1 | h1
  · rw [max_eq_right h1]; omega
  · rw [max_eq_left h1]; omega

theorem exp32_of_lt {q : ℚ} (hq : 0 < q) (h : q < (2 : ℚ) ^ (-126 : ℤ)) : exp32 q = -126 := by
  have hb : (1 : ℕ) < 2 := by norm_num
  have hlog : Int.log 2 q < -126 := (Int.lt_zpow_iff_log_lt hb hq).mp (by exact_mod_cast h)
  unfold exp32
  exact max_eq_right (by omega)

/-- A power of two at or above the spacing around `q` is an integer multiple of it. -/
theorem zpow_eq_mul_ulp32 {q : ℚ} {k : ℤ} (he : exp32 q - 23 ≤ k) :
    ∃ j : ℕ, (2 : ℚ) ^ k = (((2 : ℤ) ^ j : ℤ) : ℚ) * ulp32 q := by
  obtain ⟨j, hj⟩ := Int.eq_ofNat_of_zero_le (show 0 ≤ k - (exp32 q - 23) by omega)
  refine ⟨j, ?_⟩
  unfold ulp32
  have hk' : k = (j : ℤ) + (exp32 q - 23) := by omega
  rw [hk', zpow_add₀ (by norm_num : (2 : ℚ) ≠ 0), zpow_natCast]
  push_cast
  rfl

/-- Rounding does not cross a power of two from below. -/
theorem roundMag32_le_zpow {q : ℚ} {k : ℤ} (hq : 0 < q) (hk : -149 ≤ k) (h : q ≤ (2 : ℚ) ^ k) :
    roundMag32 q ≤ (2 : ℚ) ^ k := by
  obtain ⟨j, hj⟩ := zpow_eq_mul_ulp32 (exp32_sub_le hq hk h)
  have hu := ulp32_pos q
  have h1 : q / ulp32 q ≤ (((2 : ℤ) ^ j : ℤ) : ℚ) := by
    rw [div_le_iff₀ hu, ← hj]
    exact h
  have h2 := roundHalfEven_le_int h1
  unfold roundMag32
  rw [hj]
  exact mul_le_mul_of_nonneg_right (by exact_mod_cast h2) hu.le

/-- Rounding does not cross a power of two from above. -/
theorem zpow_le_roundMag32 {q : ℚ} {k : ℤ} (hk : -126 ≤ k) (h : (2 : ℚ) ^ k ≤ q) :
    (2 : ℚ) ^ k ≤ roundMag32 q := by
  have hq0 : 0 < q := lt_of_lt_of_le (zpow_pos (by norm_num) _) h
  have h126 : (2 : ℚ) ^ (-126 : ℤ) ≤ q :=
    le_trans (zpow_le_zpow_right₀ (by norm_num) hk) h
  have he := two_pow_exp32_le h126
  have hb : (1 : ℕ) < 2 := by norm_num
  have hke : k ≤ exp32 q := by
    have h1 : k ≤ Int.log 2 q := (Int.zpow_le_iff_le_log hb hq0).mp (by exact_mod_cast h)
    exact le_trans h1 (le_max_left _ _)
  have hu := ulp32_pos q
  have hpow : (2 : ℚ) ^ exp32 q = (((2 : ℤ) ^ (23 : ℕ) : ℤ) : ℚ) * ulp32 q := by
    unfold ulp32
    rw [show exp32 q = (23 : ℤ) + (exp32 q - 23) by ring, zpow_add₀ (by norm_num : (2 : ℚ) ≠ 0)]
    norm_num
  have h1 : (((2 : ℤ) ^ (23 : ℕ) : ℤ) : ℚ) ≤ q / ulp32 q := by
    rw [le_div_iff₀ hu, ← hpow]
    exact he
  have h2 := int_le_roundHalfEven h1
  have h3 : (2 : ℚ) ^ exp32 q ≤ roundMag32 q := by
    unfold roundMag32
    rw [hpow]
    exact mul_le_mul_of_nonneg_right (by exact_mod_cast h2) hu.le
  exact le_trans (zpow_le_zpow_right₀ (by norm_num) hke) h3

theorem roundMag32_le_add (q : ℚ) : roundMag32 q ≤ q + ulp32 q / 2 := by
  have hu := ulp32_pos q
  have h := roundHalfEven_le (q / ulp32 q)
  unfold roundMag32
  have h2 := mul_le_mul_of_nonneg_right h hu.le
  have h3 : (q / ulp32 q + 1 / 2) * ulp32 q = q + ulp32 q / 2 := by
    field_simp
    ring
  linarith

theorem sub_le_roundMag32 (q : ℚ) : q - ulp32 q / 2 ≤ roundMag32 q := by
  have hu := ulp32_pos q
  have h := roundHalfEven_ge (q / ulp32 q)
  unfold roundMag32
  have h2 := mul_le_mul_of_nonneg_right h hu.le
  have h3 : (q / ulp32 q - 1 / 2) * ulp32 q = q - ulp32 q / 2 := by
    field_simp
    ring
  linarith

/-- Half the spacing around a normal value is at most `2^-24` of the value. -/
theorem half_ulp32_le {q : ℚ} (hq : (2 : ℚ) ^ (-126 : ℤ) ≤ q) :
    ulp32 q / 2 ≤ q * (2 : ℚ) ^ (-24 : ℤ) := by
  have he := two_pow_exp32_le hq
  have h1 : ulp32 q / 2 = (2 : ℚ) ^ exp32 q * (2 : ℚ) ^ (-24 : ℤ) := by
    unfold ulp32
    rw [show exp32 q - 23 = exp32 q + (-23) by ring, zpow_add₀ (by norm_num : (2 : ℚ) ≠ 0)]
    norm_num
    ring
  rw [h1]
  exact mul_le_mul_of_nonneg_right he (by positivity)

/-- The spacing around `q` is at most `q` as soon as `q` is at least the smallest positive
binary32 value. -/
theorem ulp32_le_self {q : ℚ} (hq : (2 : ℚ) ^ (-149 : ℤ) ≤ q) : ulp32 q ≤ q := by
  have hq0 : 0 < q := lt_of_lt_of_le (zpow_pos (by norm_num) _) hq
  rcases lt_or_le q ((2 : ℚ) ^ (-126 : ℤ)) with h | h
  · unfold ulp32
    rw [exp32_of_lt hq0 h]
    exact hq
  · have he := two_pow_exp32_le h
    unfold ulp32
    exact le_trans (zpow_le_zpow_right₀ (by norm_num) (by omega)) he

theorem roundMag32_pos {q : ℚ} (hq : (2 : ℚ) ^ (-149 : ℤ) ≤ q) : 0 < roundMag32 q := by
  have hu := ulp32_pos q
  have h1 : ((1 : ℤ) : ℚ) ≤ q / ulp32 q := by
    rw [le_div_iff₀ hu]
    simpa using ulp32_le_self hq
  have h2 := int_le_roundHalfEven h1
  unfold roundMag32
  have h3 : (1 : ℚ) ≤ (roundHalfEven (q / ulp32 q) : ℚ) := by exact_mod_cast h2
  exact mul_pos (by linarith) hu

end FVal
namespace FVal

theorem round32_ne_nan (q : ℚ) : round32 q ≠ nan := by
  unfold round32
  split_ifs <;> simp

theorem rounded_round32_ne_nan {v : FVal} (h : v ≠ nan) : rounded round32 v ≠ nan := by
  cases v with
  | nan => exact absurd rfl h
  | ninf => simp [rounded]
  | pinf => simp [rounded]
  | fin q => exact round32_ne_nan q

/-- A positive binary32 value is delivered unchanged. -/
theorem round32_pos_exact {q : ℚ} {m k : ℤ} (hm0 : 0 < m) (hm : m < 2 ^ 24) (hk1 : -149 ≤ k)
    (hk2 : k ≤ 104) (hq : q = (m : ℚ) * (2 : ℚ) ^ k) : round32 q = fin q := by
  have h2k : (0 : ℚ) < (2 : ℚ) ^ k := zpow_pos (by norm_num) _
  have hq0 : 0 < q := by rw [hq]; exact mul_pos (by exact_mod_cast hm0) h2k
  have hm' : (m : ℚ) < (2 : ℚ) ^ (24 : ℕ) := by exact_mod_cast hm
  have hk' : (2 : ℚ) ^ k ≤ (2 : ℚ) ^ (104 : ℤ) := zpow_le_zpow_right₀ (by norm_num) hk2
  have hlt : q < (2 : ℚ) ^ (128 : ℕ) := by
    have h1 : (m : ℚ) * (2 : ℚ) ^ k < (2 : ℚ) ^ (24 : ℕ) * (2 : ℚ) ^ k :=
      mul_lt_mul_of_pos_right hm' h2k
    have h2 : (2 : ℚ) ^ (24 : ℕ) * (2 : ℚ) ^ k ≤ (2 : ℚ) ^ (24 : ℕ) * (2 : ℚ) ^ (104 : ℤ) :=
      mul_le_mul_of_nonneg_left hk' (by positivity)
    have h3 : (2 : ℚ) ^ (24 : ℕ) * (2 : ℚ) ^ (104 : ℤ) = (2 : ℚ) ^ (128 : ℕ) := by norm_num
    rw [hq]
    linarith
  unfold round32
  rw [if_neg hq0.ne', if_pos hq0, roundMag32_exact hm0 hm hk1 hq, if_neg (not_le.mpr hlt)]

end FVal

theorem isBinary32_neg {q : ℚ} (h : IsBinary32 q) : IsBinary32 (-q) := by
  obtain ⟨m, k, hm, hk1, hk2, hq⟩ := h
  exact ⟨-m, k, by rwa [abs_neg], hk1, hk2, by rw [hq]; push_cast; ring⟩

/-- A binary32 value is delivered unchanged. -/
theorem round32_of_isBinary32 {q : ℚ} (h : IsBinary32 q) : FVal.round32 q = FVal.fin q := by
  obtain ⟨m, k, hm, hk1, hk2, hq⟩ := h
  rw [abs_lt] at hm
  rcases lt_trichotomy m 0 with hneg | hzero | hpos
  · have h1 : FVal.round32 (-q) = FVal.fin (-q) :=
      FVal.round32_pos_exact (m := -m) (k := k) (by omega) (by omega) hk1 hk2
        (by rw [hq]; push_cast; ring)
    have h2 := FVal.round32_neg (-q)
    rw [neg_neg, h1] at h2
    rw [h2]
    simp [FVal.neg]
  · subst hzero
    have : q = 0 := by rw [hq]; simp
    subst this
    simp [FVal.round32]
  · exact FVal.round32_pos_exact hpos hm.2 hk1 hk2 hq

/-- The magnitude of a binary32 value is at most `(2^24 - 1) * 2^104`. -/
theorem isBinary32_abs_le {q : ℚ} (h : IsBinary32 q) :
    |q| ≤ ((2 : ℚ) ^ (24 : ℕ) - 1) * (2 : ℚ) ^ (104 : ℕ) := by
  obtain ⟨m, k, hm, hk1, hk2, hq⟩ := h
  have h2k : (0 : ℚ) < (2 : ℚ) ^ k := zpow_pos (by norm_num) _
  have hk' : (2 : ℚ) ^ k ≤ (2 : ℚ) ^ (104 : ℕ) := by
    have := zpow_le_zpow_right₀ (by norm_num : (1 : ℚ) ≤ 2) hk2
    rw [show (104 : ℤ) = ((104 : ℕ) : ℤ) from rfl, zpow_natCast] at this
    exact this
  have hm' : |(m : ℚ)| ≤ (2 : ℚ) ^ (24 : ℕ) - 1 := by
    have h1 : |m| ≤ 2 ^ 24 - 1 := by omega
    have h2 : ((|m| : ℤ) : ℚ) ≤ ((2 ^ 24 - 1 : ℤ) : ℚ) := by exact_mod_cast h1
    push_cast at h2
    norm_num
    exact h2
  rw [hq, abs_mul, abs_of_pos h2k]
  exact mul_le_mul hm' hk' h2k.le (by norm_num)

/-- Every binary32 value is an integer multiple of `2^-149`. -/
theorem isBinary32_grid {q : ℚ} (h : IsBinary32 q) :
    ∃ N : ℤ, q = (N : ℚ) * (2 : ℚ) ^ (-149 : ℤ) := by
  obtain ⟨m, k, _, hk1, _, hq⟩ := h
  obtain ⟨j, hj⟩ := Int.eq_ofNat_of_zero_le (show 0 ≤ k + 149 by omega)
  refine ⟨m * 2 ^ j, ?_⟩
  have hk' : k = (j : ℤ) + (-149) := by omega
  rw [hq, hk', zpow_add₀ (by norm_num : (2 : ℚ) ≠ 0), zpow_natCast]
  push_cast
  ring

/-- Two different binary32 values are at least `2^-149` apart. -/
theorem isBinary32_gap {a b : ℚ} (ha : IsBinary32 a) (hb : IsBinary32 b) (hab : a < b) :
    (2 : ℚ) ^ (-149 : ℤ) ≤ b - a := by
  obtain ⟨Na, hNa⟩ := isBinary32_grid ha
  obtain ⟨Nb, hNb⟩ := isBinary32_grid hb
  have hp : (0 : ℚ) < (2 : ℚ) ^ (-149 : ℤ) := zpow_pos (by norm_num) _
  have hlt : (Na : ℚ) < (Nb : ℚ) := by
    rw [hNa, hNb] at hab
    exact lt_of_mul_lt_mul_right hab hp.le
  have hle : Na + 1 ≤ Nb := by
    have : Na < Nb := by exact_mod_cast hlt
    omega
  have hle' : (Na : ℚ) + 1 ≤ (Nb : ℚ) := by exact_mod_cast hle
  rw [hNa, hNb]
  nlinarith

namespace FVal

/-- The rounded magnitude, when it does not overflow, is a binary32 value. -/
theorem roundMag32_isBinary32 {q : ℚ} (hq : 0 < q) (hlt : roundMag32 q < (2 : ℚ) ^ (128 : ℕ)) :
    IsBinary32 (roundMag32 q) := by
  have hu := ulp32_pos q
  have he126 := exp32_ge q
  have hn0 : (0 : ℤ) ≤ roundHalfEven (q / ulp32 q) :=
    int_le_roundHalfEven (by
      have := div_nonneg hq.le hu.le
      exact_mod_cast this)
  have hpow1 : (2 : ℚ) ^ (exp32 q + 1) = (((2 : ℤ) ^ (24 : ℕ) : ℤ) : ℚ) * ulp32 q := by
    unfold ulp32
    rw [show exp32 q + 1 = (24 : ℤ) + (exp32 q - 23) by ring,
      zpow_add₀ (by norm_num : (2 : ℚ) ≠ 0)]
    norm_num
  have hpow0 : (2 : ℚ) ^ exp32 q = (((2 : ℤ) ^ (23 : ℕ) : ℤ) : ℚ) * ulp32 q := by
    unfold ulp32
    rw [show exp32 q = (23 : ℤ) + (exp32 q - 23) by ring, zpow_add₀ (by norm_num : (2 : ℚ) ≠ 0)]
    norm_num
  have hn24 : roundHalfEven (q / ulp32 q) ≤ (2 : ℤ) ^ (24 : ℕ) :=
    roundHalfEven_le_int (by
      rw [div_le_iff₀ hu, ← hpow1]
      exact (lt_two_pow_exp32 hq).le)
  have hmag : roundMag32 q = (roundHalfEven (q / ulp32 q) : ℚ) * ulp32 q := rfl
  have hbig : exp32 q = -126 ∨ (2 : ℤ) ^ (23 : ℕ) ≤ roundHalfEven (q / ulp32 q) := by
    rcases lt_or_le q ((2 : ℚ) ^ (-126 : ℤ)) with h | h
    · exact Or.inl (exp32_of_lt hq h)
    · right
      exact int_le_roundHalfEven (by
        rw [le_div_iff₀ hu, ← hpow0]
        exact two_pow_exp32_le h)
  have he127 : exp32 q ≤ 127 := by
    rcases hbig with h | h
    · omega
    · have h1 : (((2 : ℤ) ^ (23 : ℕ) : ℤ) : ℚ) ≤ (roundHalfEven (q / ulp32 q) : ℚ) := by
        exact_mod_cast h
      have h2 : (2 : ℚ) ^ exp32 q ≤ roundMag32 q := by
        rw [hmag, hpow0]
        exact mul_le_mul_of_nonneg_right h1 hu.le
      have h3 : (2 : ℚ) ^ exp32 q < (2 : ℚ) ^ (128 : ℤ) := by
        rw [show (128 : ℤ) = ((128 : ℕ) : ℤ) from rfl, zpow_natCast]
        exact lt_of_le_of_lt h2 hlt
      have h4 := (zpow_lt_zpow_iff_right₀ (by norm_num : (1 : ℚ) < 2)).mp h3
      omega
  rcases hn24.lt_or_eq with hlt24 | heq24
  · refine ⟨roundHalfEven (q / ulp32 q), exp32 q - 23, ?_, by omega, by omega, rfl⟩
    rw [abs_of_nonneg hn0]
    exact hlt24
  · have hval : roundMag32 q = (2 : ℚ) ^ (exp32 q + 1) := by
      rw [hmag, hpow1, heq24]
    have h3 : (2 : ℚ) ^ (exp32 q + 1) < (2 : ℚ) ^ (128 : ℤ) := by
      rw [show (128 : ℤ) = ((128 : ℕ) : ℤ) from rfl, zpow_natCast, ← hval]
      exact hlt
    have h4 := (zpow_lt_zpow_iff_right₀ (by norm_num : (1 : ℚ) < 2)).mp h3
    refine ⟨(2 : ℤ) ^ (23 : ℕ), exp32 q - 22, by norm_num, by omega, by omega, ?_⟩
    rw [hval, show exp32 q + 1 = (23 : ℤ) + (exp32 q - 22) by ring,
      zpow_add₀ (by norm_num : (2 : ℚ) ≠ 0)]
    norm_num

/-- Every finite value the rounding delivers is a binary32 value. -/
theorem round32_isBinary32 {q v : ℚ} (h : round32 q = fin v) : IsBinary32 v := by
  unfold round32 at h
  split_ifs at h with h0 hpos hov hov
  · injection h with h
    subst h
    exact ⟨0, 0, by norm_num, by norm_num, by norm_num, by norm_num⟩
  · injection h with h
    subst h
    exact roundMag32_isBinary32 hpos (not_le.mp hov)
  · injection h with h
    subst h
    have hneg : 0 < -q := by
      rcases lt_trichotomy q 0 with h1 | h1 | h1
      · linarith
      · exact absurd h1 h0
      · exact absurd h1 hpos
    exact isBinary32_neg (roundMag32_isBinary32 hneg (not_le.mp hov))

/-- A result at least `2^-149` is delivered as a positive value or `+inf`. -/
theorem round32_strictPos {q : ℚ} (hq : (2 : ℚ) ^ (-149 : ℤ) ≤ q) : StrictPos (round32 q) := by
  have hq0 : 0 < q := lt_of_lt_of_le (zpow_pos (by norm_num) _) hq
  unfold round32
  rw [if_neg hq0.ne', if_pos hq0]
  split
  · trivial
  · exact roundMag32_pos hq

/-- A result at most `-2^-149` is delivered as a negative value or `-inf`. -/
theorem round32_strictNeg {q : ℚ} (hq : q ≤ -(2 : ℚ) ^ (-149 : ℤ)) : StrictNeg (round32 q) := by
  have hp : (0 : ℚ) < (2 : ℚ) ^ (-149 : ℤ) := zpow_pos (by norm_num) _
  have hq0 : q < 0 := by linarith
  unfold round32
  rw [if_neg hq0.ne, if_neg (not_lt.mpr hq0.le)]
  split
  · trivial
  · have := roundMag32_pos (q := -q) (by linarith)
    show -roundMag32 (-q) < 0
    linarith

/-- A magnitude below `2^128 - 2^103` does not overflow. -/
theorem roundMag32_lt_overflow {q : ℚ} (hq : 0 < q)
    (h : q < (2 : ℚ) ^ (128 : ℕ) - (2 : ℚ) ^ (103 : ℕ)) : roundMag32 q < (2 : ℚ) ^ (128 : ℕ) := by
  have hb : (1 : ℕ) < 2 := by norm_num
  have hq128 : q < ((2 : ℕ) : ℚ) ^ (128 : ℤ) := by
    have : (0 : ℚ) < (2 : ℚ) ^ (103 : ℕ) := by positivity
    push_cast
    rw [show (128 : ℤ) = ((128 : ℕ) : ℤ) from rfl, zpow_natCast]
    linarith
  have hlog : Int.log 2 q < 128 := (Int.lt_zpow_iff_log_lt hb hq).mp hq128
  have he : exp32 q - 23 ≤ 104 := by
    unfold exp32
    have : max (Int.log 2 q) (-126) ≤ 127 := max_le (by omega) (by omega)
    omega
  have hu : ulp32 q ≤ (2 : ℚ) ^ (104 : ℕ) := by
    have := zpow_le_zpow_right₀ (by norm_num : (1 : ℚ) ≤ 2) he
    rw [show (104 : ℤ) = ((104 : ℕ) : ℤ) from rfl, zpow_natCast] at this
    exact this
  have h1 := roundMag32_le_add q
  have h2 : (2 : ℚ) ^ (104 : ℕ) / 2 = (2 : ℚ) ^ (103 : ℕ) := by norm_num
  linarith

/-- A result of magnitude below `2^128 - 2^103` is delivered as a finite value. -/
theorem round32_finite {q : ℚ} (h : |q| < (2 : ℚ) ^ (128 : ℕ) - (2 : ℚ) ^ (103 : ℕ)) :
    ∃ v, round32 q = fin v := by
  rw [abs_lt] at h
  unfold round32
  split_ifs with h0 hpos hov hov
  · exact ⟨_, rfl⟩
  · exact absurd hov (not_le.mpr (roundMag32_lt_overflow hpos h.2))
  · exact ⟨_, rfl⟩
  · have hneg : 0 < -q := by
      rcases lt_trichotomy q 0 with h1 | h1 | h1
      · linarith
      · exact absurd h1 h0
      · exact absurd h1 hpos
    exact absurd hov (not_le.mpr (roundMag32_lt_overflow hneg (by linarith)))
  · exact ⟨_, rfl⟩

/-- A result of magnitude at most `2^k`, `k < 128`, is delivered as a finite value of
magnitude at most `2^k`. -/
theorem round32_abs_le {q : ℚ} {k : ℤ} (hk1 : -149 ≤ k) (hk2 : k < 128) (h : |q| ≤ (2 : ℚ) ^ k) :
    ∃ v, round32 q = fin v ∧ |v| ≤ (2 : ℚ) ^ k := by
  have hp : (0 : ℚ) < (2 : ℚ) ^ k := zpow_pos (by norm_num) _
  have hlt : (2 : ℚ) ^ k < (2 : ℚ) ^ (128 : ℕ) := by
    have := zpow_lt_zpow_right₀ (by norm_num : (1 : ℚ) < 2) hk2
    rw [show (128 : ℤ) = ((128 : ℕ) : ℤ) from rfl, zpow_natCast] at this
    exact this
  rw [abs_le] at h
  unfold round32
  split_ifs with h0 hpos hov hov
  · exact ⟨0, rfl, by simpa using hp.le⟩
  · have := roundMag32_le_zpow hpos hk1 h.2
    exact absurd hov (not_le.mpr (lt_of_le_of_lt this hlt))
  · have h1 := roundMag32_le_zpow hpos hk1 h.2
    exact ⟨_, rfl, by rw [abs_of_nonneg (roundMag32_nonneg hpos.le)]; exact h1⟩
  · have hneg : 0 < -q := by
      rcases lt_trichotomy q 0 with h1 | h1 | h1
      · linarith
      · exact absurd h1 h0
      · exact absurd h1 hpos
    have := roundMag32_le_zpow hneg hk1 (by linarith)
    exact absurd hov (not_le.mpr (lt_of_le_of_lt this hlt))
  · have hneg : 0 < -q := by
      rcases lt_trichotomy q 0 with h1 | h1 | h1
      · linarith
      · exact absurd h1 h0
      · exact absurd h1 hpos
    have h1 := roundMag32_le_zpow hneg hk1 (by linarith)
    exact ⟨_, rfl, by rw [abs_neg, abs_of_nonneg (roundMag32_nonneg hneg.le)]; exact h1⟩

/-- A result at most 1 is delivered as a value at most 1 or as `-inf`. -/
theorem round32_leOne {q : ℚ} (h : q ≤ 1) : LeOne (round32 q) := by
  unfold round32
  split_ifs with h0 hpos hov hov
  · show (0 : ℚ) ≤ 1
    norm_num
  · have := roundMag32_le_zpow (k := 0) hpos (by norm_num) (by simpa using h)
    have h1 : roundMag32 q ≤ 1 := by simpa using this
    have h2 : (1 : ℚ) < (2 : ℚ) ^ (128 : ℕ) := by norm_num
    linarith
  · have := roundMag32_le_zpow (k := 0) hpos (by norm_num) (by simpa using h)
    show roundMag32 q ≤ 1
    simpa using this
  · trivial
  · have hneg : 0 ≤ -q := by
      rcases lt_trichotomy q 0 with h1 | h1 | h1
      · linarith
      · exact absurd h1 h0
      · exact absurd h1 hpos
    have := roundMag32_nonneg hneg
    show -roundMag32 (-q) ≤ 1
    linarith

/-- A result at least 1 is delivered as a value at least 1 or as `+inf`. -/
theorem round32_geOne {q : ℚ} (h : 1 ≤ q) : GeOne (round32 q) := by
  have hq0 : 0 < q := by linarith
  unfold round32
  rw [if_neg hq0.ne', if_pos hq0]
  split
  · trivial
  · have := zpow_le_roundMag32 (k := 0) (q := q) (by norm_num) (by simpa using h)
    show 1 ≤ roundMag32 q
    simpa using this

end FVal

/-! ## The intersection test in binary32 arithmetic -/

theorem aabbWith_fin (rect : SDL_Rect) (ray : Ray) :
    aabbWith FVal.fin rect ray = AABBTavianIntersection rect ray := by
  simp only [aabbWith, AABBTavianIntersection, FVal.rounded_fin, FVal.ofInt]

namespace FVal

theorem stdMin_stdMax_signs {x y : FVal} (hx : NonPos x) (hy : NonNeg y) :
    NonPos (stdMin x y) ∧ NonNeg (stdMax x y) ∧ NonPos (stdMin y x) ∧ NonNeg (stdMax y x) := by
  cases x <;> cases y <;> simp_all [NonPos, NonNeg, stdMin, stdMax, lt]
  rename_i p q
  refine ⟨?_, ?_, ?_, ?_⟩ <;> split_ifs <;> simp_all [NonPos, NonNeg] <;> linarith

theorem rounded_nonPos {v : FVal} (h : NonPos v) : NonPos (rounded round32 v) := by
  cases v with
  | nan => exact h
  | ninf => exact h
  | pinf => exact h
  | fin q => exact round32_nonPos h

theorem rounded_nonNeg {v : FVal} (h : NonNeg v) : NonNeg (rounded round32 v) := by
  cases v with
  | nan => exact h
  | ninf => exact h
  | pinf => exact h
  | fin q => exact round32_nonNeg h

/-- The products of a negative and of a positive finite value with the same value `i`,
not NaN, have opposite signs (zero counted with both). -/
theorem mul_signs {a b : ℚ} (ha : a < 0) (hb : 0 < b) {i : FVal} (hi : i ≠ nan) :
    (NonPos (mul (fin a) i) ∧ NonNeg (mul (fin b) i)) ∨
      (NonNeg (mul (fin a) i) ∧ NonPos (mul (fin b) i)) := by
  cases i with
  | nan => exact absurd rfl hi
  | ninf =>
    right
    simp [mul, infTimes, ha.ne, hb.ne', ha, not_lt.mpr hb.le, NonPos, NonNeg]
  | pinf =>
    left
    simp [mul, infTimes, ha.ne, hb.ne', ha, not_lt.mpr hb.le, NonPos, NonNeg]
  | fin q =>
    simp only [mul, NonPos, NonNeg]
    rcases le_total 0 q with hq | hq
    · exact Or.inl ⟨mul_nonpos_of_nonpos_of_nonneg ha.le hq, mul_nonneg hb.le hq⟩
    · exact Or.inr ⟨mul_nonneg_of_nonpos_of_nonpos ha.le hq,
        mul_nonpos_of_nonneg_of_nonpos hb.le hq⟩

/-- For `a < 0 < b` and an inverse component `i` that is not NaN, the rounded candidate
distances `a * i` and `b * i` enclose zero. -/
theorem slab32_encloses_zero {a b : ℚ} (ha : a < 0) (hb : 0 < b) {i : FVal} (hi : i ≠ nan) :
    NonPos (stdMin (rounded round32 (mul (fin a) i)) (rounded round32 (mul (fin b) i))) ∧
      NonNeg (stdMax (rounded round32 (mul (fin a) i)) (rounded round32 (mul (fin b) i))) := by
  rcases mul_signs ha hb hi with ⟨h1, h2⟩ | ⟨h1, h2⟩
  · have h := stdMin_stdMax_signs (rounded_nonPos h1) (rounded_nonNeg h2)
    exact ⟨h.1, h.2.1⟩
  · have h := stdMin_stdMax_signs (rounded_nonPos h2) (rounded_nonNeg h1)
    exact ⟨h.2.2.1, h.2.2.2⟩

/-- The difference of two binary32 values `a < b`, of magnitude at most `2^127`, is
delivered as a negative finite value. -/
theorem round32_sub_neg {a b : ℚ} (ha : IsBinary32 a) (hb : IsBinary32 b) (hab : a < b)
    (hbound : |a - b| ≤ (2 : ℚ) ^ (127 : ℤ)) : ∃ v, round32 (a - b) = fin v ∧ v < 0 := by
  obtain ⟨v, hv, _⟩ := round32_abs_le (by norm_num) (by norm_num) hbound
  have hgap := isBinary32_gap ha hb hab
  have hs := round32_strictNeg (q := a - b) (by linarith)
  rw [hv] at hs
  exact ⟨v, hv, hs⟩

/-- The difference of two binary32 values `a > b`, of magnitude at most `2^127`, is
delivered as a positive finite value. -/
theorem round32_sub_pos {a b : ℚ} (ha : IsBinary32 a) (hb : IsBinary32 b) (hab : b < a)
    (hbound : |a - b| ≤ (2 : ℚ) ^ (127 : ℤ)) : ∃ v, round32 (a - b) = fin v ∧ 0 < v := by
  obtain ⟨v, hv, _⟩ := round32_abs_le (by norm_num) (by norm_num) hbound
  have hgap := isBinary32_gap hb ha hab
  have hs := round32_strictPos (q := a - b) hgap
  rw [hv] at hs
  exact ⟨v, hv, hs⟩

theorem round32_one : round32 1 = fin 1 :=
  round32_of_isBinary32 ⟨1, 0, by norm_num, by norm_num, by norm_num, by norm_num⟩

theorem inverse32_ne_nan {d : FVal} (hd : d ≠ nan) :
    rounded round32 (div (round32 1) d) ≠ nan := by
  rw [round32_one]
  exact rounded_round32_ne_nan (div_one_ne_nan hd)

end FVal

/-- One slab of the intersection test for an origin coordinate `o` strictly between the
sides `lo < o < hi`, all three binary32 values and the sides of magnitude at most
`2^31`. -/
theorem slab32_origin_inside {lo hi o : ℚ} (hlo : IsBinary32 lo) (hhi : IsBinary32 hi)
    (ho : IsBinary32 o) (hblo : |lo| ≤ 2 ^ 31) (hbhi : |hi| ≤ 2 ^ 31) (h1 : lo < o) (h2 : o < hi)
    {i : FVal} (hi' : i ≠ FVal.nan) :
    FVal.NonPos (FVal.stdMin
        (FVal.rounded FVal.round32 (FVal.mul
          (FVal.rounded FVal.round32 (FVal.sub (FVal.round32 lo) (FVal.fin o))) i))
        (FVal.rounded FVal.round32 (FVal.mul
          (FVal.rounded FVal.round32 (FVal.sub (FVal.round32 hi) (FVal.fin o))) i))) ∧
      FVal.NonNeg (FVal.stdMax
        (FVal.rounded FVal.round32 (FVal.mul
          (FVal.rounded FVal.round32 (FVal.sub (FVal.round32 lo) (FVal.fin o))) i))
        (FVal.rounded FVal.round32 (FVal.mul
          (FVal.rounded FVal.round32 (FVal.sub (FVal.round32 hi) (FVal.fin o))) i))) := by
  rw [abs_le] at hblo hbhi
  have hb1 : |lo - o| ≤ (2 : ℚ) ^ (127 : ℤ) := by
    rw [abs_le]
    have : (2 : ℚ) ^ (32 : ℕ) ≤ (2 : ℚ) ^ (127 : ℤ) := by norm_num
    constructor <;> norm_num at * <;> linarith
  have hb2 : |hi - o| ≤ (2 : ℚ) ^ (127 : ℤ) := by
    rw [abs_le]
    have : (2 : ℚ) ^ (32 : ℕ) ≤ (2 : ℚ) ^ (127 : ℤ) := by norm_num
    constructor <;> norm_num at * <;> linarith
  obtain ⟨a, ha, ha0⟩ := FVal.round32_sub_neg hlo ho h1 hb1
  obtain ⟨b, hb, hb0⟩ := FVal.round32_sub_pos hhi ho h2 hb2
  rw [round32_of_isBinary32 hlo, round32_of_isBinary32 hhi]
  simp only [FVal.sub, FVal.rounded]
  rw [ha, hb]
  exact FVal.slab32_encloses_zero ha0 hb0 hi'
namespace FVal

/-- The rounding of a positive normal value, from its binade `[2^e, 2^(e+1))` and the
significand `n` its quotient by the spacing rounds to. -/
theorem round32_eval {q : ℚ} (e n : ℤ) (he : -126 ≤ e) (h1 : (2 : ℚ) ^ e ≤ q)
    (h2 : q < (2 : ℚ) ^ (e + 1)) (hn : roundHalfEven (q / (2 : ℚ) ^ (e - 23)) = n)
    (hlt : (n : ℚ) * (2 : ℚ) ^ (e - 23) < (2 : ℚ) ^ (128 : ℕ)) :
    round32 q = fin ((n : ℚ) * (2 : ℚ) ^ (e - 23)) := by
  have hq0 : 0 < q := lt_of_lt_of_le (zpow_pos (by norm_num) _) h1
  have hmag : roundMag32 q = (n : ℚ) * (2 : ℚ) ^ (e - 23) := by
    unfold roundMag32 ulp32
    rw [exp32_eq he h1 h2, hn]
  unfold round32
  rw [if_neg hq0.ne', if_pos hq0, hmag, if_neg (not_le.mpr hlt)]

/-- An integer of magnitude below `2^24` is delivered unchanged. -/
theorem round32_intCast {n : ℤ} (h : |n| < 2 ^ 24) : round32 (n : ℚ) = fin (n : ℚ) :=
  round32_of_isBinary32 ⟨n, 0, h, by norm_num, by norm_num, by simp⟩

theorem round32_zero : round32 0 = fin 0 := by simp [round32]

theorem mul_pinf_strictPos {v : FVal} (h : StrictPos v) : mul v pinf = pinf := by
  cases v with
  | nan => exact absurd h id
  | ninf => exact absurd h id
  | pinf => rfl
  | fin q => exact mul_pinf_of_pos h

theorem mul_pinf_strictNeg {v : FVal} (h : StrictNeg v) : mul v pinf = ninf := by
  cases v with
  | nan => exact absurd h id
  | pinf => exact absurd h id
  | ninf => rfl
  | fin q => exact mul_pinf_of_neg h

theorem rounded_strictPos {q : ℚ} (hq : (2 : ℚ) ^ (-149 : ℤ) ≤ q) :
    StrictPos (rounded round32 (fin q)) := round32_strictPos hq

theorem rounded_strictNeg {q : ℚ} (hq : q ≤ -(2 : ℚ) ^ (-149 : ℤ)) :
    StrictNeg (rounded round32 (fin q)) := round32_strictNeg hq

end FVal

/-- The candidate distance of a side coordinate `c` of magnitude at most `2^31`, for a
binary32 origin coordinate and the inverse component 1, is finite. -/
theorem slab32_finite {c o : ℚ} (hc : |c| ≤ 2 ^ 31) (ho : IsBinary32 o) :
    ∃ a, FVal.rounded FVal.round32 (FVal.mul
      (FVal.rounded FVal.round32 (FVal.sub (FVal.round32 c) (FVal.fin o))) (FVal.fin 1))
      = FVal.fin a := by
  obtain ⟨rc, hrc, hrcb⟩ := FVal.round32_abs_le (k := 31) (by norm_num) (by norm_num)
    (by rw [show (31 : ℤ) = ((31 : ℕ) : ℤ) from rfl, zpow_natCast]; exact hc)
  have hob := isBinary32_abs_le ho
  have hsum : |rc - o| < (2 : ℚ) ^ (128 : ℕ) - (2 : ℚ) ^ (103 : ℕ) := by
    have h1 : |rc - o| ≤ |rc| + |o| := abs_sub rc o
    have h2 : (2 : ℚ) ^ (31 : ℤ) + ((2 : ℚ) ^ (24 : ℕ) - 1) * (2 : ℚ) ^ (104 : ℕ)
        < (2 : ℚ) ^ (128 : ℕ) - (2 : ℚ) ^ (103 : ℕ) := by norm_num
    linarith
  obtain ⟨a, ha⟩ := FVal.round32_finite hsum
  have hbin := FVal.round32_isBinary32 ha
  refine ⟨a, ?_⟩
  rw [hrc]
  simp only [FVal.sub, FVal.rounded]
  rw [ha]
  simp only [FVal.mul, FVal.rounded, mul_one]
  exact round32_of_isBinary32 hbin

/-- C2, amended: for a rectangle whose side coordinates `x`, `x + w`, `y`, `y + h` are
values of `int` (magnitude at most `2^31`) that convert exactly to binary32 (every integer
of magnitude at most `2^24` does), and a ray whose origin, a pair of binary32 values, lies
strictly inside the rectangle, `AABBTavianIntersection`, computed in binary32 arithmetic,
returns true whatever the inverse direction, as long as its components are not NaN: finite
values, `+inf` or `-inf` (zero direction components), zero; in particular for the ray built
from any direction `(dx, dy)` without NaN component, zero components included. -/
theorem aabb32_origin_inside (rect : SDL_Rect) (ox oy : ℚ)
    (hox : IsBinary32 ox) (hoy : IsBinary32 oy)
    (hexact : IsBinary32 (rect.x : ℚ) ∧ IsBinary32 ((rect.x + rect.w : Int) : ℚ) ∧
      IsBinary32 (rect.y : ℚ) ∧ IsBinary32 ((rect.y + rect.h : Int) : ℚ))
    (hrange : |rect.x| ≤ 2 ^ 31 ∧ |rect.x + rect.w| ≤ 2 ^ 31 ∧
      |rect.y| ≤ 2 ^ 31 ∧ |rect.y + rect.h| ≤ 2 ^ 31)
    (hx1 : (rect.x : ℚ) < ox) (hx2 : ox < ((rect.x + rect.w : Int) : ℚ))
    (hy1 : (rect.y : ℚ) < oy) (hy2 : oy < ((rect.y + rect.h : Int) : ℚ)) :
    (∀ ix iy dx dy : FVal, ix ≠ FVal.nan → iy ≠ FVal.nan →
      AABBTavianIntersection32 rect ⟨⟨FVal.fin ox, FVal.fin oy⟩, ⟨ix, iy⟩, dx, dy⟩ = true) ∧
    (∀ dx dy : FVal, dx ≠ FVal.nan → dy ≠ FVal.nan →
      AABBTavianIntersection32 rect (rayOf32 (FVal.fin ox) (FVal.fin oy) dx dy) = true) := by
  obtain ⟨hr1, hr2, hr3, hr4⟩ := hrange
  have hq1 : |(rect.x : ℚ)| ≤ 2 ^ 31 := by exact_mod_cast hr1
  have hq2 : |((rect.x + rect.w : Int) : ℚ)| ≤ 2 ^ 31 := by exact_mod_cast hr2
  have hq3 : |(rect.y : ℚ)| ≤ 2 ^ 31 := by exact_mod_cast hr3
  have hq4 : |((rect.y + rect.h : Int) : ℚ)| ≤ 2 ^ 31 := by exact_mod_cast hr4
  have key : ∀ ix iy dx dy : FVal, ix ≠ FVal.nan → iy ≠ FVal.nan →
      AABBTavianIntersection32 rect ⟨⟨FVal.fin ox, FVal.fin oy⟩, ⟨ix, iy⟩, dx, dy⟩ = true := by
    intro ix iy dx dy hix hiy
    have hx := slab32_origin_inside hexact.1 hexact.2.1 hox hq1 hq2 hx1 hx2 hix
    have hy := slab32_origin_inside hexact.2.2.1 hexact.2.2.2 hoy hq3 hq4 hy1 hy2 hiy
    simp only [AABBTavianIntersection32, aabbWith]
    exact FVal.ge_of_nonNeg_nonPos (FVal.stdMin_nonNeg hx.2 hy.2)
      (FVal.stdMax_nonPos hx.1 hy.1)
  exact ⟨key, fun dx dy hdx hdy =>
    key _ _ dx dy (FVal.inverse32_ne_nan hdx) (FVal.inverse32_ne_nan hdy)⟩

theorem round32_33554433 : FVal.round32 33554433 = FVal.fin 33554432 := by
  have h := FVal.round32_eval (q := 33554433) 25 8388608 (by norm_num) (by norm_num)
    (by norm_num) (FVal.roundHalfEven_near 8388608 (by norm_num) (by norm_num)) (by norm_num)
  rw [h]
  norm_num

theorem round32_33554435 : FVal.round32 33554435 = FVal.fin 33554436 := by
  have h := FVal.round32_eval (q := 33554435) 25 8388609 (by norm_num) (by norm_num)
    (by norm_num) (FVal.roundHalfEven_near 8388609 (by norm_num) (by norm_num)) (by norm_num)
  rw [h]
  norm_num

theorem round32_33554432 : FVal.round32 33554432 = FVal.fin 33554432 :=
  round32_of_isBinary32 ⟨8388608, 2, by norm_num, by norm_num, by norm_num, by norm_num⟩

theorem round32_neg_33554432 : FVal.round32 (-33554432) = FVal.fin (-33554432) :=
  round32_of_isBinary32 ⟨-8388608, 2, by norm_num, by norm_num, by norm_num, by norm_num⟩

theorem round32_small (n : ℤ) (h : |n| < 2 ^ 24) (q : ℚ) (hq : q = (n : ℚ)) :
    FVal.round32 q = FVal.fin q := by
  rw [hq]
  exact FVal.round32_intCast h

/-- The result of the intersection test from the four candidate distances. -/
theorem aabbWith_of_dists (r : ℚ → FVal) (rect : SDL_Rect) (ray : Ray) {a b c d : FVal}
    (h1 : FVal.rounded r (FVal.mul
      (FVal.rounded r (FVal.sub (r (rect.x : ℚ)) ray.origin_.x)) ray.inverse_.x) = a)
    (h2 : FVal.rounded r (FVal.mul
      (FVal.rounded r (FVal.sub (r ((rect.x + rect.w : Int) : ℚ)) ray.origin_.x))
      ray.inverse_.x) = b)
    (h3 : FVal.rounded r (FVal.mul
      (FVal.rounded r (FVal.sub (r (rect.y : ℚ)) ray.origin_.y)) ray.inverse_.y) = c)
    (h4 : FVal.rounded r (FVal.mul
      (FVal.rounded r (FVal.sub (r ((rect.y + rect.h : Int) : ℚ)) ray.origin_.y))
      ray.inverse_.y) = d) :
    aabbWith r rect ray = FVal.ge (FVal.stdMin (FVal.stdMax a b) (FVal.stdMax c d))
      (FVal.stdMax (FVal.stdMin a b) (FVal.stdMin c d)) := by
  subst h1 h2 h3 h4
  rfl

namespace FVal

/-- The inverse `1 / 0` of a zero direction component is `+inf`. -/
theorem inverse32_zero : rounded round32 (div (round32 1) (fin 0)) = pinf := by
  have h10 : ¬ ((1 : ℚ) < 0) := by norm_num
  rw [round32_one]
  simp [div, rounded, h10]

/-- The inverse `1 / 1` of the direction component 1 is 1. -/
theorem inverse32_one : rounded round32 (div (round32 1) (fin 1)) = fin 1 := by
  have h : div (fin 1) (fin 1) = fin 1 := by simp [div]
  rw [round32_one, h]
  exact round32_one

/-- A candidate distance `(c - o) * i` for a finite inverse component `i`, from the results
of its three roundings. -/
theorem dist32_fin {c o rc d i : ℚ} {p : FVal} (h1 : round32 c = fin rc)
    (h2 : round32 (rc - o) = fin d) (h3 : round32 (d * i) = p) :
    rounded round32 (mul (rounded round32 (sub (round32 c) (fin o))) (fin i)) = p := by
  rw [h1]
  simp only [sub, rounded]
  rw [h2]
  exact h3

/-- A candidate distance `(c - o) * inf`, from the results of its roundings. -/
theorem dist32_pinf {c o rc d : ℚ} (h1 : round32 c = fin rc) (h2 : round32 (rc - o) = fin d) :
    rounded round32 (mul (rounded round32 (sub (round32 c) (fin o))) pinf)
      = infTimes false d := by
  rw [h1]
  simp only [sub, rounded]
  rw [h2]
  simp only [mul]
  unfold infTimes
  split_ifs <;> rfl

end FVal

theorem round32_sub_eq {a b c : ℚ} {v : FVal} (h : a - b = c) (hc : FVal.round32 c = v) :
    FVal.round32 (a - b) = v := by
  rw [h]
  exact hc

theorem round32_mul_eq {a b c : ℚ} {v : FVal} (h : a * b = c) (hc : FVal.round32 c = v) :
    FVal.round32 (a * b) = v := by
  rw [h]
  exact hc

theorem round32_cast_eq {n : ℤ} {c : ℚ} {v : FVal} (h : (n : ℚ) = c) (hc : FVal.round32 c = v) :
    FVal.round32 (n : ℚ) = v := by
  rw [h]
  exact hc

/-- Counterexample to C2: the rectangle `{0, 0, 33554433, 10}` and the origin
`(33554432, 5)` strictly inside it, with the vertical direction `(0, 1)`.  The side
`x + w = 33554433` converts to the binary32 value 33554432, the distance to it is
`0 * inf = NaN`, and the function returns false. -/
theorem origin_inside_lost_by_conversion :
    (((⟨0, 0, 33554433, 10⟩ : SDL_Rect).x : ℚ) < 33554432 ∧
      (33554432 : ℚ) < (((⟨0, 0, 33554433, 10⟩ : SDL_Rect).x
        + (⟨0, 0, 33554433, 10⟩ : SDL_Rect).w : Int) : ℚ) ∧
      ((⟨0, 0, 33554433, 10⟩ : SDL_Rect).y : ℚ) < 5 ∧
      (5 : ℚ) < (((⟨0, 0, 33554433, 10⟩ : SDL_Rect).y
        + (⟨0, 0, 33554433, 10⟩ : SDL_Rect).h : Int) : ℚ)) ∧
    IsBinary32 33554432 ∧ IsBinary32 5 ∧
    AABBTavianIntersection32 ⟨0, 0, 33554433, 10⟩
      (rayOf32 (FVal.fin 33554432) (FVal.fin 5) (FVal.fin 0) (FVal.fin 1)) = false := by
  refine ⟨by norm_num, ⟨8388608, 2, by norm_num, by norm_num, by norm_num, by norm_num⟩,
    ⟨5, 0, by norm_num, by norm_num, by norm_num, by norm_num⟩, ?_⟩
  have e1 : FVal.round32 (-5) = FVal.fin (-5) := round32_small (-5) (by norm_num) _ (by norm_num)
  have e2 : FVal.round32 5 = FVal.fin 5 := round32_small 5 (by norm_num) _ (by norm_num)
  have e3 : FVal.round32 10 = FVal.fin 10 := round32_small 10 (by norm_num) _ (by norm_num)
  have c0 : FVal.round32 ((0 : Int) : ℚ) = FVal.fin 0 :=
    round32_cast_eq (by norm_num) FVal.round32_zero
  have c1 : FVal.round32 ((0 + 33554433 : Int) : ℚ) = FVal.fin 33554432 :=
    round32_cast_eq (by norm_num) round32_33554433
  have c2 : FVal.round32 ((0 + 10 : Int) : ℚ) = FVal.fin 10 :=
    round32_cast_eq (by norm_num) e3
  have t1 : FVal.rounded FVal.round32 (FVal.mul (FVal.rounded FVal.round32
      (FVal.sub (FVal.round32 ((0 : Int) : ℚ)) (FVal.fin 33554432)))
      (FVal.rounded FVal.round32 (FVal.div (FVal.round32 1) (FVal.fin 0)))) = FVal.ninf := by
    rw [FVal.inverse32_zero, FVal.dist32_pinf c0
      (round32_sub_eq (by norm_num) round32_neg_33554432)]
    norm_num [FVal.infTimes]
  have t2 : FVal.rounded FVal.round32 (FVal.mul (FVal.rounded FVal.round32
      (FVal.sub (FVal.round32 ((0 + 33554433 : Int) : ℚ)) (FVal.fin 33554432)))
      (FVal.rounded FVal.round32 (FVal.div (FVal.round32 1) (FVal.fin 0)))) = FVal.nan := by
    rw [FVal.inverse32_zero, FVal.dist32_pinf c1
      (round32_sub_eq (by norm_num) FVal.round32_zero)]
    norm_num [FVal.infTimes]
  have t3 : FVal.rounded FVal.round32 (FVal.mul (FVal.rounded FVal.round32
      (FVal.sub (FVal.round32 ((0 : Int) : ℚ)) (FVal.fin 5)))
      (FVal.rounded FVal.round32 (FVal.div (FVal.round32 1) (FVal.fin 1)))) = FVal.fin (-5) := by
    rw [FVal.inverse32_one]
    exact FVal.dist32_fin c0 (round32_sub_eq (by norm_num) e1) (round32_mul_eq (by norm_num) e1)
  have t4 : FVal.rounded FVal.round32 (FVal.mul (FVal.rounded FVal.round32
      (FVal.sub (FVal.round32 ((0 + 10 : Int) : ℚ)) (FVal.fin 5)))
      (FVal.rounded FVal.round32 (FVal.div (FVal.round32 1) (FVal.fin 1)))) = FVal.fin 5 := by
    rw [FVal.inverse32_one]
    exact FVal.dist32_fin c2 (round32_sub_eq (by norm_num) e2) (round32_mul_eq (by norm_num) e2)
  rw [AABBTavianIntersection32, aabbWith_of_dists _ _ _ t1 t2 t3 t4]
  norm_num [FVal.stdMin, FVal.stdMax, FVal.lt, FVal.ge]
/-- Witness for C2, amended: the rectangle `{0, 0, 33554432, 10}`, whose side
`x + w = 2^25` is a binary32 value, the origin `(33554430, 5)` strictly inside it and the
vertical direction `(0, 1)`, with inverse `(+inf, 1)`. -/
theorem aabb32_origin_inside_witness :
    AABBTavianIntersection32 ⟨0, 0, 33554432, 10⟩
      (rayOf32 (FVal.fin 33554430) (FVal.fin 5) (FVal.fin 0) (FVal.fin 1)) = true :=
  (aabb32_origin_inside ⟨0, 0, 33554432, 10⟩ 33554430 5
    ⟨16777215, 1, by norm_num, by norm_num, by norm_num, by norm_num⟩
    ⟨5, 0, by norm_num, by norm_num, by norm_num, by norm_num⟩
    ⟨⟨0, 0, by norm_num, by norm_num, by norm_num, by norm_num⟩,
      ⟨8388608, 2, by norm_num, by norm_num, by norm_num, by norm_num⟩,
      ⟨0, 0, by norm_num, by norm_num, by norm_num, by norm_num⟩,
      ⟨10, 0, by norm_num, by norm_num, by norm_num, by norm_num⟩⟩
    ⟨by decide, by decide, by decide, by decide⟩
    (by norm_num) (by norm_num) (by norm_num) (by norm_num)).2
    (FVal.fin 0) (FVal.fin 1) (by simp) (by simp)

/-- C4, amended: for the horizontal direction `(1, 0)`, whose inverse is `(1, +inf)`, a
binary32 origin, and a rectangle with `h >= 0` whose sides `y` and `y + h` convert exactly
to binary32 (every integer of magnitude at most `2^24` does), whose sides `x` and `x + w`
are values of `int` (magnitude at most `2^31`), and which lies entirely above or entirely
below the line of the ray (`origin.y < y` or `origin.y > y + h`),
`AABBTavianIntersection`, computed in binary32 arithmetic, returns false. -/
theorem aabb32_horizontal_miss (rect : SDL_Rect) (ox oy : ℚ)
    (hox : IsBinary32 ox) (hoy : IsBinary32 oy)
    (hxrange : |rect.x| ≤ 2 ^ 31 ∧ |rect.x + rect.w| ≤ 2 ^ 31)
    (hyexact : IsBinary32 (rect.y : ℚ) ∧ IsBinary32 ((rect.y + rect.h : Int) : ℚ))
    (hh : 0 ≤ rect.h)
    (hout : oy < (rect.y : ℚ) ∨ ((rect.y + rect.h : Int) : ℚ) < oy) :
    (rayOf32 (FVal.fin ox) (FVal.fin oy) (FVal.fin 1) (FVal.fin 0)).inverse_
        = ⟨FVal.fin 1, FVal.pinf⟩ ∧
      AABBTavianIntersection32 rect
        (rayOf32 (FVal.fin ox) (FVal.fin oy) (FVal.fin 1) (FVal.fin 0)) = false := by
  have hh' : (rect.y : ℚ) ≤ ((rect.y + rect.h : Int) : ℚ) := by
    have : (0 : ℚ) ≤ rect.h := by exact_mod_cast hh
    push_cast
    linarith
  have hq1 : |(rect.x : ℚ)| ≤ 2 ^ 31 := by exact_mod_cast hxrange.1
  have hq2 : |((rect.x + rect.w : Int) : ℚ)| ≤ 2 ^ 31 := by exact_mod_cast hxrange.2
  obtain ⟨a1, ha1⟩ := slab32_finite hq1 hox
  obtain ⟨a2, ha2⟩ := slab32_finite hq2 hox
  have hinv : (rayOf32 (FVal.fin ox) (FVal.fin oy) (FVal.fin 1) (FVal.fin 0)).inverse_
      = ⟨FVal.fin 1, FVal.pinf⟩ := by
    simp only [rayOf32, rayOfWith, FVal.inverse32_one, FVal.inverse32_zero]
  refine ⟨hinv, ?_⟩
  have hp : (0 : ℚ) < (2 : ℚ) ^ (-149 : ℤ) := zpow_pos (by norm_num) _
  rcases hout with h | h
  · have g1 := isBinary32_gap hoy hyexact.1 h
    have g2 := isBinary32_gap hoy hyexact.2 (lt_of_lt_of_le h hh')
    have t3 : FVal.rounded FVal.round32 (FVal.mul (FVal.rounded FVal.round32
        (FVal.sub (FVal.round32 (rect.y : ℚ)) (FVal.fin oy))) FVal.pinf) = FVal.pinf := by
      rw [round32_of_isBinary32 hyexact.1]
      simp only [FVal.sub]
      rw [FVal.mul_pinf_strictPos (FVal.rounded_strictPos g1)]
      rfl
    have t4 : FVal.rounded FVal.round32 (FVal.mul (FVal.rounded FVal.round32
        (FVal.sub (FVal.round32 ((rect.y + rect.h : Int) : ℚ)) (FVal.fin oy))) FVal.pinf)
        = FVal.pinf := by
      rw [round32_of_isBinary32 hyexact.2]
      simp only [FVal.sub]
      rw [FVal.mul_pinf_strictPos (FVal.rounded_strictPos g2)]
      rfl
    rw [AABBTavianIntersection32, aabbWith_of_dists (a := FVal.fin a1) (b := FVal.fin a2)
      (c := FVal.pinf) (d := FVal.pinf) _ _ _
      (by rw [hinv]; exact ha1) (by rw [hinv]; exact ha2)
      (by rw [hinv]; exact t3) (by rw [hinv]; exact t4)]
    simp only [FVal.stdMin_fin, FVal.stdMax_fin]
    rfl
  · have g1 := isBinary32_gap hyexact.1 hoy (lt_of_le_of_lt hh' h)
    have g2 := isBinary32_gap hyexact.2 hoy h
    have t3 : FVal.rounded FVal.round32 (FVal.mul (FVal.rounded FVal.round32
        (FVal.sub (FVal.round32 (rect.y : ℚ)) (FVal.fin oy))) FVal.pinf) = FVal.ninf := by
      rw [round32_of_isBinary32 hyexact.1]
      simp only [FVal.sub]
      rw [FVal.mul_pinf_strictNeg (FVal.rounded_strictNeg (by linarith))]
      rfl
    have t4 : FVal.rounded FVal.round32 (FVal.mul (FVal.rounded FVal.round32
        (FVal.sub (FVal.round32 ((rect.y + rect.h : Int) : ℚ)) (FVal.fin oy))) FVal.pinf)
        = FVal.ninf := by
      rw [round32_of_isBinary32 hyexact.2]
      simp only [FVal.sub]
      rw [FVal.mul_pinf_strictNeg (FVal.rounded_strictNeg (by linarith))]
      rfl
    rw [AABBTavianIntersection32, aabbWith_of_dists (a := FVal.fin a1) (b := FVal.fin a2)
      (c := FVal.ninf) (d := FVal.ninf) _ _ _
      (by rw [hinv]; exact ha1) (by rw [hinv]; exact ha2)
      (by rw [hinv]; exact t3) (by rw [hinv]; exact t4)]
    simp only [FVal.stdMin_fin, FVal.stdMax_fin]
    rfl

/-- Counterexample to C4: the rectangle `{0, 33554433, 2, 2}` lies entirely above the
horizontal line through the origin `(1, 33554432)`, `origin.y < y`.  The side
`y = 33554433` converts to the binary32 value 33554432, the distance to it is
`0 * inf = NaN`, the y slab drops out of `std::min` and `std::max`, and the function
returns true. -/
theorem horizontal_miss_lost_by_conversion :
    (0 : Int) ≤ (⟨0, 33554433, 2, 2⟩ : SDL_Rect).h ∧
    (33554432 : ℚ) < ((⟨0, 33554433, 2, 2⟩ : SDL_Rect).y : ℚ) ∧
    IsBinary32 1 ∧ IsBinary32 33554432 ∧
    (rayOf32 (FVal.fin 1) (FVal.fin 33554432) (FVal.fin 1) (FVal.fin 0)).inverse_
        = ⟨FVal.fin 1, FVal.pinf⟩ ∧
    AABBTavianIntersection32 ⟨0, 33554433, 2, 2⟩
      (rayOf32 (FVal.fin 1) (FVal.fin 33554432) (FVal.fin 1) (FVal.fin 0)) = true := by
  have hinv : (rayOf32 (FVal.fin 1) (FVal.fin 33554432) (FVal.fin 1) (FVal.fin 0)).inverse_
      = ⟨FVal.fin 1, FVal.pinf⟩ := by
    simp only [rayOf32, rayOfWith, FVal.inverse32_one, FVal.inverse32_zero]
  refine ⟨by decide, by norm_num,
    ⟨1, 0, by norm_num, by norm_num, by norm_num, by norm_num⟩,
    ⟨8388608, 2, by norm_num, by norm_num, by norm_num, by norm_num⟩, hinv, ?_⟩
  have e1 : FVal.round32 (-1) = FVal.fin (-1) := round32_small (-1) (by norm_num) _ (by norm_num)
  have e2 : FVal.round32 1 = FVal.fin 1 := FVal.round32_one
  have e3 : FVal.round32 2 = FVal.fin 2 := round32_small 2 (by norm_num) _ (by norm_num)
  have e4 : FVal.round32 4 = FVal.fin 4 := round32_small 4 (by norm_num) _ (by norm_num)
  have c0 : FVal.round32 ((0 : Int) : ℚ) = FVal.fin 0 :=
    round32_cast_eq (by norm_num) FVal.round32_zero
  have c1 : FVal.round32 ((0 + 2 : Int) : ℚ) = FVal.fin 2 :=
    round32_cast_eq (by norm_num) e3
  have c2 : FVal.round32 ((33554433 : Int) : ℚ) = FVal.fin 33554432 :=
    round32_cast_eq (by norm_num) round32_33554433
  have c3 : FVal.round32 ((33554433 + 2 : Int) : ℚ) = FVal.fin 33554436 :=
    round32_cast_eq (by norm_num) round32_33554435
  have t1 : FVal.rounded FVal.round32 (FVal.mul (FVal.rounded FVal.round32
      (FVal.sub (FVal.round32 ((0 : Int) : ℚ)) (FVal.fin 1))) (FVal.fin 1)) = FVal.fin (-1) :=
    FVal.dist32_fin c0 (round32_sub_eq (by norm_num) e1) (round32_mul_eq (by norm_num) e1)
  have t2 : FVal.rounded FVal.round32 (FVal.mul (FVal.rounded FVal.round32
      (FVal.sub (FVal.round32 ((0 + 2 : Int) : ℚ)) (FVal.fin 1))) (FVal.fin 1)) = FVal.fin 1 :=
    FVal.dist32_fin c1 (round32_sub_eq (by norm_num) e2) (round32_mul_eq (by norm_num) e2)
  have t3 : FVal.rounded FVal.round32 (FVal.mul (FVal.rounded FVal.round32
      (FVal.sub (FVal.round32 ((33554433 : Int) : ℚ)) (FVal.fin 33554432))) FVal.pinf)
      = FVal.nan := by
    rw [FVal.dist32_pinf c2 (round32_sub_eq (by norm_num) FVal.round32_zero)]
    norm_num [FVal.infTimes]
  have t4 : FVal.rounded FVal.round32 (FVal.mul (FVal.rounded FVal.round32
      (FVal.sub (FVal.round32 ((33554433 + 2 : Int) : ℚ)) (FVal.fin 33554432))) FVal.pinf)
      = FVal.pinf := by
    rw [FVal.dist32_pinf c3 (round32_sub_eq (by norm_num) e4)]
    norm_num [FVal.infTimes]
  rw [AABBTavianIntersection32, aabbWith_of_dists (a := FVal.fin (-1)) (b := FVal.fin 1)
    (c := FVal.nan) (d := FVal.pinf) _ _ _
    (by rw [hinv]; exact t1) (by rw [hinv]; exact t2)
    (by rw [hinv]; exact t3) (by rw [hinv]; exact t4)]
  norm_num [FVal.stdMin, FVal.stdMax, FVal.lt, FVal.ge]

/-- Witness for C4, amended: the rectangle `{0, 33554436, 2, 4}`, whose sides `y` and
`y + h` are binary32 values above `2^25`, lies above the horizontal line through
`(1, 33554432)`. -/
theorem aabb32_horizontal_miss_witness :
    AABBTavianIntersection32 ⟨0, 33554436, 2, 4⟩
      (rayOf32 (FVal.fin 1) (FVal.fin 33554432) (FVal.fin 1) (FVal.fin 0)) = false :=
  (aabb32_horizontal_miss ⟨0, 33554436, 2, 4⟩ 1 33554432
    ⟨1, 0, by norm_num, by norm_num, by norm_num, by norm_num⟩
    ⟨8388608, 2, by norm_num, by norm_num, by norm_num, by norm_num⟩
    ⟨by decide, by decide⟩
    ⟨⟨8388609, 2, by norm_num, by norm_num, by norm_num, by norm_num⟩,
      ⟨8388610, 2, by norm_num, by norm_num, by norm_num, by norm_num⟩⟩
    (by decide) (Or.inl (by norm_num))).2

/-! ## The simulation step in binary32 arithmetic -/

theorem TickWith_fin (g : Game) : TickWith FVal.fin g = Tick g := by
  have hc : ∀ b : SDL_Rect, centerWith FVal.fin b
      = ⟨FVal.add (FVal.ofInt b.x) (FVal.div (FVal.ofInt b.w) (FVal.fin 2)),
        FVal.add (FVal.ofInt b.y) (FVal.div (FVal.ofInt b.h) (FVal.fin 2))⟩ := by
    intro b
    simp only [centerWith, FVal.rounded_fin, FVal.ofInt]
  have hray : ∀ p m : SDL_Rect, tickRayWith FVal.fin p m = tickRay p m := by
    intro p m
    simp only [tickRayWith, tickRay, hc, FVal.rounded_fin]
  have hcell : ∀ ray, highlightCellWith FVal.fin ray = highlightCell ray := by
    intro ray
    funext c
    simp only [highlightCellWith, highlightCell, aabbWith_fin]
  simp only [TickWith, Tick, hray, hcell]

theorem TickWith_board (r : ℚ → FVal) (g : Game) :
    (TickWith r g).board_ =
      if g.mouse_left_pressed_ = true then
        g.board_.map (highlightCellWith r (tickRayWith r g.player_.moved.box_ g.mouse_box_))
      else g.board_ := by
  unfold TickWith
  simp only
  split <;> rfl

namespace FVal

theorem round32_two : round32 2 = fin 2 :=
  round32_of_isBinary32 ⟨2, 0, by norm_num, by norm_num, by norm_num, by norm_num⟩

theorem round32_congr {q c : ℚ} {v : FVal} (h : q = c) (hc : round32 c = v) : round32 q = v := by
  rw [h]
  exact hc

theorem round32_neg_eval {q v : ℚ} (h : round32 q = fin v) : round32 (-q) = fin (-v) := by
  rw [round32_neg, h]
  rfl

/-- The inverse `1 / d` of a nonzero direction component, from its rounding. -/
theorem inverse32_eval {d : ℚ} {v : FVal} (hd : d ≠ 0) (h : round32 (1 / d) = v) :
    rounded round32 (div (round32 1) (fin d)) = v := by
  rw [round32_one, div_one_fin hd]
  exact h

/-- A candidate distance whose conversion and subtraction are exact. -/
theorem dist32_exact {c o : ℚ} {i : FVal} (h1 : round32 c = fin c)
    (h2 : round32 (c - o) = fin (c - o)) :
    rounded round32 (mul (rounded round32 (sub (round32 c) (fin o))) i)
      = rounded round32 (mul (fin (c - o)) i) := by
  rw [h1]
  simp only [sub, rounded]
  rw [h2]

/-- A half-integer `n / 2` with `|n| < 2^24` is delivered unchanged. -/
theorem round32_half_int {q : ℚ} (n : ℤ) (hn : |n| < 2 ^ 24) (hq : q = (n : ℚ) / 2) :
    round32 q = fin q :=
  round32_of_isBinary32 ⟨n, -1, hn, by norm_num, by norm_num, by
    rw [hq, show (2 : ℚ) ^ (-1 : ℤ) = 1 / 2 by norm_num]
    ring⟩

theorem stdMin_stdMax_around_one {x y : FVal} (hx : LeOne x) (hy : GeOne y) :
    LeOne (stdMin x y) ∧ GeOne (stdMax x y) ∧ LeOne (stdMin y x) ∧ GeOne (stdMax y x) := by
  cases x <;> cases y <;> simp_all [LeOne, GeOne, stdMin, stdMax, lt]
  rename_i p q
  refine ⟨?_, ?_, ?_, ?_⟩ <;> split_ifs <;> simp_all [LeOne, GeOne] <;> linarith

/-- The rounded inverse `i` of a direction component `1/2 <= d <= 2^23` is at least `2^-23`
and `d * i` is within `2^-24` of 1. -/
theorem inv32_bounds {d : ℚ} (hd1 : 1 / 2 ≤ d) (hd2 : d ≤ 2 ^ 23) :
    ∃ i, round32 (1 / d) = fin i ∧ (2 : ℚ) ^ (-23 : ℤ) ≤ i ∧
      1 - (2 : ℚ) ^ (-24 : ℤ) ≤ d * i ∧ d * i ≤ 1 + (2 : ℚ) ^ (-24 : ℤ) := by
  have hd0 : 0 < d := by linarith
  have hp0 : 0 < 1 / d := by positivity
  have hdp : d * (1 / d) = 1 := by field_simp
  have hphi : 1 / d ≤ (2 : ℚ) ^ (1 : ℤ) := by
    rw [div_le_iff₀ hd0]
    norm_num
    linarith
  have hplo : (2 : ℚ) ^ (-23 : ℤ) ≤ 1 / d := by
    rw [le_div_iff₀ hd0]
    have : (2 : ℚ) ^ (-23 : ℤ) * (2 : ℚ) ^ (23 : ℕ) = 1 := by norm_num
    have h2 : (0 : ℚ) < (2 : ℚ) ^ (-23 : ℤ) := by positivity
    nlinarith
  have h126 : (2 : ℚ) ^ (-126 : ℤ) ≤ 1 / d :=
    le_trans (zpow_le_zpow_right₀ (by norm_num) (by norm_num)) hplo
  have hmag1 := roundMag32_le_zpow hp0 (by norm_num) hphi
  have hmag2 := zpow_le_roundMag32 (by norm_num) hplo
  have hup := roundMag32_le_add (1 / d)
  have hdn := sub_le_roundMag32 (1 / d)
  have hu := half_ulp32_le h126
  refine ⟨roundMag32 (1 / d), ?_, hmag2, ?_, ?_⟩
  · have hlt : ¬ ((2 : ℚ) ^ (128 : ℕ) ≤ roundMag32 (1 / d)) := by
      have : (2 : ℚ) ^ (1 : ℤ) < (2 : ℚ) ^ (128 : ℕ) := by norm_num
      linarith
    unfold round32
    rw [if_neg hp0.ne', if_pos hp0, if_neg hlt]
  · have h1 : 1 / d * (1 - (2 : ℚ) ^ (-24 : ℤ)) ≤ roundMag32 (1 / d) := by linarith
    have h2 := mul_le_mul_of_nonneg_left h1 hd0.le
    rw [← mul_assoc, hdp, one_mul] at h2
    exact h2
  · have h1 : roundMag32 (1 / d) ≤ 1 / d * (1 + (2 : ℚ) ^ (-24 : ℤ)) := by linarith
    have h2 := mul_le_mul_of_nonneg_left h1 hd0.le
    rw [← mul_assoc, hdp, one_mul] at h2
    exact h2

/-- With such an inverse `i`, a numerator at least one half below `d` gives a product at
most 1, and a numerator at least one half above `d` a product at least 1. -/
theorem slab32_products {a b d i : ℚ} (hi1 : (2 : ℚ) ^ (-23 : ℤ) ≤ i)
    (hi2 : 1 - (2 : ℚ) ^ (-24 : ℤ) ≤ d * i) (hi3 : d * i ≤ 1 + (2 : ℚ) ^ (-24 : ℤ))
    (ha : a + 1 / 2 ≤ d) (hb : d + 1 / 2 ≤ b) : a * i ≤ 1 ∧ 1 ≤ b * i := by
  have hi0 : 0 ≤ i := le_trans (by positivity) hi1
  have h23 : (2 : ℚ) ^ (-23 : ℤ) = 2 * (2 : ℚ) ^ (-24 : ℤ) := by norm_num
  have h1 : a * i ≤ (d - 1 / 2) * i := mul_le_mul_of_nonneg_right (by linarith) hi0
  have h2 : (d + 1 / 2) * i ≤ b * i := mul_le_mul_of_nonneg_right hb hi0
  constructor
  · have : (d - 1 / 2) * i = d * i - i / 2 := by ring
    linarith
  · have : (d + 1 / 2) * i = d * i + i / 2 := by ring
    linarith

/-- For a direction component `d`, zero or of magnitude between `1/2` and `2^23`, and a
slab `[a, b]` around it with `a + 1/2 <= d <= b - 1/2`, the rounded candidate distances
`a * (1/d)` and `b * (1/d)` enclose the parameter 1. -/
theorem slab32_encloses_one {a b d : ℚ} (ha : a + 1 / 2 ≤ d) (hb : d + 1 / 2 ≤ b)
    (hd0 : d = 0 ∨ 1 / 2 ≤ |d|) (hd1 : |d| ≤ 2 ^ 23) :
    LeOne (stdMin
        (rounded round32 (mul (fin a) (rounded round32 (div (round32 1) (fin d)))))
        (rounded round32 (mul (fin b) (rounded round32 (div (round32 1) (fin d)))))) ∧
      GeOne (stdMax
        (rounded round32 (mul (fin a) (rounded round32 (div (round32 1) (fin d)))))
        (rounded round32 (mul (fin b) (rounded round32 (div (round32 1) (fin d)))))) := by
  rcases hd0 with h0 | hhalf
  · subst h0
    rw [inverse32_zero, mul_pinf_of_neg (show a < 0 by linarith),
      mul_pinf_of_pos (show 0 < b by linarith)]
    exact ⟨trivial, trivial⟩
  · rcases le_total 0 d with hpos | hneg
    · rw [abs_of_nonneg hpos] at hhalf hd1
      obtain ⟨i, hi, hi1, hi2, hi3⟩ := inv32_bounds hhalf hd1
      have hprod := slab32_products hi1 hi2 hi3 ha hb
      rw [inverse32_eval (by linarith) hi]
      simp only [mul, rounded]
      have h := stdMin_stdMax_around_one (round32_leOne hprod.1) (round32_geOne hprod.2)
      exact ⟨h.1, h.2.1⟩
    · rw [abs_of_nonpos hneg] at hhalf hd1
      obtain ⟨i, hi, hi1, hi2, hi3⟩ := inv32_bounds hhalf hd1
      have hprod := slab32_products (a := -b) (b := -a) hi1 hi2 hi3 (by linarith) (by linarith)
      have hinv : round32 (1 / d) = fin (-i) := by
        have h1 : (1 : ℚ) / d = -(1 / -d) := by
          have hd : d ≠ 0 := by
            intro h
            rw [h] at hhalf
            norm_num at hhalf
          field_simp
        rw [h1]
        exact round32_neg_eval hi
      rw [inverse32_eval (by intro h; rw [h] at hhalf; norm_num at hhalf) hinv]
      simp only [mul, rounded]
      have e1 : a * -i = -a * i := by ring
      have e2 : b * -i = -b * i := by ring
      rw [e1, e2]
      have h := stdMin_stdMax_around_one (round32_leOne hprod.1) (round32_geOne hprod.2)
      exact ⟨h.2.2.1, h.2.2.2⟩

end FVal

namespace FVal

/-- The rounding of a positive normal value `q` to the value `v`, from the binade of `q`
and the significand of `v`. -/
theorem round32_eval_eq {q v : ℚ} (e n : ℤ) (he : -126 ≤ e) (h1 : (2 : ℚ) ^ e ≤ q)
    (h2 : q < (2 : ℚ) ^ (e + 1)) (hn : roundHalfEven (q / (2 : ℚ) ^ (e - 23)) = n)
    (hv : v = (n : ℚ) * (2 : ℚ) ^ (e - 23)) (hlt : v < (2 : ℚ) ^ (128 : ℕ)) :
    round32 q = fin v := by
  rw [hv]
  exact round32_eval e n he h1 h2 hn (by rw [← hv]; exact hlt)

theorem rounded_apply (r : ℚ → FVal) (q : ℚ) : rounded r (fin q) = r q := rfl

end FVal

/-- The centre of a box, from the results of the roundings. -/
theorem centerWith_eval {b : SDL_Rect} {x w u cx y h v cy : ℚ}
    (h1 : FVal.round32 (b.x : ℚ) = FVal.fin x) (h2 : FVal.round32 (b.w : ℚ) = FVal.fin w)
    (h3 : FVal.round32 (w / 2) = FVal.fin u) (h4 : FVal.round32 (x + u) = FVal.fin cx)
    (h5 : FVal.round32 (b.y : ℚ) = FVal.fin y) (h6 : FVal.round32 (b.h : ℚ) = FVal.fin h)
    (h7 : FVal.round32 (h / 2) = FVal.fin v) (h8 : FVal.round32 (y + v) = FVal.fin cy) :
    centerWith FVal.round32 b = ⟨FVal.fin cx, FVal.fin cy⟩ := by
  have h20 : ¬ ((2 : ℚ) = 0) := by norm_num
  unfold centerWith
  rw [h1, h2, h5, h6, FVal.round32_two]
  simp only [FVal.div, h20, if_false, FVal.rounded]
  rw [h3, h7]
  simp only [FVal.add, FVal.rounded]
  rw [h4, h8]

/-- The centre of a box with coordinates and size of magnitude at most `2^21` is computed
exactly. -/
theorem centerWith_exact (b : SDL_Rect) (hb : b.Small) :
    centerWith FVal.round32 b
      = ⟨FVal.fin ((b.x : ℚ) + (b.w : ℚ) / 2), FVal.fin ((b.y : ℚ) + (b.h : ℚ) / 2)⟩ := by
  obtain ⟨hx, hy, hw, hh⟩ := hb
  rw [abs_le] at hx hy hw hh
  norm_num at hx hy hw hh
  exact centerWith_eval
    (FVal.round32_intCast (by rw [abs_lt]; constructor <;> omega))
    (FVal.round32_intCast (by rw [abs_lt]; constructor <;> omega))
    (FVal.round32_half_int b.w (by rw [abs_lt]; constructor <;> omega) rfl)
    (FVal.round32_half_int (2 * b.x + b.w) (by rw [abs_lt]; constructor <;> omega)
      (by push_cast; ring))
    (FVal.round32_intCast (by rw [abs_lt]; constructor <;> omega))
    (FVal.round32_intCast (by rw [abs_lt]; constructor <;> omega))
    (FVal.round32_half_int b.h (by rw [abs_lt]; constructor <;> omega) rfl)
    (FVal.round32_half_int (2 * b.y + b.h) (by rw [abs_lt]; constructor <;> omega)
      (by push_cast; ring))

/-- The ray of `Game::Tick`, from the two centres and the results of the roundings. -/
theorem tickRayWith_eval {pb mb : SDL_Rect} {ox oy tx ty dx dy : ℚ} {ix iy : FVal}
    (ho : centerWith FVal.round32 pb = ⟨FVal.fin ox, FVal.fin oy⟩)
    (ht : centerWith FVal.round32 mb = ⟨FVal.fin tx, FVal.fin ty⟩)
    (hdx : FVal.round32 (tx - ox) = FVal.fin dx) (hdy : FVal.round32 (ty - oy) = FVal.fin dy)
    (hix : FVal.rounded FVal.round32 (FVal.div (FVal.round32 1) (FVal.fin dx)) = ix)
    (hiy : FVal.rounded FVal.round32 (FVal.div (FVal.round32 1) (FVal.fin dy)) = iy) :
    tickRayWith FVal.round32 pb mb
      = ⟨⟨FVal.fin ox, FVal.fin oy⟩, ⟨ix, iy⟩, FVal.fin dx, FVal.fin dy⟩ := by
  unfold tickRayWith
  simp only [ho, ht, FVal.sub, FVal.rounded_apply]
  rw [hdx, hdy, hix, hiy]

/-- One slab of the intersection test for the ray of `Game::Tick`: for a target coordinate
`m + t/2` strictly between the sides `c1` and `c2`, the rounded candidate distances enclose
the parameter 1. -/
theorem slab32_target_inside {c1 c2 p s m t : ℤ}
    (hc1 : |c1| ≤ 2 ^ 22) (hc2 : |c2| ≤ 2 ^ 22) (hp : |p| ≤ 2 ^ 21) (hs : |s| ≤ 2 ^ 21)
    (h1 : (c1 : ℚ) < (m : ℚ) + (t : ℚ) / 2) (h2 : (m : ℚ) + (t : ℚ) / 2 < (c2 : ℚ)) :
    FVal.LeOne (FVal.stdMin
        (FVal.rounded FVal.round32 (FVal.mul (FVal.rounded FVal.round32
          (FVal.sub (FVal.round32 (c1 : ℚ)) (FVal.fin ((p : ℚ) + (s : ℚ) / 2))))
          (FVal.rounded FVal.round32 (FVal.div (FVal.round32 1)
            (FVal.fin ((m : ℚ) + (t : ℚ) / 2 - ((p : ℚ) + (s : ℚ) / 2)))))))
        (FVal.rounded FVal.round32 (FVal.mul (FVal.rounded FVal.round32
          (FVal.sub (FVal.round32 (c2 : ℚ)) (FVal.fin ((p : ℚ) + (s : ℚ) / 2))))
          (FVal.rounded FVal.round32 (FVal.div (FVal.round32 1)
            (FVal.fin ((m : ℚ) + (t : ℚ) / 2 - ((p : ℚ) + (s : ℚ) / 2)))))))) ∧
      FVal.GeOne (FVal.stdMax
        (FVal.rounded FVal.round32 (FVal.mul (FVal.rounded FVal.round32
          (FVal.sub (FVal.round32 (c1 : ℚ)) (FVal.fin ((p : ℚ) + (s : ℚ) / 2))))
          (FVal.rounded FVal.round32 (FVal.div (FVal.round32 1)
            (FVal.fin ((m : ℚ) + (t : ℚ) / 2 - ((p : ℚ) + (s : ℚ) / 2)))))))
        (FVal.rounded FVal.round32 (FVal.mul (FVal.rounded FVal.round32
          (FVal.sub (FVal.round32 (c2 : ℚ)) (FVal.fin ((p : ℚ) + (s : ℚ) / 2))))
          (FVal.rounded FVal.round32 (FVal.div (FVal.round32 1)
            (FVal.fin ((m : ℚ) + (t : ℚ) / 2 - ((p : ℚ) + (s : ℚ) / 2)))))))) := by
  rw [abs_le] at hc1 hc2 hp hs
  norm_num at hc1 hc2 hp hs
  have e1 := FVal.round32_intCast (n := c1) (by rw [abs_lt]; constructor <;> omega)
  have e2 := FVal.round32_intCast (n := c2) (by rw [abs_lt]; constructor <;> omega)
  have e3 : FVal.round32 ((c1 : ℚ) - ((p : ℚ) + (s : ℚ) / 2))
      = FVal.fin ((c1 : ℚ) - ((p : ℚ) + (s : ℚ) / 2)) :=
    FVal.round32_half_int (2 * c1 - (2 * p + s)) (by rw [abs_lt]; constructor <;> omega)
      (by push_cast; ring)
  have e4 : FVal.round32 ((c2 : ℚ) - ((p : ℚ) + (s : ℚ) / 2))
      = FVal.fin ((c2 : ℚ) - ((p : ℚ) + (s : ℚ) / 2)) :=
    FVal.round32_half_int (2 * c2 - (2 * p + s)) (by rw [abs_lt]; constructor <;> omega)
      (by push_cast; ring)
  rw [FVal.dist32_exact e1 e3, FVal.dist32_exact e2 e4]
  have z1 : 2 * c1 + 1 ≤ 2 * m + t := by
    have h : ((2 * c1 : ℤ) : ℚ) < ((2 * m + t : ℤ) : ℚ) := by push_cast; linarith
    have h' : 2 * c1 < 2 * m + t := by exact_mod_cast h
    omega
  have z2 : 2 * m + t + 1 ≤ 2 * c2 := by
    have h : ((2 * m + t : ℤ) : ℚ) < ((2 * c2 : ℤ) : ℚ) := by push_cast; linarith
    have h' : 2 * m + t < 2 * c2 := by exact_mod_cast h
    omega
  have q1 : ((2 * c1 + 1 : ℤ) : ℚ) ≤ ((2 * m + t : ℤ) : ℚ) := by exact_mod_cast z1
  have q2 : ((2 * m + t + 1 : ℤ) : ℚ) ≤ ((2 * c2 : ℤ) : ℚ) := by exact_mod_cast z2
  push_cast at q1 q2
  have hd : (m : ℚ) + (t : ℚ) / 2 - ((p : ℚ) + (s : ℚ) / 2)
      = ((2 * m + t - (2 * p + s) : ℤ) : ℚ) / 2 := by push_cast; ring
  have hN1 : |2 * m + t - (2 * p + s)| ≤ 2 ^ 24 := by
    rw [abs_le]; constructor <;> omega
  have hN1' : |((2 * m + t - (2 * p + s) : ℤ) : ℚ)| ≤ 2 ^ 24 := by exact_mod_cast hN1
  refine FVal.slab32_encloses_one (by linarith) (by linarith) ?_ ?_
  · by_cases hz : 2 * m + t - (2 * p + s) = 0
    · left
      rw [hd, hz]
      norm_num
    · right
      have h1 : (1 : ℤ) ≤ |2 * m + t - (2 * p + s)| := Int.one_le_abs hz
      have h1' : (1 : ℚ) ≤ |((2 * m + t - (2 * p + s) : ℤ) : ℚ)| := by exact_mod_cast h1
      rw [hd, abs_div, abs_of_pos (by norm_num : (0 : ℚ) < 2)]
      linarith
  · rw [hd, abs_div, abs_of_pos (by norm_num : (0 : ℚ) < 2)]
    norm_num at hN1' ⊢
    linarith

/-- The ray of `Game::Tick` towards a target strictly inside a rectangle meets the
rectangle in binary32 arithmetic, when the coordinates and sizes of the player box, of
the mouse box and of the rectangle are of magnitude at most `2^21`. -/
theorem aabb32_target_inside (rect pb mb : SDL_Rect) (hr : rect.Small) (hp : pb.Small)
    (hm : mb.Small)
    (hx1 : (rect.x : ℚ) < (mb.x : ℚ) + (mb.w : ℚ) / 2)
    (hx2 : (mb.x : ℚ) + (mb.w : ℚ) / 2 < ((rect.x + rect.w : Int) : ℚ))
    (hy1 : (rect.y : ℚ) < (mb.y : ℚ) + (mb.h : ℚ) / 2)
    (hy2 : (mb.y : ℚ) + (mb.h : ℚ) / 2 < ((rect.y + rect.h : Int) : ℚ)) :
    aabbWith FVal.round32 rect (tickRayWith FVal.round32 pb mb) = true := by
  have hray := tickRayWith_eval (centerWith_exact pb hp) (centerWith_exact mb hm)
    (FVal.round32_half_int (2 * mb.x + mb.w - (2 * pb.x + pb.w)) (by
      obtain ⟨a1, _, a2, _⟩ := hp
      obtain ⟨b1, _, b2, _⟩ := hm
      rw [abs_le] at a1 a2 b1 b2
      norm_num at a1 a2 b1 b2
      rw [abs_lt]; constructor <;> omega) (by push_cast; ring))
    (FVal.round32_half_int (2 * mb.y + mb.h - (2 * pb.y + pb.h)) (by
      obtain ⟨_, a1, _, a2⟩ := hp
      obtain ⟨_, b1, _, b2⟩ := hm
      rw [abs_le] at a1 a2 b1 b2
      norm_num at a1 a2 b1 b2
      rw [abs_lt]; constructor <;> omega) (by push_cast; ring)) rfl rfl
  rw [hray]
  obtain ⟨r1, r2, r3, r4⟩ := hr
  have r5 : |rect.x + rect.w| ≤ 2 ^ 22 := by
    rw [abs_le] at r1 r3 ⊢
    norm_num at r1 r3 ⊢
    constructor <;> omega
  have r6 : |rect.y + rect.h| ≤ 2 ^ 22 := by
    rw [abs_le] at r2 r4 ⊢
    norm_num at r2 r4 ⊢
    constructor <;> omega
  have r7 : |rect.x| ≤ 2 ^ 22 := le_trans r1 (by norm_num)
  have r8 : |rect.y| ≤ 2 ^ 22 := le_trans r2 (by norm_num)
  have hx := slab32_target_inside r7 r5 hp.1 hp.2.2.1 hx1 hx2
  have hy := slab32_target_inside r8 r6 hp.2.1 hp.2.2.2 hy1 hy2
  simp only [aabbWith]
  exact FVal.ge_of_geOne_leOne (FVal.stdMin_geOne hx.2 hy.2) (FVal.stdMax_leOne hx.1 hy.1)

/-- C19, amended: for every state with `mouse_left_pressed_ = true` in which the centre of
the mouse box lies strictly inside the rectangle of a wall cell, and in which the
coordinates and sizes of the player box after the move, of the mouse box and of that
rectangle are of magnitude at most `2^21`, that cell has `highlighted = true` after `Tick`
computed in binary32 arithmetic, for every such player position and every velocity, zero
direction components included. -/
theorem targeted_wall_highlighted32 (g : Game) (j : Nat) (c : Cell)
    (hleft : g.mouse_left_pressed_ = true) (hc : g.board_[j]? = some c)
    (hwall : c.is_wall_ = true)
    (hplayer : (movedBox g).Small) (hmouse : g.mouse_box_.Small) (hcell : c.rect_.Small)
    (hx1 : (c.rect_.x : ℚ) < (g.mouse_box_.x : ℚ) + (g.mouse_box_.w : ℚ) / 2)
    (hx2 : (g.mouse_box_.x : ℚ) + (g.mouse_box_.w : ℚ) / 2 < ((c.rect_.x + c.rect_.w : Int) : ℚ))
    (hy1 : (c.rect_.y : ℚ) < (g.mouse_box_.y : ℚ) + (g.mouse_box_.h : ℚ) / 2)
    (hy2 : (g.mouse_box_.y : ℚ) + (g.mouse_box_.h : ℚ) / 2 < ((c.rect_.y + c.rect_.h : Int) : ℚ)) :
    (Tick32 g).board_[j]? = some { c with highlighted_ := true } := by
  have hray : aabbWith FVal.round32 c.rect_
      (tickRayWith FVal.round32 g.player_.moved.box_ g.mouse_box_) = true :=
    aabb32_target_inside c.rect_ (movedBox g) g.mouse_box_ hcell hplayer hmouse hx1 hx2 hy1 hy2
  rw [Tick32, TickWith_board, if_pos hleft, List.getElem?_map, hc]
  simp [highlightCellWith, hwall, hray]

/-- Witness for C19, amended: in the session after `movingRayInputs` the ray is active, the
player box moves from `(261, 295)` to `(266, 295)` in the tick, and the mouse box is
centred on `(112, 112)`, inside the wall cell 78, which is not highlighted; after the tick
in binary32 arithmetic that cell is highlighted. -/
theorem targeted_wall_highlighted32_witness :
    ((Game.new 800 600 true).run movingRayInputs).board_[78]?
      = some ⟨⟨96, 96, 32, 32⟩, true, false⟩ ∧
    (Tick32 ((Game.new 800 600 true).run movingRayInputs)).board_[78]?
      = some ⟨⟨96, 96, 32, 32⟩, true, true⟩ :=
  ⟨movingRay_facts.1,
    targeted_wall_highlighted32 _ 78 ⟨⟨96, 96, 32, 32⟩, true, false⟩ movingRay_facts.2.2.2
      movingRay_facts.1 rfl
      (by unfold movedBox; rw [movingRay_facts.2.1]; norm_num [SDL_Rect.Small])
      (by rw [movingRay_facts.2.2.1]; norm_num [SDL_Rect.Small])
      (by norm_num [SDL_Rect.Small])
      (by rw [movingRay_facts.2.2.1]; norm_num) (by rw [movingRay_facts.2.2.1]; norm_num)
      (by rw [movingRay_facts.2.2.1]; norm_num) (by rw [movingRay_facts.2.2.1]; norm_num)⟩

/-! ### A player box far from the board -/

theorem round32_10 : FVal.round32 10 = FVal.fin 10 :=
  round32_small 10 (by norm_num) _ (by norm_num)

theorem round32_5 : FVal.round32 5 = FVal.fin 5 :=
  round32_small 5 (by norm_num) _ (by norm_num)

/-- The centre of the player box `(1000000001, 500000000, 10, 10)` in binary32 arithmetic
is `(1000000000, 500000000)`. -/
theorem far_player_center :
    centerWith FVal.round32 ⟨1000000001, 500000000, 10, 10⟩
      = ⟨FVal.fin 1000000000, FVal.fin 500000000⟩ := by
  have v1 : FVal.round32 (1000000001) = FVal.fin (1000000000) :=
    FVal.round32_eval_eq 29 15625000 (by norm_num) (by norm_num) (by norm_num)
      (FVal.roundHalfEven_near 15625000 (by norm_num) (by norm_num))
      (by norm_num) (by norm_num)
  have v2 : FVal.round32 (1000000005) = FVal.fin (1000000000) :=
    FVal.round32_eval_eq 29 15625000 (by norm_num) (by norm_num) (by norm_num)
      (FVal.roundHalfEven_near 15625000 (by norm_num) (by norm_num))
      (by norm_num) (by norm_num)
  have v3 : FVal.round32 (500000005) = FVal.fin (500000000) :=
    FVal.round32_eval_eq 28 15625000 (by norm_num) (by norm_num) (by norm_num)
      (FVal.roundHalfEven_near 15625000 (by norm_num) (by norm_num))
      (by norm_num) (by norm_num)
  have v4 : FVal.round32 (500000000) = FVal.fin (500000000) :=
    round32_of_isBinary32 ⟨15625000, 5, by norm_num, by norm_num, by norm_num, by norm_num⟩
  exact centerWith_eval (x := 1000000000) (w := 10) (u := 5) (y := 500000000) (h := 10) (v := 5)
    (FVal.round32_congr (by norm_num) v1) (FVal.round32_congr (by norm_num) round32_10)
    (FVal.round32_congr (by norm_num) round32_5) (FVal.round32_congr (by norm_num) v2)
    (FVal.round32_congr (by norm_num) v4) (FVal.round32_congr (by norm_num) round32_10)
    (FVal.round32_congr (by norm_num) round32_5) (FVal.round32_congr (by norm_num) v3)

/-- The ray of `Game::Tick` in binary32 arithmetic from the player box
`(1000000001, 500000000, 10, 10)` to the mouse box centred on `(112, 112)`: the direction
is `(-999999872, -499999872)`, the inverse `(-9007200 * 2^-53, -9007202 * 2^-52)`. -/
theorem far_player_ray :
    tickRayWith FVal.round32 ⟨1000000001, 500000000, 10, 10⟩ ⟨107, 107, 10, 10⟩
      = ⟨⟨FVal.fin 1000000000, FVal.fin 500000000⟩,
        ⟨FVal.fin (-(281475 / 281474976710656)), FVal.fin (-(4503601 / 2251799813685248))⟩,
        FVal.fin (-999999872), FVal.fin (-499999872)⟩ := by
  have hT : centerWith FVal.round32 ⟨107, 107, 10, 10⟩ = ⟨FVal.fin 112, FVal.fin 112⟩ := by
    have h := centerWith_exact ⟨107, 107, 10, 10⟩ (by norm_num [SDL_Rect.Small])
    rw [h]
    norm_num
  have v4 : FVal.round32 (999999888) = FVal.fin (999999872) :=
    FVal.round32_eval_eq 29 15624998 (by norm_num) (by norm_num) (by norm_num)
      (FVal.roundHalfEven_near 15624998 (by norm_num) (by norm_num))
      (by norm_num) (by norm_num)
  have v5 : FVal.round32 (499999888) = FVal.fin (499999872) :=
    FVal.round32_eval_eq 28 15624996 (by norm_num) (by norm_num) (by norm_num)
      (FVal.roundHalfEven_tie_even 15624996 (by norm_num) (by decide))
      (by norm_num) (by norm_num)
  have v6 : FVal.round32 (1 / 999999872) = FVal.fin (281475 / 281474976710656) :=
    FVal.round32_eval_eq (-30) 9007200 (by norm_num) (by norm_num) (by norm_num)
      (FVal.roundHalfEven_near 9007200 (by norm_num) (by norm_num))
      (by norm_num) (by norm_num)
  have v7 : FVal.round32 (1 / 499999872) = FVal.fin (4503601 / 2251799813685248) :=
    FVal.round32_eval_eq (-29) 9007202 (by norm_num) (by norm_num) (by norm_num)
      (FVal.roundHalfEven_near 9007202 (by norm_num) (by norm_num))
      (by norm_num) (by norm_num)
  exact tickRayWith_eval far_player_center hT
    (FVal.round32_congr (by norm_num) (FVal.round32_neg_eval v4))
    (FVal.round32_congr (by norm_num) (FVal.round32_neg_eval v5))
    (FVal.inverse32_eval (by norm_num)
      (FVal.round32_congr (by norm_num) (FVal.round32_neg_eval v6)))
    (FVal.inverse32_eval (by norm_num)
      (FVal.round32_congr (by norm_num) (FVal.round32_neg_eval v7)))

/-- In binary32 arithmetic the ray from the player box `(1000000001, 500000000, 10, 10)` to
the mouse box centred on `(112, 112)` misses the rectangle `[96, 128] x [96, 128]` around
that centre: both x distances are `1 - 2^-24`, the y distances are `1 + 2^-23` and 1, so
`tmin = 1 > tmax = 1 - 2^-24`. -/
theorem far_player_ray_misses :
    aabbWith FVal.round32 ⟨96, 96, 32, 32⟩
      (tickRayWith FVal.round32 ⟨1000000001, 500000000, 10, 10⟩ ⟨107, 107, 10, 10⟩)
      = false := by
  have c96 : FVal.round32 ((96 : Int) : ℚ) = FVal.fin 96 :=
    FVal.round32_congr (by norm_num) (round32_small 96 (by norm_num) _ (by norm_num))
  have c128 : FVal.round32 ((96 + 32 : Int) : ℚ) = FVal.fin 128 :=
    FVal.round32_congr (by norm_num) (round32_small 128 (by norm_num) _ (by norm_num))
  have v8 : FVal.round32 (999999904) = FVal.fin (999999872) :=
    FVal.round32_eval_eq 29 15624998 (by norm_num) (by norm_num) (by norm_num)
      (FVal.roundHalfEven_tie_even 15624998 (by norm_num) (by decide))
      (by norm_num) (by norm_num)
  have v9 : FVal.round32 (2199023156025 / 2199023255552) = FVal.fin (16777215 / 16777216) :=
    FVal.round32_eval_eq (-1) 16777215 (by norm_num) (by norm_num) (by norm_num)
      (FVal.roundHalfEven_near 16777215 (by norm_num) (by norm_num))
      (by norm_num) (by norm_num)
  have v10 : FVal.round32 (70368752114197 / 70368744177664) = FVal.fin (8388609 / 8388608) :=
    FVal.round32_eval_eq 0 8388609 (by norm_num) (by norm_num) (by norm_num)
      (FVal.roundHalfEven_near 8388609 (by norm_num) (by norm_num))
      (by norm_num) (by norm_num)
  have v11 : FVal.round32 (17592186902649 / 17592186044416) = FVal.fin (1) :=
    FVal.round32_eval_eq 0 8388608 (by norm_num) (by norm_num) (by norm_num)
      (FVal.roundHalfEven_near 8388608 (by norm_num) (by norm_num))
      (by norm_num) (by norm_num)
  have s1 : FVal.round32 ((96 : ℚ) - 1000000000) = FVal.fin (-999999872) :=
    FVal.round32_congr (by norm_num) (FVal.round32_neg_eval v8)
  have s2 : FVal.round32 ((128 : ℚ) - 1000000000) = FVal.fin (-999999872) :=
    FVal.round32_congr (by norm_num) (round32_of_isBinary32
      ⟨-15624998, 6, by norm_num, by norm_num, by norm_num, by norm_num⟩)
  have s3 : FVal.round32 ((96 : ℚ) - 500000000) = FVal.fin (-499999904) :=
    FVal.round32_congr (by norm_num) (round32_of_isBinary32
      ⟨-15624997, 5, by norm_num, by norm_num, by norm_num, by norm_num⟩)
  have s4 : FVal.round32 ((128 : ℚ) - 500000000) = FVal.fin (-499999872) :=
    FVal.round32_congr (by norm_num) (round32_of_isBinary32
      ⟨-15624996, 5, by norm_num, by norm_num, by norm_num, by norm_num⟩)
  have t1 := FVal.dist32_fin (i := -(281475 / 281474976710656)) c96 s1
    (FVal.round32_congr (by norm_num) v9)
  have t2 := FVal.dist32_fin (i := -(281475 / 281474976710656)) c128 s2
    (FVal.round32_congr (by norm_num) v9)
  have t3 := FVal.dist32_fin (i := -(4503601 / 2251799813685248)) c96 s3
    (FVal.round32_congr (by norm_num) v10)
  have t4 := FVal.dist32_fin (i := -(4503601 / 2251799813685248)) c128 s4
    (FVal.round32_congr (by norm_num) v11)
  rw [far_player_ray, aabbWith_of_dists (a := FVal.fin (16777215 / 16777216))
    (b := FVal.fin (16777215 / 16777216)) (c := FVal.fin (8388609 / 8388608))
    (d := FVal.fin 1) _ _ _ t1 t2 t3 t4]
  norm_num [FVal.stdMin_fin, FVal.stdMax_fin, FVal.ge]

theorem Game.withPlayer_frame (g : Game) (p : PlayerBox) :
    (g.withPlayer p).mouse_left_pressed_ = g.mouse_left_pressed_ := rfl

theorem Game.withPlayer_mouse_box (g : Game) (p : PlayerBox) :
    (g.withPlayer p).mouse_box_ = g.mouse_box_ := rfl

theorem Game.withPlayer_board (g : Game) (p : PlayerBox) :
    (g.withPlayer p).board_ = g.board_ := rfl

theorem Game.withPlayer_player (g : Game) (p : PlayerBox) : (g.withPlayer p).player_ = p := rfl

/-- Counterexample to C19: in `farPlayerState` the ray is active and the centre `(112, 112)`
of the mouse box lies strictly inside the rectangle `[96, 128] x [96, 128]` of the wall
cell 78, which is highlighted; the player box is at `(1000000001, 500000000)`.  After
`Tick` in binary32 arithmetic cell 78 has `highlighted = false`. -/
theorem far_player_loses_targeted_wall :
    farPlayerState.mouse_left_pressed_ = true ∧
    farPlayerState.mouse_box_ = ⟨107, 107, 10, 10⟩ ∧
    farPlayerState.player_ = ⟨⟨1000000001, 500000000, 10, 10⟩, 0, 0⟩ ∧
    farPlayerState.board_[78]? = some ⟨⟨96, 96, 32, 32⟩, true, true⟩ ∧
    ((96 : ℚ) < 107 + 10 / 2 ∧ (107 : ℚ) + 10 / 2 < 96 + 32) ∧
    (Tick32 farPlayerState).board_[78]? = some ⟨⟨96, 96, 32, 32⟩, true, false⟩ := by
  have hs := highlightedWall_facts.1
  have hleft : farPlayerState.mouse_left_pressed_ = true := by
    rw [farPlayerState, Game.withPlayer_frame]
    exact hs.left
  have hmb : farPlayerState.mouse_box_ = ⟨107, 107, 10, 10⟩ := by
    rw [farPlayerState, Game.withPlayer_mouse_box]
    exact hs.mbox
  have hcell : farPlayerState.board_[78]? = some ⟨⟨96, 96, 32, 32⟩, true, true⟩ := by
    rw [farPlayerState, Game.withPlayer_board]
    exact hs.cell
  have hpl : farPlayerState.player_ = ⟨⟨1000000001, 500000000, 10, 10⟩, 0, 0⟩ := by
    rw [farPlayerState, Game.withPlayer_player]
  refine ⟨hleft, hmb, hpl, hcell, by norm_num, ?_⟩
  have hbox : farPlayerState.player_.moved.box_ = ⟨1000000001, 500000000, 10, 10⟩ := by
    rw [hpl]
    decide
  rw [Tick32, TickWith_board, if_pos hleft, List.getElem?_map, hcell, hbox, hmb]
  simp [highlightCellWith, far_player_ray_misses]

end AABB
